import Mathlib

/-!
# NifSkope schema compiler (`nifxml.cpp`)

A shallow embedding of `NifXmlHandler` and `NifModel::parseXmlDescription`,
followed by the properties of the compiler that are proved about it.

* `QString` is `String`, `QStringList` is `List String`, `int` is `Int`,
  `quint32` is `Nat`.
* The static members of `NifModel` are the fields of the record `NifModel`;
  the members of the handler object are the fields of `NifXmlHandler`.
  Every method takes the state it reads and returns the state it leaves.
* The heap objects behind `NifBasicType*` and `NifBlock*` are stored by value:
  each object is allocated for one element and is owned by one hash entry.
* Library and header functions (`QString::toLower`, `QString::toInt`,
  `NifModel::version2number`, the iteration order of `QHash::keys`) are the
  fields of `Externals`; statements hold for all of them, evaluations use
  `sampleQt`.
* A document is the sequence of element callbacks the XML reader makes for it
  (`SaxEvent`), each with its line number.
-/

namespace NifXml

/-! ## Externals -/

/-- Functions the file calls but does not define. `toInt` is
`QString::toInt( bool * ok )`: `none` when `ok` comes back false.
`version2number` is declared in `nifmodel.h`. `keyOrder` is the order in which
`QHash::keys()` lists the keys of a hash whose keys, from the most recent
insertion to the oldest, are the argument. -/
structure Externals where
  toLower : String → String
  toLower_eq_empty : ∀ s, toLower s = "" ↔ s = ""
  toInt : String → Option Int
  version2number : String → Nat
  keyOrder : List String → List String
  keyOrder_perm : ∀ l, (keyOrder l).Perm l

/-! ## Data model (`nifmodel.h`, as used by `nifxml.cpp`) -/

/-- The `QVariant` values this file builds. `QVariant()` is `invalid`; the
floating point number and the colour are kept as the string they are read
from. -/
inductive QVariant where
  | invalid
  | int (i : Int)
  | double (vstring : String)
  | string (s : String)
  | color (vstring : String)
  deriving DecidableEq, Repr

/-- `QVariant::isValid`. -/
def QVariant.isValid : QVariant → Bool
  | .invalid => false
  | _ => true

/-- `struct NifBasicType`. -/
structure NifBasicType where
  id : String := ""
  internalType : Int := 0
  display : String := ""
  value : QVariant := .invalid
  ver1 : Nat := 0
  ver2 : Nat := 0
  deriving DecidableEq, Repr

/-- `struct NifData`; the default constructor leaves the strings empty, the
versions `0` and the value invalid. -/
structure NifData where
  name : String := ""
  type : String := ""
  arg : String := ""
  arr1 : String := ""
  arr2 : String := ""
  cond : String := ""
  ver1 : Nat := 0
  ver2 : Nat := 0
  value : QVariant := .invalid
  deriving DecidableEq, Repr

/-- `struct NifBlock`. -/
structure NifBlock where
  id : String := ""
  ancestors : List String := []
  types : List NifData := []
  deriving DecidableEq, Repr

/-- Modelled from the spec: the enumerators `NifModel::it_uint8` ..
`NifModel::it_color4f` of `nifmodel.h`, numbered in the order in which the
spec lists the ten internal kinds. -/
def it_uint8 : Int := 0
/-- Modelled from the spec: see `it_uint8`. -/
def it_uint16 : Int := 1
/-- Modelled from the spec: see `it_uint8`. -/
def it_uint32 : Int := 2
/-- Modelled from the spec: see `it_uint8`. -/
def it_int8 : Int := 3
/-- Modelled from the spec: see `it_uint8`. -/
def it_int16 : Int := 4
/-- Modelled from the spec: see `it_uint8`. -/
def it_int32 : Int := 5
/-- Modelled from the spec: see `it_uint8`. -/
def it_float : Int := 6
/-- Modelled from the spec: see `it_uint8`. -/
def it_string : Int := 7
/-- Modelled from the spec: see `it_uint8`. -/
def it_color3f : Int := 8
/-- Modelled from the spec: see `it_uint8`. -/
def it_color4f : Int := 9

/-- `QXmlAttributes`: qualified name and value of each attribute. -/
abbrev QXmlAttributes := List (String × String)

/-- `QXmlAttributes::value( qName )`: the empty string when there is no such
attribute. -/
def QXmlAttributes.value : QXmlAttributes → String → String
  | [], _ => ""
  | (n, v) :: rest, qName => if n = qName then v else QXmlAttributes.value rest qName

/-- `QString::isEmpty`. -/
def isEmpty (s : String) : Bool := decide (s = "")

/-- `QStringList::indexOf`: position of the first equal string, `-1` if none. -/
def indexOf : List String → String → Int
  | [], _ => -1
  | s :: rest, name =>
    if s = name then 0
    else
      let i := indexOf rest name
      if i < 0 then -1 else i + 1

/-- `QList::value( i )`: the default value when `i` is out of bounds. -/
def listValue (l : List String) (i : Int) : String :=
  if 0 ≤ i then l.getD i.toNat "" else ""

/-! ## `QHash< QString, T* >` -/

/-- The entries of a hash, the most recently inserted first. -/
abbrev QHash (V : Type) := List (String × V)

namespace QHash

variable {V : Type}

/-- `QHash::contains`. -/
def contains : QHash V → String → Bool
  | [], _ => false
  | (k, _) :: rest, key => if k = key then true else contains rest key

/-- `QHash::value`: the most recently inserted value under `key` (`none` for
the null pointer returned when there is none). -/
def value : QHash V → String → Option V
  | [], _ => none
  | (k, v) :: rest, key => if k = key then some v else value rest key

/-- Overwrite the object that `value( key )` points to. -/
def assign : QHash V → String → V → QHash V
  | [], _, _ => []
  | (k, v) :: rest, key, w => if k = key then (k, w) :: rest else (k, v) :: assign rest key w

/-- `QHash::insertMulti`. -/
def insertMulti (h : QHash V) (key : String) (v : V) : QHash V := (key, v) :: h

/-- `QHash::insert`: replaces the value of an existing key. -/
def insert (h : QHash V) (key : String) (v : V) : QHash V :=
  if contains h key then assign h key v else (key, v) :: h

/-- `QHash::keys`. -/
def keys (q : Externals) (h : QHash V) : List String := q.keyOrder (h.map Prod.fst)

end QHash

/-- The static members of `NifModel` defined in this file. -/
structure NifModel where
  internalTypes : List String := []
  types : QHash NifBasicType := []
  compounds : QHash NifBlock := []
  ancestors : QHash NifBlock := []
  blocks : QHash NifBlock := []
  uncondTypes : List String := []
  deriving DecidableEq, Repr

/-! ## `class NifXmlHandler` -/

/-- The data members of the handler. -/
structure NifXmlHandler where
  depth : Int
  stack : List Int
  elements : List String
  errorStr : String
  typ : Option NifBasicType
  blk : Option NifBlock
  deriving DecidableEq, Repr

namespace NifXmlHandler

/-- The constructor. `stack` is not initialised by the source; no cell is read
before `push` has written it. -/
def new : NifXmlHandler :=
  { depth := 0
    stack := List.replicate 10 0
    elements := ["niflotoxml", "type", "compound", "ancestor", "niblock", "add", "inherit"]
    errorStr := ""
    typ := none
    blk := none }

/-- Read `stack[i]`. An index outside the array reads as `0`: the source reads
outside the array only in `endElement`, for the text of the mismatch message
when the last open element is closed under a wrong name. -/
def stackAt (h : NifXmlHandler) (i : Int) : Int :=
  if 0 ≤ i then h.stack.getD i.toNat 0 else 0

/-- `current()`. -/
def current (h : NifXmlHandler) : Int := h.stackAt (h.depth - 1)

/-- `push( x )`: `stack[depth++] = x`. -/
def push (h : NifXmlHandler) (x : Int) : NifXmlHandler :=
  { h with stack := h.stack.set h.depth.toNat x, depth := h.depth + 1 }

/-- `pop()`: `stack[--depth]`, the value returned and the handler left. -/
def pop (h : NifXmlHandler) : Int × NifXmlHandler :=
  (h.stackAt (h.depth - 1), { h with depth := h.depth - 1 })

/-- The macro `err( X )`. -/
def err (h : NifXmlHandler) (X : String) : Bool × NifXmlHandler :=
  (false, { h with errorStr := X })

/-- `convertToType`. `vstring.toInt()` is `0` when the string is not a number.
In the default case the source adds `type` to the address of the literal. -/
def convertToType (q : Externals) (h : NifXmlHandler) (vstring : String) (type : Int) :
    QVariant × NifXmlHandler :=
  if type = it_uint8 ∨ type = it_uint16 ∨ type = it_uint32 ∨
      type = it_int8 ∨ type = it_int16 ∨ type = it_int32 then
    (.int ((q.toInt vstring).getD 0), h)
  else if type = it_float then (.double vstring, h)
  else if type = it_string then (.string vstring, h)
  else if type = it_color3f ∨ type = it_color4f then (.color vstring, h)
  else
    (.invalid, { h with errorStr := "can't convert unknown internal type ".drop type.toNat })

/-- `startElement`. -/
def startElement (q : Externals) (m : NifModel) (h : NifXmlHandler) (name : String)
    (list : QXmlAttributes) : Bool × NifXmlHandler :=
  if h.depth ≥ 8 then h.err "error maximum nesting level exceeded"
  else
    let x := indexOf h.elements name
    if x < 0 then h.err ("error unknown element '" ++ name ++ "'")
    else if h.depth = 0 then
      if x ≠ 0 then h.err "this is not a niflotoxml file"
      else (true, h.push x)
    else
      let c := h.current
      if c = 0 then
        if ¬ (x ≥ 1 ∧ x ≤ 4) then
          h.err ("expected type, compound, ancestor or niblock  got " ++ name ++ " instead")
        else
          let h := h.push x
          if x = 1 then
            let intTyp := indexOf m.internalTypes (list.value "type")
            if intTyp < 0 then h.err "type declaration must name a valid internal type"
            else
              let t := h.typ.getD {}
              let t := { t with id := q.toLower (list.value "name") }
              let t := { t with internalType := intTyp }
              let t := { t with display := q.toLower (list.value "display") }
              let (v, h) := h.convertToType q (list.value "value") t.internalType
              let t := { t with value := v }
              let t := { t with ver1 := q.version2number (list.value "ver1") }
              let t := { t with ver2 := q.version2number (list.value "ver2") }
              (true, { h with typ := some t })
          else if x = 2 ∨ x = 3 ∨ x = 4 then
            let b := h.blk.getD {}
            (true, { h with blk := some { b with id := list.value "name" } })
          else (true, h)
      else if c = 1 then h.err "types only contain a description"
      else if c = 2 ∨ c = 3 ∨ c = 4 then
        if c = 2 ∧ x ≠ 5 then h.err "only add tags allowed in compound type declaration"
        else if ¬ (x = 5 ∨ x = 6) then
          h.err ("only add and inherit tags allowed in " ++ listValue h.elements x ++ " declaration")
        else if x = 5 then
          let data : NifData :=
            { name := q.toLower (list.value "name")
              type := q.toLower (list.value "type")
              arg := q.toLower (list.value "arg")
              arr1 := q.toLower (list.value "arr1")
              arr2 := q.toLower (list.value "arr2")
              cond := q.toLower (list.value "cond")
              ver1 := q.version2number (list.value "ver1")
              ver2 := q.version2number (list.value "ver2") }
          if isEmpty data.name ∨ isEmpty data.type then
            h.err "add needs at least name and type attributes"
          else
            let h := match h.blk with
              | some b => { h with blk := some { b with types := b.types ++ [data] } }
              | none => h
            (true, h.push x)
        else if x = 6 then
          let n := list.value "name"
          if isEmpty n then h.err "inherit needs name attribute"
          else
            let h := match h.blk with
              | some b => { h with blk := some { b with ancestors := b.ancestors ++ [n] } }
              | none => h
            (true, h.push x)
        else (true, h.push x)
      else
        h.err ("error unhandled tag " ++ name ++ " in " ++ listValue h.elements h.current)

/-- `endElement`. -/
def endElement (m : NifModel) (h : NifXmlHandler) (name : String) :
    Bool × NifXmlHandler × NifModel :=
  if h.depth ≤ 0 then
    (false, { h with errorStr := "mismatching end element tag for element " ++ name }, m)
  else
    let x := indexOf h.elements name
    let (p, h) := h.pop
    if p ≠ x then
      (false,
        { h with errorStr :=
            "mismatching end element tag for element " ++ listValue h.elements h.current }, m)
    else if x = 1 then
      match h.typ with
      | some t =>
        if ¬ isEmpty t.id then
          (true, { h with typ := none }, { m with types := m.types.insertMulti t.id t })
        else
          (false,
            { h with typ := none,
                     errorStr := "invalid type declaration: specify at least name and type" }, m)
      | none => (true, h, m)
    else if x = 2 ∨ x = 3 ∨ x = 4 then
      match h.blk with
      | some b =>
        if ¬ isEmpty b.id then
          let m :=
            if x = 2 then { m with compounds := m.compounds.insert b.id b }
            else if x = 3 then { m with ancestors := m.ancestors.insert b.id b }
            else if x = 4 then { m with blocks := m.blocks.insert b.id b }
            else m
          (true, { h with blk := none }, m)
        else
          (false,
            { h with blk := none,
                     errorStr := "invalid " ++ listValue h.elements x ++
                       " declaration: name is empty" }, m)
      | none => (true, h, m)
    else (true, h, m)

/-- The loop `it->value = NifModel::types.value( it->type )->value` for one
field: a field without a valid value takes the value of the primitive type it
names. -/
def setDefault (types : QHash NifBasicType) (it : NifData) : NifData :=
  if types.contains it.type then
    if ¬ it.value.isValid then
      match types.value it.type with
      | some t => { it with value := t.value }
      | none => it
    else it
  else it

/-- The loop over `c->types` of the compound sweep, from the value `nocond`
has so far: the error message, or the final `nocond`. -/
def checkCompoundTypes (m : NifModel) (key : String) : List NifData → Bool → Except String Bool
  | [], nocond => .ok nocond
  | data :: rest, nocond =>
    if ¬ (m.compounds.contains data.type ∨ m.types.contains data.type) then
      .error ("compound type " ++ key ++ " referes to unknown type " ++ data.type)
    else if data.type = key then
      .error ("compound type " ++ key ++ " contains itself")
    else
      checkCompoundTypes m key rest
        (if data.ver1 ≠ 0 ∨ data.ver2 ≠ 0 ∨ ¬ isEmpty data.cond then false else nocond)

/-- The loop over `NifModel::compounds.keys()`. A key of the list always has
an entry; the source would dereference a null pointer otherwise. -/
def sweepCompounds (h : NifXmlHandler) (m : NifModel) :
    List String → Bool × NifXmlHandler × NifModel
  | [] => (true, h, m)
  | key :: keys =>
    match m.compounds.value key with
    | none => sweepCompounds h m keys
    | some c =>
      match checkCompoundTypes m key c.types true with
      | .error e => (false, { h with errorStr := e }, m)
      | .ok nocond =>
        let m := if nocond then { m with uncondTypes := m.uncondTypes ++ [key] } else m
        let c := { c with types := c.types.map (setDefault m.types) }
        let m := { m with compounds := m.compounds.assign key c }
        sweepCompounds h m keys

/-- The loop over `blk->ancestors` of the ancestor sweep. -/
def checkAncestorAncestors (m : NifModel) (key : String) : List String → Except String Unit
  | [] => .ok ()
  | a :: rest =>
    if ¬ m.ancestors.contains a then
      .error ("ancestor block " ++ key ++ " inherits unknown ancestor " ++ a)
    else if a = key then
      .error ("ancestor block " ++ key ++ " inherits itself")
    else checkAncestorAncestors m key rest

/-- The loop over `blk->types` of the ancestor and niblock sweeps; `what` is
the start of the message. -/
def checkTypes (m : NifModel) (what : String) (verb : String) (key : String) :
    List NifData → Except String Unit
  | [] => .ok ()
  | data :: rest =>
    if ¬ (m.compounds.contains data.type ∨ m.types.contains data.type) then
      .error (what ++ key ++ verb ++ data.type)
    else checkTypes m what verb key rest

/-- The loop over `NifModel::ancestors.keys()`. -/
def sweepAncestors (h : NifXmlHandler) (m : NifModel) :
    List String → Bool × NifXmlHandler × NifModel
  | [] => (true, h, m)
  | key :: keys =>
    match m.ancestors.value key with
    | none => sweepAncestors h m keys
    | some blk =>
      match checkAncestorAncestors m key blk.ancestors with
      | .error e => (false, { h with errorStr := e }, m)
      | .ok _ =>
        match checkTypes m "ancestor block " " referes to unknown type " key blk.types with
        | .error e => (false, { h with errorStr := e }, m)
        | .ok _ =>
          let blk := { blk with types := blk.types.map (setDefault m.types) }
          let m := { m with ancestors := m.ancestors.assign key blk }
          sweepAncestors h m keys

/-- The loop over `blk->ancestors` of the niblock sweep. -/
def checkBlockAncestors (m : NifModel) (key : String) : List String → Except String Unit
  | [] => .ok ()
  | a :: rest =>
    if ¬ m.ancestors.contains a then
      .error ("niblock " ++ key ++ " inherits unknown ancestor " ++ a)
    else checkBlockAncestors m key rest

/-- The loop over `NifModel::blocks.keys()`. -/
def sweepBlocks (h : NifXmlHandler) (m : NifModel) :
    List String → Bool × NifXmlHandler × NifModel
  | [] => (true, h, m)
  | key :: keys =>
    match m.blocks.value key with
    | none => sweepBlocks h m keys
    | some blk =>
      match checkBlockAncestors m key blk.ancestors with
      | .error e => (false, { h with errorStr := e }, m)
      | .ok _ =>
        match checkTypes m "compound type " " referres to unknown type " key blk.types with
        | .error e => (false, { h with errorStr := e }, m)
        | .ok _ =>
          let blk := { blk with types := blk.types.map (setDefault m.types) }
          let m := { m with blocks := m.blocks.assign key blk }
          sweepBlocks h m keys

/-- `endDocument`. -/
def endDocument (q : Externals) (h : NifXmlHandler) (m : NifModel) :
    Bool × NifXmlHandler × NifModel :=
  let m := { m with uncondTypes := m.types.keys q }
  match sweepCompounds h m (m.compounds.keys q) with
  | (false, h, m) => (false, h, m)
  | (true, h, m) =>
    match sweepAncestors h m (m.ancestors.keys q) with
    | (false, h, m) => (false, h, m)
    | (true, h, m) => sweepBlocks h m (m.blocks.keys q)

/-- `errorString`. -/
def errorString (h : NifXmlHandler) : String := h.errorStr

/-- `fatalError`, for an exception raised at line `lineNumber`. -/
def fatalError (h : NifXmlHandler) (lineNumber : Int) : NifXmlHandler :=
  let h := if isEmpty h.errorStr then { h with errorStr := "Syntax error" } else h
  { h with errorStr := "XML parse error (line " ++ toString lineNumber ++ "):<br>" ++ h.errorStr }

end NifXmlHandler

/-! ## The reader and the entry point -/

/-- The callbacks `QXmlSimpleReader` makes for the elements of a document,
each with the line the reader has reached. The callback `characters` returns
true and changes nothing, so text is no event. -/
inductive SaxEvent where
  | startElement (line : Int) (qName : String) (atts : QXmlAttributes)
  | endElement (line : Int) (qName : String)
  deriving DecidableEq, Repr

/-- The line of an event. -/
def SaxEvent.line : SaxEvent → Int
  | .startElement l _ _ => l
  | .endElement l _ => l

/-- What the reader finds in an opened file: the element events in document
order and the line at which the document ends. -/
structure XmlSource where
  events : List SaxEvent
  endLine : Int
  deriving DecidableEq, Repr

/-- One callback. -/
def deliver (q : Externals) (h : NifXmlHandler) (m : NifModel) :
    SaxEvent → Bool × NifXmlHandler × NifModel
  | .startElement _ qName atts =>
    ((h.startElement q m qName atts).1, (h.startElement q m qName atts).2, m)
  | .endElement _ qName => h.endElement m qName

/-- The reader calls the handler for each event and stops at the first one
that returns false, which it reports through `fatalError`. -/
def parseEvents (q : Externals) (h : NifXmlHandler) (m : NifModel) :
    List SaxEvent → Bool × NifXmlHandler × NifModel
  | [] => (true, h, m)
  | e :: es =>
    match deliver q h m e with
    | (true, h, m) => parseEvents q h m es
    | (false, h, m) => (false, h.fatalError e.line, m)

/-- `QXmlSimpleReader::parse` on a well-formed document: the element events,
then `endDocument`. What the reader does with the tags of any file, well-formed
or not, is `xmlReaderParse` below; on a well-formed document the two agree. -/
def readerParse (q : Externals) (h : NifXmlHandler) (m : NifModel) (source : XmlSource) :
    Bool × NifXmlHandler × NifModel :=
  match parseEvents q h m source.events with
  | (false, h, m) => (false, h, m)
  | (true, h, m) =>
    match h.endDocument q m with
    | (false, h, m) => (false, h.fatalError source.endLine, m)
    | (true, h, m) => (true, h, m)

/-- What `QXmlSimpleReader` keeps of the tags it has read: the names of the
open elements, innermost first, and whether the root element has been
closed. -/
structure ReaderState where
  opened : List String
  closed : Bool
  deriving DecidableEq, Repr

/-- The check `QXmlSimpleReader` makes on a tag before it calls the handler;
`none` is an error of the reader's own. A start tag is an error once the root
element has been closed: a document has one root element. An end tag is an
error when no element is open, or when its name is not the name of the
innermost open element. -/
def tagStep (s : ReaderState) : SaxEvent → Option ReaderState
  | .startElement _ qName _ =>
    if s.closed then none else some { s with opened := qName :: s.opened }
  | .endElement _ qName =>
    match s.opened with
    | [] => none
    | top :: rest =>
      if top = qName then some { opened := rest, closed := rest.isEmpty } else none

/-- The reader's check on a sequence of tags. -/
def tagRun (s : ReaderState) : List SaxEvent → Option ReaderState
  | [] => some s
  | e :: es =>
    match tagStep s e with
    | none => none
    | some s => tagRun s es

/-- The tags are those of a well-formed document: properly nested, with one
root element, closed. -/
def wellFormed (es : List SaxEvent) : Bool :=
  match tagRun { opened := [], closed := false } es with
  | some s => s.closed
  | none => false

/-- The tags of a file as `QXmlSimpleReader` works through them, whether the
file is well-formed or not. The reader checks each tag first and reports an
error of its own through `fatalError`, without calling `startElement` or
`endElement`; the handler has set no error string then. Otherwise it calls the
handler and stops when that returns false. The last component is the state of
the reader. -/
def xmlReaderEvents (q : Externals) (h : NifXmlHandler) (m : NifModel) (s : ReaderState) :
    List SaxEvent → Bool × NifXmlHandler × NifModel × ReaderState
  | [] => (true, h, m, s)
  | e :: es =>
    match tagStep s e with
    | none => (false, h.fatalError e.line, m, s)
    | some s' =>
      match deliver q h m e with
      | (true, h, m) => xmlReaderEvents q h m s' es
      | (false, h, m) => (false, h.fatalError e.line, m, s)

/-- `QXmlSimpleReader::parse` on the tags of a file, well-formed or not: when
the input ends before the root element has been closed, the reader reports an
error of its own and does not call `endDocument`. -/
def xmlReaderParse (q : Externals) (h : NifXmlHandler) (m : NifModel) (source : XmlSource) :
    Bool × NifXmlHandler × NifModel :=
  match xmlReaderEvents q h m { opened := [], closed := false } source.events with
  | (false, h, m, _) => (false, h, m)
  | (true, h, m, s) =>
    if s.closed then
      match h.endDocument q m with
      | (false, h, m) => (false, h.fatalError source.endLine, m)
      | (true, h, m) => (true, h, m)
    else (false, h.fatalError source.endLine, m)

/-- The ten tags `parseXmlDescription` puts into `internalTypes`. -/
def internalTypeTags : List String :=
  ["uint8", "uint16", "uint32", "int8", "int16", "int32", "float", "string", "color3f", "color4f"]

/-- The statements of `parseXmlDescription` before the file is opened: the
four hashes are cleared and `internalTypes` is filled. -/
def clearRegistry (m : NifModel) : NifModel :=
  let m := { m with types := [] }
  let m := { m with compounds := [] }
  let m := { m with ancestors := [] }
  let m := { m with blocks := [] }
  { m with internalTypes := internalTypeTags }

/-- `NifModel::parseXmlDescription`. `f` is the file that could be opened
(`filename`, else the bundled `:/res/NifSkope.xml`), `none` when neither
could; it is taken to be well-formed, see `readerParse`. Returns the error
string and the static members it leaves. -/
def parseXmlDescription (q : Externals) (m : NifModel) (filename : String)
    (f : Option XmlSource) : String × NifModel :=
  let m := clearRegistry m
  match f with
  | none => ("error: couldn't open xml description file: " ++ filename, m)
  | some source =>
    let r := readerParse q NifXmlHandler.new m source
    (r.2.1.errorString, r.2.2)

/-! ## A sample of the externals, for evaluation -/

/-- The value of a string of decimal digits. -/
def decimalValue : List Char → Nat → Option Nat
  | [], acc => some acc
  | c :: cs, acc => if c.isDigit then decimalValue cs (acc * 10 + (c.toNat - 48)) else none

/-- A decimal number with an optional sign; `none` for the empty string and
for anything else. -/
def sampleToInt (s : String) : Option Int :=
  match s.data with
  | [] => none
  | '-' :: c :: cs => (decimalValue (c :: cs) 0).map (fun n => - (n : Int))
  | '+' :: c :: cs => (decimalValue (c :: cs) 0).map (fun n => (n : Int))
  | cs => if cs.all Char.isDigit then (decimalValue cs 0).map (fun n => (n : Int)) else none

/-- Lower the letters `A` to `Z`. -/
def sampleToLower (s : String) : String := ⟨s.data.map Char.toLower⟩

/-- Externals for closed evaluation: ASCII lower-casing, decimal `toInt`,
`version2number` of a plain number (`0` for the empty string), and keys listed
from the most recent insertion to the oldest. -/
def sampleQt : Externals where
  toLower := sampleToLower
  toLower_eq_empty := by
    intro s
    obtain ⟨l⟩ := s
    cases l with
    | nil => simp [sampleToLower]
    | cons c cs =>
      constructor
      · intro hl
        have := congrArg String.data hl
        simp [sampleToLower] at this
      · intro hl
        have := congrArg String.data hl
        simp at this
  toInt := sampleToInt
  version2number := fun s => ((sampleToInt s).getD 0).toNat
  keyOrder := fun l => l
  keyOrder_perm := fun l => List.Perm.refl l

/-! ## Vocabulary of the statements -/

/-- The type name `t` is a key of the field-group or of the primitive-type
mapping. -/
def Resolves (m : NifModel) (t : String) : Prop :=
  m.compounds.contains t = true ∨ m.types.contains t = true

/-- A field without version bound and without condition. -/
def NifData.unconditional (d : NifData) : Bool :=
  decide (d.ver1 = 0) && decide (d.ver2 = 0) && isEmpty d.cond

/-- Every field of the block is unconditional. -/
def NifBlock.nocond (c : NifBlock) : Bool := c.types.all NifData.unconditional

/-- The block with the defaults of its fields propagated. -/
def NifBlock.withDefaults (types : QHash NifBasicType) (c : NifBlock) : NifBlock :=
  { c with types := c.types.map (NifXmlHandler.setDefault types) }

/-- A field group passes the compound sweep: its field types resolve and none
is the group itself. -/
def CompoundOk (m : NifModel) (key : String) (c : NifBlock) : Prop :=
  ∀ d ∈ c.types, Resolves m d.type ∧ d.type ≠ key

/-- An ancestor record passes the ancestor sweep. -/
def AncestorOk (m : NifModel) (key : String) (b : NifBlock) : Prop :=
  (∀ a ∈ b.ancestors, m.ancestors.contains a = true ∧ a ≠ key) ∧
    ∀ d ∈ b.types, Resolves m d.type

/-- A record type passes the niblock sweep. -/
def BlockOk (m : NifModel) (b : NifBlock) : Prop :=
  (∀ a ∈ b.ancestors, m.ancestors.contains a = true) ∧ ∀ d ∈ b.types, Resolves m d.type

/-- A callback result with the unconditional set of its registry replaced. -/
def withUncond (u : List String) (r : Bool × NifXmlHandler × NifModel) :
    Bool × NifXmlHandler × NifModel :=
  (r.1, r.2.1, { r.2.2 with uncondTypes := u })

/-- The states of the handler and of the registry while the reader runs
inside `parseXmlDescription`: the fresh handler on the cleared registry, and
every state an accepted callback leads to. -/
inductive Reachable (q : Externals) : NifXmlHandler → NifModel → Prop where
  | init (m : NifModel) : Reachable q NifXmlHandler.new (clearRegistry m)
  | step {h : NifXmlHandler} {m : NifModel} (e : SaxEvent) :
      Reachable q h m → (deliver q h m e).1 = true →
      Reachable q (deliver q h m e).2.1 (deliver q h m e).2.2

/-- The shape of a reachable state: at most three elements are open, the root
at the bottom, a declaration above it and an `add` or `inherit` above that;
a primitive type is being built exactly inside `type`, a block exactly inside
`compound`, `ancestor` and `niblock`. -/
structure Inv (h : NifXmlHandler) (m : NifModel) : Prop where
  elements : h.elements = NifXmlHandler.new.elements
  stackLength : h.stack.length = 10
  tags : m.internalTypes = internalTypeTags
  shape :
    (h.depth = 0 ∧ h.typ = none ∧ h.blk = none) ∨
    (h.depth = 1 ∧ h.stackAt 0 = 0 ∧ h.typ = none ∧ h.blk = none) ∨
    (h.depth = 2 ∧ h.stackAt 0 = 0 ∧ h.stackAt 1 = 1 ∧ (∃ t, h.typ = some t) ∧ h.blk = none) ∨
    (h.depth = 2 ∧ h.stackAt 0 = 0 ∧ (h.stackAt 1 = 2 ∨ h.stackAt 1 = 3 ∨ h.stackAt 1 = 4) ∧
      h.typ = none ∧ ∃ b, h.blk = some b) ∨
    (h.depth = 3 ∧ h.stackAt 0 = 0 ∧ (h.stackAt 1 = 2 ∨ h.stackAt 1 = 3 ∨ h.stackAt 1 = 4) ∧
      (h.stackAt 2 = 5 ∨ h.stackAt 2 = 6) ∧ h.typ = none ∧ ∃ b, h.blk = some b)

/-- The `NifData` that `startElement` builds from the attributes of an `add`
element. -/
def addedField (q : Externals) (list : QXmlAttributes) : NifData :=
  { name := q.toLower (list.value "name")
    type := q.toLower (list.value "type")
    arg := q.toLower (list.value "arg")
    arr1 := q.toLower (list.value "arr1")
    arr2 := q.toLower (list.value "arr2")
    cond := q.toLower (list.value "cond")
    ver1 := q.version2number (list.value "ver1")
    ver2 := q.version2number (list.value "ver2") }

/-- The `NifBasicType` that `startElement` builds from the attributes of a
`type` element whose internal kind is valid. -/
def declaredType (q : Externals) (list : QXmlAttributes) : NifBasicType :=
  { id := q.toLower (list.value "name")
    internalType := indexOf internalTypeTags (list.value "type")
    display := q.toLower (list.value "display")
    value := (NifXmlHandler.new.convertToType q (list.value "value")
      (indexOf internalTypeTags (list.value "type"))).1
    ver1 := q.version2number (list.value "ver1")
    ver2 := q.version2number (list.value "ver2") }

/-- The fields that the `add` elements opened by the events contribute, in
document order. -/
def addedFields (q : Externals) : List SaxEvent → List NifData
  | [] => []
  | .startElement _ qName atts :: es =>
    if qName = "add" then addedField q atts :: addedFields q es else addedFields q es
  | .endElement _ _ :: es => addedFields q es

/-- The names that the `inherit` elements opened by the events contribute, in
document order. -/
def inheritedNames : List SaxEvent → List String
  | [] => []
  | .startElement _ qName atts :: es =>
    if qName = "inherit" then atts.value "name" :: inheritedNames es else inheritedNames es
  | .endElement _ _ :: es => inheritedNames es

/-- The hash into which `endElement` commits the block of an element with
index `x` in `elements` (2 for `compound`, 3 for `ancestor`, 4 for `niblock`). -/
def NifModel.blockHash (m : NifModel) (x : Int) : QHash NifBlock :=
  if x = 2 then m.compounds else if x = 3 then m.ancestors else m.blocks

/-- The block with more fields and more ancestor names appended. -/
def NifBlock.extend (b : NifBlock) (fields : List NifData) (names : List String) : NifBlock :=
  { b with types := b.types ++ fields, ancestors := b.ancestors ++ names }

/-- The name of the innermost open element, `none` when no element is open. -/
def NifXmlHandler.innermost (h : NifXmlHandler) : Option String :=
  if h.depth = 0 then none else some (listValue h.elements h.current)

/-- The parent and child pairs of the element grammar. -/
def AllowedPair : Option String → String → Prop
  | none, child => child = "niflotoxml"
  | some parent, child =>
    (parent = "niflotoxml" ∧
      (child = "type" ∨ child = "compound" ∨ child = "ancestor" ∨ child = "niblock")) ∨
    (parent = "compound" ∧ child = "add") ∨
    ((parent = "ancestor" ∨ parent = "niblock") ∧ (child = "add" ∨ child = "inherit"))

/-- The attributes an element needs to be opened: a valid internal kind for
`type`, a non-empty `name` and `type` for `add`, a non-empty `name` for
`inherit`. -/
def RequiredAttributes (name : String) (list : QXmlAttributes) : Prop :=
  (name = "type" → list.value "type" ∈ internalTypeTags) ∧
  (name = "add" → list.value "name" ≠ "" ∧ list.value "type" ≠ "") ∧
  (name = "inherit" → list.value "name" ≠ "")

/-- Every field group passes the compound sweep. -/
def CompoundsOk (m : NifModel) : Prop :=
  ∀ k c, m.compounds.value k = some c → CompoundOk m k c

/-- Every ancestor record passes the ancestor sweep. -/
def AncestorsOk (m : NifModel) : Prop :=
  ∀ k b, m.ancestors.value k = some b → AncestorOk m k b

/-- Every record type passes the niblock sweep. -/
def BlocksOk (m : NifModel) : Prop :=
  ∀ k b, m.blocks.value k = some b → BlockOk m b

/-- A field as `startElement` builds it from the attributes of an `add`
element that it accepts. -/
def Captured (q : Externals) (d : NifData) : Prop :=
  ∃ list : QXmlAttributes,
    list.value "name" ≠ "" ∧ list.value "type" ≠ "" ∧ d = addedField q list

/-- An entry of a block hash is stored under its own, non-empty id and holds
captured fields only. -/
def Keyed (q : Externals) (e : String × NifBlock) : Prop :=
  e.1 ≠ "" ∧ e.2.id = e.1 ∧ ∀ d ∈ e.2.types, Captured q d

/-- What the callbacks maintain about the registry and about the block being
built. -/
structure RegInv (q : Externals) (h : NifXmlHandler) (m : NifModel) : Prop where
  types : ∀ e ∈ m.types, e.1 ≠ "" ∧ e.2.id = e.1
  compounds : ∀ e ∈ m.compounds, Keyed q e
  ancestors : ∀ e ∈ m.ancestors, Keyed q e
  blocks : ∀ e ∈ m.blocks, Keyed q e
  building : ∀ b, h.blk = some b → ∀ d ∈ b.types, Captured q d

/-- How a sweep of `endDocument` may leave an entry: under the same key, the
block as it was or with the defaults of its fields propagated. -/
def Swept (types : QHash NifBasicType) (e' e : String × NifBlock) : Prop :=
  e'.1 = e.1 ∧ (e'.2 = e.2 ∨ e'.2 = e.2.withDefaults types)

/-- No key occurs twice in a block hash. -/
def KeysNodup (m : NifModel) : Prop :=
  (m.compounds.map Prod.fst).Nodup ∧ (m.ancestors.map Prod.fst).Nodup ∧
    (m.blocks.map Prod.fst).Nodup

/-! ## Registries and documents used for evaluation -/

/-- A registry with one primitive type, one field group, one ancestor record
and one record type, all references resolved. -/
def smallRegistry : NifModel :=
  { internalTypes := internalTypeTags
    types := [("float", { id := "float", internalType := 6, value := .double "0.0" })]
    compounds := [("vector3", { id := "vector3", types :=
      [{ name := "x", type := "float" }, { name := "y", type := "float", value := .double "1.0" }] })]
    ancestors := [("AController", { id := "AController", types := [{ name := "v", type := "vector3" }] })]
    blocks := [("NiNode", { id := "NiNode", ancestors := ["AController"], types :=
      [{ name := "scale", type := "float", cond := "has scale" }] })] }

/-- A document in which the field group `a` has a conditioned field and shares
its id with the primitive type `a`. -/
def sharedIdDocument : XmlSource :=
  { events := [
      .startElement 1 "niflotoxml" [],
      .startElement 2 "type" [("name", "a"), ("type", "uint8")],
      .endElement 2 "type",
      .startElement 3 "type" [("name", "b"), ("type", "uint8")],
      .endElement 3 "type",
      .startElement 4 "compound" [("name", "a")],
      .startElement 5 "add" [("name", "x"), ("type", "b"), ("cond", "y")],
      .endElement 5 "add",
      .endElement 6 "compound",
      .endElement 7 "niflotoxml"],
    endLine := 7 }

/-- A document whose only declaration is a `uint8` type with the default
string `abc`. -/
def badDefaultDocument : XmlSource :=
  { events := [
      .startElement 1 "niflotoxml" [],
      .startElement 2 "type" [("name", "count"), ("type", "uint8"), ("value", "abc")],
      .endElement 2 "type",
      .endElement 3 "niflotoxml"],
    endLine := 3 }

/-- The end-to-end example of the specification: the type `flag`, the
compound `Vector3` with three `float` fields, and the niblock `NiNode` that
inherits the undeclared `AController`. -/
def exampleDocument : XmlSource :=
  { events := [
      .startElement 1 "niflotoxml" [],
      .startElement 2 "type" [("name", "flag"), ("type", "uint16"), ("value", "0")],
      .endElement 2 "type",
      .startElement 3 "compound" [("name", "Vector3")],
      .startElement 4 "add" [("name", "x"), ("type", "float")],
      .endElement 4 "add",
      .startElement 5 "add" [("name", "x"), ("type", "float")],
      .endElement 5 "add",
      .startElement 6 "add" [("name", "x"), ("type", "float")],
      .endElement 6 "add",
      .endElement 7 "compound",
      .startElement 8 "niblock" [("name", "NiNode")],
      .startElement 9 "inherit" [("name", "AController")],
      .endElement 9 "inherit",
      .endElement 10 "niblock",
      .endElement 11 "niflotoxml"],
    endLine := 11 }

/-- The example document with a primitive type `float` declared as well. -/
def exampleDocumentWithFloat : XmlSource :=
  { events := [
      .startElement 1 "niflotoxml" [],
      .startElement 2 "type" [("name", "flag"), ("type", "uint16"), ("value", "0")],
      .endElement 2 "type",
      .startElement 2 "type" [("name", "float"), ("type", "float"), ("value", "0.0")],
      .endElement 2 "type",
      .startElement 3 "compound" [("name", "Vector3")],
      .startElement 4 "add" [("name", "x"), ("type", "float")],
      .endElement 4 "add",
      .startElement 5 "add" [("name", "x"), ("type", "float")],
      .endElement 5 "add",
      .startElement 6 "add" [("name", "x"), ("type", "float")],
      .endElement 6 "add",
      .endElement 7 "compound",
      .startElement 8 "niblock" [("name", "NiNode")],
      .startElement 9 "inherit" [("name", "AController")],
      .endElement 9 "inherit",
      .endElement 10 "niblock",
      .endElement 11 "niflotoxml"],
    endLine := 11 }

/-- A first run: a document that declares the primitive type `old`. -/
def firstRunDocument : XmlSource :=
  { events := [
      .startElement 1 "niflotoxml" [],
      .startElement 2 "type" [("name", "old"), ("type", "uint8")],
      .endElement 2 "type",
      .endElement 3 "niflotoxml"],
    endLine := 3 }

/-- A second run: a document whose root element is not `niflotoxml`. -/
def notSchemaDocument : XmlSource :=
  { events := [.startElement 1 "html" [], .endElement 2 "html"], endLine := 2 }

/-- A document in which the compound `a` has a field of type `a`. -/
def selfCompoundDocument : XmlSource :=
  { events := [
      .startElement 1 "niflotoxml" [],
      .startElement 2 "compound" [("name", "a")],
      .startElement 3 "add" [("name", "x"), ("type", "a")],
      .endElement 3 "add",
      .endElement 4 "compound",
      .endElement 5 "niflotoxml"],
    endLine := 5 }

/-- A document in which the compound `Vec` has a field whose `type` attribute
is `Vec`, and which declares a primitive type `vec`. -/
def upperSelfDocument : XmlSource :=
  { events := [
      .startElement 1 "niflotoxml" [],
      .startElement 2 "type" [("name", "vec"), ("type", "float")],
      .endElement 2 "type",
      .startElement 3 "compound" [("name", "Vec")],
      .startElement 4 "add" [("name", "x"), ("type", "Vec")],
      .endElement 4 "add",
      .endElement 5 "compound",
      .endElement 6 "niflotoxml"],
    endLine := 6 }

/-- The document `upperSelfDocument` without the primitive type `vec`. -/
def upperSelfOnlyDocument : XmlSource :=
  { events := [
      .startElement 1 "niflotoxml" [],
      .startElement 3 "compound" [("name", "Vec")],
      .startElement 4 "add" [("name", "x"), ("type", "Vec")],
      .endElement 4 "add",
      .endElement 5 "compound",
      .endElement 6 "niflotoxml"],
    endLine := 6 }

/-- A document in which the ancestor `A` inherits `A`. -/
def selfAncestorDocument : XmlSource :=
  { events := [
      .startElement 1 "niflotoxml" [],
      .startElement 2 "ancestor" [("name", "A")],
      .startElement 3 "inherit" [("name", "A")],
      .endElement 3 "inherit",
      .endElement 4 "ancestor",
      .endElement 5 "niflotoxml"],
    endLine := 5 }

/-- A document in which the ancestor `A` inherits `A` and a second ancestor
element named `A`, without children, follows. -/
def replacedAncestorDocument : XmlSource :=
  { events := [
      .startElement 1 "niflotoxml" [],
      .startElement 2 "ancestor" [("name", "A")],
      .startElement 3 "inherit" [("name", "A")],
      .endElement 3 "inherit",
      .endElement 4 "ancestor",
      .startElement 5 "ancestor" [("name", "A")],
      .endElement 5 "ancestor",
      .endElement 6 "niflotoxml"],
    endLine := 6 }

/-- A document with two field groups that contain each other: `a` has a field
of type `b` and `b` has a field of type `a`. -/
def twoCycleDocument : XmlSource :=
  { events := [
      .startElement 1 "niflotoxml" [],
      .startElement 2 "compound" [("name", "a")],
      .startElement 3 "add" [("name", "x"), ("type", "b")],
      .endElement 3 "add",
      .endElement 4 "compound",
      .startElement 5 "compound" [("name", "b")],
      .startElement 6 "add" [("name", "y"), ("type", "a")],
      .endElement 6 "add",
      .endElement 7 "compound",
      .endElement 8 "niflotoxml"],
    endLine := 8 }

/-- A document with a primitive type `f`, an ancestor `A` and a niblock `N`
whose fields have no condition and no version bound. -/
def plainBlocksDocument : XmlSource :=
  { events := [
      .startElement 1 "niflotoxml" [],
      .startElement 2 "type" [("name", "f"), ("type", "float")],
      .endElement 2 "type",
      .startElement 3 "ancestor" [("name", "A")],
      .startElement 4 "add" [("name", "x"), ("type", "f")],
      .endElement 4 "add",
      .endElement 5 "ancestor",
      .startElement 6 "niblock" [("name", "N")],
      .startElement 7 "inherit" [("name", "A")],
      .endElement 7 "inherit",
      .startElement 8 "add" [("name", "y"), ("type", "f")],
      .endElement 8 "add",
      .endElement 9 "niblock",
      .endElement 10 "niflotoxml"],
    endLine := 10 }

/-- A document in which the root element is opened, closed and opened
again. -/
def twoRootsDocument : XmlSource :=
  { events :=
      [ .startElement 1 "niflotoxml" [],
        .endElement 2 "niflotoxml",
        .startElement 3 "niflotoxml" [],
        .endElement 4 "niflotoxml" ],
    endLine := 5 }

/-- Two open elements: the root and a field group named `c`. -/
def openCompoundEvents : List SaxEvent :=
  [ .startElement 1 "niflotoxml" [],
    .startElement 2 "compound" [("name", "c")] ]

/-- The root and an open field group without a name. -/
def namelessCompoundEvents : List SaxEvent :=
  [ .startElement 1 "niflotoxml" [],
    .startElement 2 "compound" [] ]

/-- A document that declares the primitive type `int` twice, first as `Int`
with default 1, then as `int` with default 2, and a field group with one field
of that type. -/
def twiceDeclaredDocument : XmlSource :=
  { events :=
      [ .startElement 1 "niflotoxml" [],
        .startElement 2 "type" [("name", "Int"), ("type", "int32"), ("value", "1")],
        .endElement 2 "type",
        .startElement 3 "type" [("name", "int"), ("type", "int32"), ("value", "2")],
        .endElement 3 "type",
        .startElement 4 "compound" [("name", "pair")],
        .startElement 5 "add" [("name", "x"), ("type", "int")],
        .endElement 5 "add",
        .endElement 6 "compound",
        .endElement 7 "niflotoxml" ],
    endLine := 8 }

/-- A document with the field groups `Vec` and `vec`, and a field group `user`
whose field names `Vec` in its `type` attribute. -/
def mixedCaseDocument : XmlSource :=
  { events :=
      [ .startElement 1 "niflotoxml" [],
        .startElement 2 "type" [("name", "int"), ("type", "int32")],
        .endElement 2 "type",
        .startElement 3 "compound" [("name", "Vec")],
        .startElement 4 "add" [("name", "x"), ("type", "int")],
        .endElement 4 "add",
        .endElement 5 "compound",
        .startElement 6 "compound" [("name", "vec")],
        .startElement 7 "add" [("name", "y"), ("type", "int")],
        .endElement 7 "add",
        .endElement 8 "compound",
        .startElement 9 "compound" [("name", "user")],
        .startElement 10 "add" [("name", "v"), ("type", "Vec")],
        .endElement 10 "add",
        .endElement 11 "compound",
        .endElement 12 "niflotoxml" ],
    endLine := 13 }

/-! ## Lemmas on the hash and on the sweeps of `endDocument` -/

open NifXmlHandler

namespace QHash

variable {V : Type}

theorem contains_iff_mem (h : QHash V) (key : String) :
    contains h key = true ↔ key ∈ h.map Prod.fst := by
  induction h with
  | nil => simp [contains]
  | cons e rest ih =>
    obtain ⟨k, v⟩ := e
    by_cases hk : k = key
    · simp [contains, hk]
    · simp [contains, hk, ih, Ne.symm hk]

theorem contains_iff_value (h : QHash V) (key : String) :
    contains h key = true ↔ ∃ v, value h key = some v := by
  induction h with
  | nil => simp [contains, value]
  | cons e rest ih =>
    obtain ⟨k, v⟩ := e
    by_cases hk : k = key
    · simp [contains, value, hk]
    · simp [contains, value, hk, ih]

theorem map_fst_assign (h : QHash V) (key : String) (w : V) :
    (assign h key w).map Prod.fst = h.map Prod.fst := by
  induction h with
  | nil => simp [assign]
  | cons e rest ih =>
    obtain ⟨k, v⟩ := e
    by_cases hk : k = key
    · simp [assign, hk]
    · simp [assign, hk, ih]

theorem contains_assign (h : QHash V) (key : String) (w : V) (k : String) :
    contains (assign h key w) k = contains h k := by
  induction h with
  | nil => simp [assign]
  | cons e rest ih =>
    obtain ⟨k', v⟩ := e
    by_cases hk : k' = key
    · simp [assign, hk, contains]
    · simp [assign, hk, ih, contains]

theorem value_assign (h : QHash V) (key : String) (w : V) (k : String) :
    value (assign h key w) k =
      if k = key then (value h key).map (fun _ => w) else value h k := by
  induction h with
  | nil => simp [assign, value]
  | cons e rest ih =>
    obtain ⟨k', v⟩ := e
    by_cases hk : k' = key
    · by_cases hk2 : k = key
      · simp [assign, hk, value, hk2]
      · simp [assign, hk, value, hk2, Ne.symm hk2]
    · by_cases hk2 : k = key
      · subst hk2
        simp [assign, hk, value, ih]
      · by_cases hk3 : k' = k
        · simp [assign, hk, value, hk2, hk3]
        · simp [assign, hk, value, hk2, hk3, ih]

end QHash

theorem setDefault_type (t : QHash NifBasicType) (d : NifData) :
    (setDefault t d).type = d.type := by
  unfold setDefault
  split
  · split
    · split <;> rfl
    · rfl
  · rfl

theorem setDefault_unconditional (t : QHash NifBasicType) (d : NifData) :
    (setDefault t d).unconditional = d.unconditional := by
  unfold setDefault
  split
  · split
    · split <;> rfl
    · rfl
  · rfl

theorem setDefault_idem (t : QHash NifBasicType) (d : NifData) :
    setDefault t (setDefault t d) = setDefault t d := by
  by_cases hc : t.contains d.type = true
  · by_cases hv : d.value.isValid = true
    · simp [setDefault, hc, hv]
    · cases ht : t.value d.type with
      | none => simp [setDefault, hc, hv, ht]
      | some b =>
        by_cases hb : b.value.isValid = true
        · simp [setDefault, hc, hv, ht, hb]
        · simp [setDefault, hc, hv, ht, hb]
  · simp [setDefault, hc]

theorem withDefaults_idem (t : QHash NifBasicType) (c : NifBlock) :
    (c.withDefaults t).withDefaults t = c.withDefaults t := by
  simp [NifBlock.withDefaults, setDefault_idem]

theorem nocond_withDefaults (t : QHash NifBasicType) (c : NifBlock) :
    (c.withDefaults t).nocond = c.nocond := by
  simp [NifBlock.withDefaults, NifBlock.nocond, List.all_map, Function.comp_def, setDefault_unconditional]

theorem compoundOk_withDefaults (m : NifModel) (t : QHash NifBasicType) (key : String)
    (c : NifBlock) : CompoundOk m key (c.withDefaults t) ↔ CompoundOk m key c := by
  simp [CompoundOk, NifBlock.withDefaults, setDefault_type]

theorem checkCompoundTypes_spec (m : NifModel) (key : String) (l : List NifData) (b : Bool) :
    (checkCompoundTypes m key l b = .ok (b && l.all NifData.unconditional) ∧
        ∀ d ∈ l, Resolves m d.type ∧ d.type ≠ key) ∨
    (∃ d ∈ l,
      (¬ Resolves m d.type ∧ checkCompoundTypes m key l b =
          .error ("compound type " ++ key ++ " referes to unknown type " ++ d.type)) ∨
      (d.type = key ∧ checkCompoundTypes m key l b =
          .error ("compound type " ++ key ++ " contains itself"))) := by
  induction l generalizing b with
  | nil => left; simp [checkCompoundTypes]
  | cons d rest ih =>
    by_cases hr : Resolves m d.type
    · by_cases hk : d.type = key
      · right
        refine ⟨d, by simp, Or.inr ⟨hk, ?_⟩⟩
        have hr2 := hr
        unfold Resolves at hr2
        subst hk
        rcases hr2 with hr2 | hr2 <;> simp [checkCompoundTypes, hr2]
      · have e : checkCompoundTypes m key (d :: rest) b =
            checkCompoundTypes m key rest (b && d.unconditional) := by
          have hr2 := hr
          unfold Resolves at hr2
          rcases hr2 with hr2 | hr2 <;>
            cases b <;>
            simp [checkCompoundTypes, hr2, hk, NifData.unconditional, isEmpty, Bool.and_assoc]
        rcases ih (b && d.unconditional) with ⟨hok, hall⟩ | ⟨d', hd', hbad⟩
        · left
          refine ⟨?_, ?_⟩
          · rw [e, hok]; simp [Bool.and_assoc]
          · intro d' hd'
            rcases List.mem_cons.1 hd' with rfl | hd'
            · exact ⟨hr, hk⟩
            · exact hall d' hd'
        · right
          refine ⟨d', List.mem_cons_of_mem _ hd', ?_⟩
          rw [e]; exact hbad
    · right
      refine ⟨d, by simp, Or.inl ⟨hr, ?_⟩⟩
      unfold Resolves at hr
      simp [checkCompoundTypes, hr]

theorem resolves_congr {m1 m : NifModel} (ht : m1.types = m.types)
    (hc : m1.compounds.map Prod.fst = m.compounds.map Prod.fst) (t : String) :
    Resolves m1 t ↔ Resolves m t := by
  unfold Resolves
  rw [ht, QHash.contains_iff_mem, QHash.contains_iff_mem m.compounds, hc]

theorem compoundOk_congr {m1 m : NifModel} (ht : m1.types = m.types)
    (hc : m1.compounds.map Prod.fst = m.compounds.map Prod.fst) (key : String) (c : NifBlock) :
    CompoundOk m1 key c ↔ CompoundOk m key c := by
  unfold CompoundOk
  simp only [resolves_congr ht hc]

/-- What the compound sweep does. -/
theorem sweepCompounds_spec (h : NifXmlHandler) (ks : List String) : ∀ m : NifModel,
    (∃ m', sweepCompounds h m ks = (true, h, m') ∧
        m'.internalTypes = m.internalTypes ∧ m'.types = m.types ∧
        m'.ancestors = m.ancestors ∧ m'.blocks = m.blocks ∧
        m'.compounds.map Prod.fst = m.compounds.map Prod.fst ∧
        (∀ k, m'.compounds.value k =
          (m.compounds.value k).map (fun c => if k ∈ ks then c.withDefaults m.types else c)) ∧
        m'.uncondTypes =
          m.uncondTypes ++ ks.filter (fun k => (m.compounds.value k).any NifBlock.nocond) ∧
        (∀ k ∈ ks, ∀ c, m.compounds.value k = some c → CompoundOk m k c)) ∨
    (∃ k ∈ ks, ∃ c, m.compounds.value k = some c ∧ ∃ d ∈ c.types, ∃ m',
        (¬ Resolves m d.type ∧ sweepCompounds h m ks =
          (false, { h with errorStr :=
            "compound type " ++ k ++ " referes to unknown type " ++ d.type }, m')) ∨
        (d.type = k ∧ sweepCompounds h m ks =
          (false, { h with errorStr := "compound type " ++ k ++ " contains itself" }, m'))) := by
  induction ks with
  | nil =>
    intro m
    left
    exact ⟨m, by simp [sweepCompounds]⟩
  | cons key ks ih =>
    intro m
    cases hv : m.compounds.value key with
    | none =>
      have e : sweepCompounds h m (key :: ks) = sweepCompounds h m ks := by
        simp [sweepCompounds, hv]
      rw [e]
      rcases ih m with ⟨m', hs, h1, h2, h3, h4, h5, h6, h7, h8⟩ | ⟨k, hk, c, hc, d, hd, m', hbad⟩
      · left
        refine ⟨m', hs, h1, h2, h3, h4, h5, ?_, ?_, ?_⟩
        · intro k
          rw [h6 k]
          by_cases hkk : k = key
          · subst hkk; simp [hv]
          · simp [hkk]
        · rw [h7]; simp [List.filter_cons, hv]
        · intro k hk c hc
          rcases List.mem_cons.1 hk with rfl | hk
          · rw [hv] at hc; cases hc
          · exact h8 k hk c hc
      · right
        exact ⟨k, List.mem_cons_of_mem _ hk, c, hc, d, hd, m', hbad⟩
    | some c =>
      rcases checkCompoundTypes_spec m key c.types true with ⟨hok, hgood⟩ | ⟨d, hd, hbad⟩
      · rw [Bool.true_and] at hok
        obtain ⟨m1, hm1, e⟩ : ∃ m1 : NifModel,
            m1 = { m with
                    uncondTypes := if c.nocond then m.uncondTypes ++ [key] else m.uncondTypes
                    compounds := m.compounds.assign key (c.withDefaults m.types) } ∧
            sweepCompounds h m (key :: ks) = sweepCompounds h m1 ks := by
          refine ⟨_, rfl, ?_⟩
          rw [sweepCompounds]
          simp only [hv, hok]
          cases hn : c.types.all NifData.unconditional <;>
            simp [NifBlock.nocond, NifBlock.withDefaults, hn]
        have ht : m1.types = m.types := by rw [hm1]
        have hkeys : m1.compounds.map Prod.fst = m.compounds.map Prod.fst := by
          rw [hm1]; exact QHash.map_fst_assign _ _ _
        have hval : ∀ k, m1.compounds.value k =
            if k = key then some (c.withDefaults m.types) else m.compounds.value k := by
          intro k
          rw [hm1]
          simp only [QHash.value_assign, hv, Option.map_some']
        rw [e]
        rcases ih m1 with ⟨m', hs, h1, h2, h3, h4, h5, h6, h7, h8⟩ | ⟨k, hk, c', hc', d, hd, m', hbad⟩
        · left
          refine ⟨m', hs, ?_, ?_, ?_, ?_, ?_, ?_, ?_, ?_⟩
          · rw [h1, hm1]
          · rw [h2, ht]
          · rw [h3, hm1]
          · rw [h4, hm1]
          · rw [h5, hkeys]
          · intro k
            rw [h6 k, hval k, ht]
            by_cases hkk : k = key
            · subst hkk
              by_cases hin : k ∈ ks
              · simp [hv, hin, withDefaults_idem]
              · simp [hv, hin]
            · simp [hkk]
          · have hf : (fun k => (m1.compounds.value k).any NifBlock.nocond) =
                (fun k => (m.compounds.value k).any NifBlock.nocond) := by
              funext k
              rw [hval k]
              by_cases hkk : k = key
              · subst hkk; simp [hv, nocond_withDefaults]
              · simp [hkk]
            rw [h7, hf, hm1]
            cases hn : c.nocond <;> simp [List.filter_cons, hv, hn]
          · intro k hk c' hc'
            by_cases hkk : k = key
            · subst hkk
              rw [hv] at hc'
              cases hc'
              exact hgood
            · rcases List.mem_cons.1 hk with rfl | hk
              · exact absurd rfl hkk
              · have := h8 k hk c' (by rw [hval k]; simpa [hkk] using hc')
                exact (compoundOk_congr ht hkeys k c').1 this
        · right
          by_cases hkk : k = key
          · subst hkk
            rw [hval k] at hc'
            simp only [if_true, Option.some.injEq] at hc'
            subst hc'
            obtain ⟨d0, hd0, rfl⟩ := List.mem_map.1 hd
            rw [setDefault_type] at hbad
            rw [resolves_congr ht hkeys] at hbad
            exact ⟨k, by simp, c, hv, d0, hd0, m', hbad⟩
          · rw [hval k] at hc'
            simp only [hkk, if_false] at hc'
            rw [resolves_congr ht hkeys] at hbad
            exact ⟨k, List.mem_cons_of_mem _ hk, c', hc', d, hd, m', hbad⟩
      · right
        refine ⟨key, by simp, c, hv, d, hd, m, ?_⟩
        rcases hbad with ⟨hr, hb⟩ | ⟨hr, hb⟩
        · left; exact ⟨hr, by simp [sweepCompounds, hv, hb]⟩
        · right; exact ⟨hr, by simp [sweepCompounds, hv, hb]⟩

theorem checkAncestorAncestors_spec (m : NifModel) (key : String) (l : List String) :
    (checkAncestorAncestors m key l = .ok () ∧
        ∀ a ∈ l, m.ancestors.contains a = true ∧ a ≠ key) ∨
    (∃ a ∈ l,
      (m.ancestors.contains a = false ∧ checkAncestorAncestors m key l =
          .error ("ancestor block " ++ key ++ " inherits unknown ancestor " ++ a)) ∨
      (a = key ∧ checkAncestorAncestors m key l =
          .error ("ancestor block " ++ key ++ " inherits itself"))) := by
  induction l with
  | nil => left; simp [checkAncestorAncestors]
  | cons a rest ih =>
    by_cases hr : m.ancestors.contains a = true
    · by_cases hk : a = key
      · right
        subst hk
        exact ⟨a, by simp, Or.inr ⟨rfl, by simp [checkAncestorAncestors, hr]⟩⟩
      · have e : checkAncestorAncestors m key (a :: rest) = checkAncestorAncestors m key rest := by
          simp [checkAncestorAncestors, hr, hk]
        rcases ih with ⟨hok, hall⟩ | ⟨a', ha', hbad⟩
        · left
          refine ⟨by rw [e, hok], ?_⟩
          intro a' ha'
          rcases List.mem_cons.1 ha' with rfl | ha'
          · exact ⟨hr, hk⟩
          · exact hall a' ha'
        · right
          refine ⟨a', List.mem_cons_of_mem _ ha', ?_⟩
          rw [e]; exact hbad
    · right
      simp only [Bool.not_eq_true] at hr
      exact ⟨a, by simp, Or.inl ⟨hr, by simp [checkAncestorAncestors, hr]⟩⟩

theorem checkBlockAncestors_spec (m : NifModel) (key : String) (l : List String) :
    (checkBlockAncestors m key l = .ok () ∧ ∀ a ∈ l, m.ancestors.contains a = true) ∨
    (∃ a ∈ l, m.ancestors.contains a = false ∧ checkBlockAncestors m key l =
          .error ("niblock " ++ key ++ " inherits unknown ancestor " ++ a)) := by
  induction l with
  | nil => left; simp [checkBlockAncestors]
  | cons a rest ih =>
    by_cases hr : m.ancestors.contains a = true
    · have e : checkBlockAncestors m key (a :: rest) = checkBlockAncestors m key rest := by
        simp [checkBlockAncestors, hr]
      rcases ih with ⟨hok, hall⟩ | ⟨a', ha', hbad⟩
      · left
        refine ⟨by rw [e, hok], ?_⟩
        intro a' ha'
        rcases List.mem_cons.1 ha' with rfl | ha'
        · exact hr
        · exact hall a' ha'
      · right
        refine ⟨a', List.mem_cons_of_mem _ ha', ?_⟩
        rw [e]; exact hbad
    · right
      simp only [Bool.not_eq_true] at hr
      exact ⟨a, by simp, ⟨hr, by simp [checkBlockAncestors, hr]⟩⟩

theorem checkTypes_spec (m : NifModel) (what verb key : String) (l : List NifData) :
    (checkTypes m what verb key l = .ok () ∧ ∀ d ∈ l, Resolves m d.type) ∨
    (∃ d ∈ l, ¬ Resolves m d.type ∧
        checkTypes m what verb key l = .error (what ++ key ++ verb ++ d.type)) := by
  induction l with
  | nil => left; simp [checkTypes]
  | cons d rest ih =>
    by_cases hr : Resolves m d.type
    · have e : checkTypes m what verb key (d :: rest) = checkTypes m what verb key rest := by
        have hr2 := hr
        unfold Resolves at hr2
        rcases hr2 with hr2 | hr2 <;> simp [checkTypes, hr2]
      rcases ih with ⟨hok, hall⟩ | ⟨d', hd', hbad⟩
      · left
        refine ⟨by rw [e, hok], ?_⟩
        intro d' hd'
        rcases List.mem_cons.1 hd' with rfl | hd'
        · exact hr
        · exact hall d' hd'
      · right
        refine ⟨d', List.mem_cons_of_mem _ hd', ?_⟩
        rw [e]; exact hbad
    · right
      refine ⟨d, by simp, hr, ?_⟩
      unfold Resolves at hr
      simp [checkTypes, hr]

theorem ancestorOk_withDefaults (m : NifModel) (t : QHash NifBasicType) (key : String)
    (b : NifBlock) : AncestorOk m key (b.withDefaults t) ↔ AncestorOk m key b := by
  simp [AncestorOk, NifBlock.withDefaults, setDefault_type]

theorem blockOk_withDefaults (m : NifModel) (t : QHash NifBasicType)
    (b : NifBlock) : BlockOk m (b.withDefaults t) ↔ BlockOk m b := by
  simp [BlockOk, NifBlock.withDefaults, setDefault_type]

theorem ancestorOk_congr {m1 m : NifModel} (ht : m1.types = m.types)
    (hc : m1.compounds.map Prod.fst = m.compounds.map Prod.fst)
    (ha : m1.ancestors.map Prod.fst = m.ancestors.map Prod.fst) (key : String) (b : NifBlock) :
    AncestorOk m1 key b ↔ AncestorOk m key b := by
  unfold AncestorOk
  simp only [resolves_congr ht hc, QHash.contains_iff_mem, ha]

theorem blockOk_congr {m1 m : NifModel} (ht : m1.types = m.types)
    (hc : m1.compounds.map Prod.fst = m.compounds.map Prod.fst)
    (ha : m1.ancestors.map Prod.fst = m.ancestors.map Prod.fst) (b : NifBlock) :
    BlockOk m1 b ↔ BlockOk m b := by
  unfold BlockOk
  simp only [resolves_congr ht hc, QHash.contains_iff_mem, ha]

/-- What the ancestor sweep does. -/
theorem sweepAncestors_spec (h : NifXmlHandler) (ks : List String) : ∀ m : NifModel,
    (∃ m', sweepAncestors h m ks = (true, h, m') ∧
        m'.internalTypes = m.internalTypes ∧ m'.types = m.types ∧
        m'.compounds = m.compounds ∧ m'.blocks = m.blocks ∧
        m'.uncondTypes = m.uncondTypes ∧
        m'.ancestors.map Prod.fst = m.ancestors.map Prod.fst ∧
        (∀ k, m'.ancestors.value k =
          (m.ancestors.value k).map (fun c => if k ∈ ks then c.withDefaults m.types else c)) ∧
        (∀ k ∈ ks, ∀ b, m.ancestors.value k = some b → AncestorOk m k b)) ∨
    (∃ k ∈ ks, ∃ b, m.ancestors.value k = some b ∧ ∃ m',
        (∃ a ∈ b.ancestors, m.ancestors.contains a = false ∧ sweepAncestors h m ks =
          (false, { h with errorStr :=
            "ancestor block " ++ k ++ " inherits unknown ancestor " ++ a }, m')) ∨
        (k ∈ b.ancestors ∧ sweepAncestors h m ks =
          (false, { h with errorStr := "ancestor block " ++ k ++ " inherits itself" }, m')) ∨
        (∃ d ∈ b.types, ¬ Resolves m d.type ∧ sweepAncestors h m ks =
          (false, { h with errorStr :=
            "ancestor block " ++ k ++ " referes to unknown type " ++ d.type }, m'))) := by
  induction ks with
  | nil =>
    intro m
    left
    exact ⟨m, by simp [sweepAncestors]⟩
  | cons key ks ih =>
    intro m
    cases hv : m.ancestors.value key with
    | none =>
      have e : sweepAncestors h m (key :: ks) = sweepAncestors h m ks := by
        simp [sweepAncestors, hv]
      rw [e]
      rcases ih m with ⟨m', hs, h1, h2, h3, h4, h5, h6, h7, h8⟩ | ⟨k, hk, c, hc, hbad⟩
      · left
        refine ⟨m', hs, h1, h2, h3, h4, h5, h6, ?_, ?_⟩
        · intro k
          rw [h7 k]
          by_cases hkk : k = key
          · subst hkk; simp [hv]
          · simp [hkk]
        · intro k hk c hc
          rcases List.mem_cons.1 hk with rfl | hk
          · rw [hv] at hc; cases hc
          · exact h8 k hk c hc
      · right
        exact ⟨k, List.mem_cons_of_mem _ hk, c, hc, hbad⟩
    | some c =>
      rcases checkAncestorAncestors_spec m key c.ancestors with ⟨hok, hgood⟩ | ⟨a, ha, hbad⟩
      · rcases checkTypes_spec m "ancestor block " " referes to unknown type " key c.types with
          ⟨hok2, hgood2⟩ | ⟨d, hd, hr, hb⟩
        · obtain ⟨m1, hm1, e⟩ : ∃ m1 : NifModel,
              m1 = { m with ancestors := m.ancestors.assign key (c.withDefaults m.types) } ∧
              sweepAncestors h m (key :: ks) = sweepAncestors h m1 ks := by
            refine ⟨_, rfl, ?_⟩
            rw [sweepAncestors]
            simp only [hv, hok, hok2]
            simp [NifBlock.withDefaults]
          have ht : m1.types = m.types := by rw [hm1]
          have hcs : m1.compounds = m.compounds := by rw [hm1]
          have hkeys : m1.ancestors.map Prod.fst = m.ancestors.map Prod.fst := by
            rw [hm1]; exact QHash.map_fst_assign _ _ _
          have hval : ∀ k, m1.ancestors.value k =
              if k = key then some (c.withDefaults m.types) else m.ancestors.value k := by
            intro k
            rw [hm1]
            simp only [QHash.value_assign, hv, Option.map_some']
          rw [e]
          rcases ih m1 with ⟨m', hs, h1, h2, h3, h4, h5, h6, h7, h8⟩ | ⟨k, hk, c', hc', m', hbad⟩
          · left
            refine ⟨m', hs, ?_, ?_, ?_, ?_, ?_, ?_, ?_, ?_⟩
            · rw [h1, hm1]
            · rw [h2, ht]
            · rw [h3, hm1]
            · rw [h4, hm1]
            · rw [h5, hm1]
            · rw [h6, hkeys]
            · intro k
              rw [h7 k, hval k, ht]
              by_cases hkk : k = key
              · subst hkk
                by_cases hin : k ∈ ks
                · simp [hv, hin, withDefaults_idem]
                · simp [hv, hin]
              · simp [hkk]
            · intro k hk c' hc'
              by_cases hkk : k = key
              · subst hkk
                rw [hv] at hc'
                cases hc'
                exact ⟨hgood, hgood2⟩
              · rcases List.mem_cons.1 hk with rfl | hk
                · exact absurd rfl hkk
                · have := h8 k hk c' (by rw [hval k]; simpa [hkk] using hc')
                  exact (ancestorOk_congr ht (by rw [hcs]) hkeys k c').1 this
          · right
            have hcon : ∀ a, m1.ancestors.contains a = m.ancestors.contains a := by
              intro a; rw [hm1]; exact QHash.contains_assign _ _ _ _
            simp only [hcon, resolves_congr ht (congrArg (List.map Prod.fst) hcs)] at hbad
            by_cases hkk : k = key
            · subst hkk
              rw [hval k] at hc'
              simp only [if_true, Option.some.injEq] at hc'
              subst hc'
              refine ⟨k, by simp, c, hv, m', ?_⟩
              simpa [NifBlock.withDefaults, setDefault_type] using hbad
            · rw [hval k] at hc'
              simp only [hkk, if_false] at hc'
              exact ⟨k, List.mem_cons_of_mem _ hk, c', hc', m', hbad⟩
        · right
          refine ⟨key, by simp, c, hv, m, Or.inr (Or.inr ⟨d, hd, hr, ?_⟩)⟩
          simp [sweepAncestors, hv, hok, hb]
      · right
        refine ⟨key, by simp, c, hv, m, ?_⟩
        rcases hbad with ⟨hr, hb⟩ | ⟨hr, hb⟩
        · left; exact ⟨a, ha, hr, by simp [sweepAncestors, hv, hb]⟩
        · right; left; subst hr; exact ⟨ha, by simp [sweepAncestors, hv, hb]⟩

/-- What the niblock sweep does. -/
theorem sweepBlocks_spec (h : NifXmlHandler) (ks : List String) : ∀ m : NifModel,
    (∃ m', sweepBlocks h m ks = (true, h, m') ∧
        m'.internalTypes = m.internalTypes ∧ m'.types = m.types ∧
        m'.compounds = m.compounds ∧ m'.ancestors = m.ancestors ∧
        m'.uncondTypes = m.uncondTypes ∧
        m'.blocks.map Prod.fst = m.blocks.map Prod.fst ∧
        (∀ k, m'.blocks.value k =
          (m.blocks.value k).map (fun c => if k ∈ ks then c.withDefaults m.types else c)) ∧
        (∀ k ∈ ks, ∀ b, m.blocks.value k = some b → BlockOk m b)) ∨
    (∃ k ∈ ks, ∃ b, m.blocks.value k = some b ∧ ∃ m',
        (∃ a ∈ b.ancestors, m.ancestors.contains a = false ∧ sweepBlocks h m ks =
          (false, { h with errorStr :=
            "niblock " ++ k ++ " inherits unknown ancestor " ++ a }, m')) ∨
        (∃ d ∈ b.types, ¬ Resolves m d.type ∧ sweepBlocks h m ks =
          (false, { h with errorStr :=
            "compound type " ++ k ++ " referres to unknown type " ++ d.type }, m'))) := by
  induction ks with
  | nil =>
    intro m
    left
    exact ⟨m, by simp [sweepBlocks]⟩
  | cons key ks ih =>
    intro m
    cases hv : m.blocks.value key with
    | none =>
      have e : sweepBlocks h m (key :: ks) = sweepBlocks h m ks := by
        simp [sweepBlocks, hv]
      rw [e]
      rcases ih m with ⟨m', hs, h1, h2, h3, h4, h5, h6, h7, h8⟩ | ⟨k, hk, c, hc, hbad⟩
      · left
        refine ⟨m', hs, h1, h2, h3, h4, h5, h6, ?_, ?_⟩
        · intro k
          rw [h7 k]
          by_cases hkk : k = key
          · subst hkk; simp [hv]
          · simp [hkk]
        · intro k hk c hc
          rcases List.mem_cons.1 hk with rfl | hk
          · rw [hv] at hc; cases hc
          · exact h8 k hk c hc
      · right
        exact ⟨k, List.mem_cons_of_mem _ hk, c, hc, hbad⟩
    | some c =>
      rcases checkBlockAncestors_spec m key c.ancestors with ⟨hok, hgood⟩ | ⟨a, ha, hr, hb⟩
      · rcases checkTypes_spec m "compound type " " referres to unknown type " key c.types with
          ⟨hok2, hgood2⟩ | ⟨d, hd, hr, hb⟩
        · obtain ⟨m1, hm1, e⟩ : ∃ m1 : NifModel,
              m1 = { m with blocks := m.blocks.assign key (c.withDefaults m.types) } ∧
              sweepBlocks h m (key :: ks) = sweepBlocks h m1 ks := by
            refine ⟨_, rfl, ?_⟩
            rw [sweepBlocks]
            simp only [hv, hok, hok2]
            simp [NifBlock.withDefaults]
          have ht : m1.types = m.types := by rw [hm1]
          have hcs : m1.compounds = m.compounds := by rw [hm1]
          have has : m1.ancestors = m.ancestors := by rw [hm1]
          have hkeys : m1.blocks.map Prod.fst = m.blocks.map Prod.fst := by
            rw [hm1]; exact QHash.map_fst_assign _ _ _
          have hval : ∀ k, m1.blocks.value k =
              if k = key then some (c.withDefaults m.types) else m.blocks.value k := by
            intro k
            rw [hm1]
            simp only [QHash.value_assign, hv, Option.map_some']
          rw [e]
          rcases ih m1 with ⟨m', hs, h1, h2, h3, h4, h5, h6, h7, h8⟩ | ⟨k, hk, c', hc', m', hbad⟩
          · left
            refine ⟨m', hs, ?_, ?_, ?_, ?_, ?_, ?_, ?_, ?_⟩
            · rw [h1, hm1]
            · rw [h2, ht]
            · rw [h3, hm1]
            · rw [h4, hm1]
            · rw [h5, hm1]
            · rw [h6, hkeys]
            · intro k
              rw [h7 k, hval k, ht]
              by_cases hkk : k = key
              · subst hkk
                by_cases hin : k ∈ ks
                · simp [hv, hin, withDefaults_idem]
                · simp [hv, hin]
              · simp [hkk]
            · intro k hk c' hc'
              by_cases hkk : k = key
              · subst hkk
                rw [hv] at hc'
                cases hc'
                exact ⟨hgood, hgood2⟩
              · rcases List.mem_cons.1 hk with rfl | hk
                · exact absurd rfl hkk
                · have := h8 k hk c' (by rw [hval k]; simpa [hkk] using hc')
                  exact (blockOk_congr ht (by rw [hcs]) (by rw [has]) c').1 this
          · right
            simp only [has, resolves_congr ht (congrArg (List.map Prod.fst) hcs)] at hbad
            by_cases hkk : k = key
            · subst hkk
              rw [hval k] at hc'
              simp only [if_true, Option.some.injEq] at hc'
              subst hc'
              refine ⟨k, by simp, c, hv, m', ?_⟩
              simpa [NifBlock.withDefaults, setDefault_type] using hbad
            · rw [hval k] at hc'
              simp only [hkk, if_false] at hc'
              exact ⟨k, List.mem_cons_of_mem _ hk, c', hc', m', hbad⟩
        · right
          refine ⟨key, by simp, c, hv, m, Or.inr ⟨d, hd, hr, ?_⟩⟩
          simp [sweepBlocks, hv, hok, hb]
      · right
        refine ⟨key, by simp, c, hv, m, Or.inl ⟨a, ha, hr, ?_⟩⟩
        simp [sweepBlocks, hv, hb]

theorem QHash.mem_keys_of_value {V : Type} (q : Externals) (h : QHash V) (k : String) (v : V)
    (hv : h.value k = some v) : k ∈ h.keys q := by
  unfold QHash.keys
  rw [(q.keyOrder_perm _).mem_iff, ← QHash.contains_iff_mem, QHash.contains_iff_value]
  exact ⟨v, hv⟩

theorem QHash.map_value_of_mem_keys {V : Type} (q : Externals) (h : QHash V) (k : String)
    (f : V → V) :
    (h.value k).map (fun c => if k ∈ h.keys q then f c else c) = (h.value k).map f := by
  cases hv : h.value k with
  | none => rfl
  | some v => simp [QHash.mem_keys_of_value q h k v hv]

/-- The outcome of `endDocument`: the first sweep that fails, with the entry
and the message, or success with the registry it leaves. -/
theorem endDocument_spec (q : Externals) (h : NifXmlHandler) (m : NifModel) :
    (∃ k c d m', m.compounds.value k = some c ∧ d ∈ c.types ∧
      ((¬ Resolves m d.type ∧ endDocument q h m =
          (false, { h with errorStr :=
            "compound type " ++ k ++ " referes to unknown type " ++ d.type }, m')) ∨
        (d.type = k ∧ endDocument q h m =
          (false, { h with errorStr := "compound type " ++ k ++ " contains itself" }, m')))) ∨
    (CompoundsOk m ∧ ∃ k b m', m.ancestors.value k = some b ∧
      ((∃ a ∈ b.ancestors, m.ancestors.contains a = false ∧ endDocument q h m =
          (false, { h with errorStr :=
            "ancestor block " ++ k ++ " inherits unknown ancestor " ++ a }, m')) ∨
        (k ∈ b.ancestors ∧ endDocument q h m =
          (false, { h with errorStr := "ancestor block " ++ k ++ " inherits itself" }, m')) ∨
        (∃ d ∈ b.types, ¬ Resolves m d.type ∧ endDocument q h m =
          (false, { h with errorStr :=
            "ancestor block " ++ k ++ " referes to unknown type " ++ d.type }, m')))) ∨
    (CompoundsOk m ∧ AncestorsOk m ∧ ∃ k b m', m.blocks.value k = some b ∧
      ((∃ a ∈ b.ancestors, m.ancestors.contains a = false ∧ endDocument q h m =
          (false, { h with errorStr :=
            "niblock " ++ k ++ " inherits unknown ancestor " ++ a }, m')) ∨
        (∃ d ∈ b.types, ¬ Resolves m d.type ∧ endDocument q h m =
          (false, { h with errorStr :=
            "compound type " ++ k ++ " referres to unknown type " ++ d.type }, m')))) ∨
    (CompoundsOk m ∧ AncestorsOk m ∧ BlocksOk m ∧ ∃ m', endDocument q h m = (true, h, m') ∧
      m'.internalTypes = m.internalTypes ∧ m'.types = m.types ∧
      m'.compounds.map Prod.fst = m.compounds.map Prod.fst ∧
      m'.ancestors.map Prod.fst = m.ancestors.map Prod.fst ∧
      m'.blocks.map Prod.fst = m.blocks.map Prod.fst ∧
      (∀ k, m'.compounds.value k = (m.compounds.value k).map (NifBlock.withDefaults m.types)) ∧
      (∀ k, m'.ancestors.value k = (m.ancestors.value k).map (NifBlock.withDefaults m.types)) ∧
      (∀ k, m'.blocks.value k = (m.blocks.value k).map (NifBlock.withDefaults m.types)) ∧
      m'.uncondTypes = m.types.keys q ++
        (m.compounds.keys q).filter (fun k => (m.compounds.value k).any NifBlock.nocond)) := by
  obtain ⟨m0, hm0⟩ : ∃ m0 : NifModel, m0 = { m with uncondTypes := m.types.keys q } := ⟨_, rfl⟩
  have e0 : endDocument q h m =
      match sweepCompounds h m0 (m0.compounds.keys q) with
      | (false, h, m) => (false, h, m)
      | (true, h, m) =>
        match sweepAncestors h m (m.ancestors.keys q) with
        | (false, h, m) => (false, h, m)
        | (true, h, m) => sweepBlocks h m (m.blocks.keys q) := by
    rw [hm0]; rfl
  have t0 : m0.types = m.types := by rw [hm0]
  have c0 : m0.compounds = m.compounds := by rw [hm0]
  have a0 : m0.ancestors = m.ancestors := by rw [hm0]
  have b0 : m0.blocks = m.blocks := by rw [hm0]
  have r0 : ∀ t, Resolves m0 t ↔ Resolves m t := fun t => resolves_congr t0 (by rw [c0]) t
  rcases sweepCompounds_spec h (m0.compounds.keys q) m0 with
    ⟨m1, hs, h1, h2, h3, h4, h5, h6, h7, h8⟩ | ⟨k, _, c, hc, d, hd, m', hbad⟩
  · have hCok : CompoundsOk m := by
      intro k c hc
      rw [← c0] at hc
      exact (compoundOk_congr t0 (by rw [c0]) k c).1
        (h8 k (QHash.mem_keys_of_value q _ k c hc) c hc)
    have t1 : m1.types = m.types := by rw [h2, t0]
    have k1 : m1.compounds.map Prod.fst = m.compounds.map Prod.fst := by rw [h5, c0]
    have a1 : m1.ancestors = m.ancestors := by rw [h3, a0]
    have r1 : ∀ t, Resolves m1 t ↔ Resolves m t := fun t => resolves_congr t1 k1 t
    rw [hs] at e0
    simp only at e0
    rcases sweepAncestors_spec h (m1.ancestors.keys q) m1 with
      ⟨m2, hs2, g1, g2, g3, g4, g5, g6, g7, g8⟩ | ⟨k, _, b, hb, m', hbad⟩
    · have hAok : AncestorsOk m := by
        intro k b hb
        rw [← a1] at hb
        exact (ancestorOk_congr t1 k1 (by rw [a1]) k b).1
          (g8 k (QHash.mem_keys_of_value q _ k b hb) b hb)
      have t2 : m2.types = m.types := by rw [g2, t1]
      have k2 : m2.compounds.map Prod.fst = m.compounds.map Prod.fst := by rw [g3, k1]
      have ak2 : m2.ancestors.map Prod.fst = m.ancestors.map Prod.fst := by rw [g6, a1]
      have b2 : m2.blocks = m.blocks := by rw [g4, h4, b0]
      rw [hs2] at e0
      simp only at e0
      rcases sweepBlocks_spec h (m2.blocks.keys q) m2 with
        ⟨m3, hs3, f1, f2, f3, f4, f5, f6, f7, f8⟩ | ⟨k, _, b, hb, m', hbad⟩
      · right; right; right
        refine ⟨hCok, hAok, ?_, m3, by rw [e0, hs3], ?_, ?_, ?_, ?_, ?_, ?_, ?_, ?_, ?_⟩
        · intro k b hb
          rw [← b2] at hb
          exact (blockOk_congr t2 k2 ak2 b).1
            (f8 k (QHash.mem_keys_of_value q _ k b hb) b hb)
        · rw [f1, g1, h1, hm0]
        · rw [f2, t2]
        · rw [f3, k2]
        · rw [f4, ak2]
        · rw [f6, b2]
        · intro k
          rw [f3, g3, h6 k, QHash.map_value_of_mem_keys, t0, c0]
        · intro k
          rw [f4, g7 k, QHash.map_value_of_mem_keys, t1, a1]
        · intro k
          rw [f7 k, QHash.map_value_of_mem_keys, t2, b2]
        · rw [f5, g5, h7, c0, hm0]
      · right; right; left
        refine ⟨hCok, hAok, k, b, m', by rw [← b2]; exact hb, ?_⟩
        have hcon : ∀ a, m2.ancestors.contains a = m.ancestors.contains a := by
          intro a
          rw [Bool.eq_iff_iff, QHash.contains_iff_mem, QHash.contains_iff_mem, ak2]
        rcases hbad with ⟨a, ha, hr, hsw⟩ | ⟨d, hd, hr, hsw⟩
        · left; exact ⟨a, ha, by rw [← hcon]; exact hr, by rw [e0, hsw]⟩
        · right; exact ⟨d, hd, (resolves_congr t2 k2 _).not.1 hr, by rw [e0, hsw]⟩
    · right; left
      refine ⟨hCok, k, b, m', by rw [← a1]; exact hb, ?_⟩
      rcases hbad with ⟨a, ha, hr, hsw⟩ | ⟨hr, hsw⟩ | ⟨d, hd, hr, hsw⟩
      · left; exact ⟨a, ha, by rw [← a1]; exact hr, by rw [e0, hsw]⟩
      · right; left; exact ⟨hr, by rw [e0, hsw]⟩
      · right; right; exact ⟨d, hd, (r1 _).not.1 hr, by rw [e0, hsw]⟩
  · left
    rw [c0] at hc
    refine ⟨k, c, d, m', hc, hd, ?_⟩
    rcases hbad with ⟨hr, hb⟩ | ⟨hr, hb⟩
    · left; exact ⟨(r0 _).not.1 hr, by rw [e0, hb]⟩
    · right; exact ⟨hr, by rw [e0, hb]⟩


/-! ## The validator (`endDocument`) -/

/-- C1: when `endDocument` succeeds no dangling reference remains. Every field
of every field group, ancestor record and record type of the registry it
leaves has a `type` that is a key of the primitive-type mapping or of the
field-group mapping, and every ancestor name listed by an ancestor record or a
record type is a key of the ancestor mapping. The entries of a mapping are
what `QHash::value` returns for its keys. -/
theorem C1_no_dangling_reference (q : Externals) (h : NifXmlHandler) (m : NifModel)
    (hs : (endDocument q h m).1 = true) :
    (∀ k c, (endDocument q h m).2.2.compounds.value k = some c → ∀ d ∈ c.types,
        (endDocument q h m).2.2.types.contains d.type = true ∨
        (endDocument q h m).2.2.compounds.contains d.type = true) ∧
    (∀ k b, (endDocument q h m).2.2.ancestors.value k = some b →
      (∀ d ∈ b.types,
        (endDocument q h m).2.2.types.contains d.type = true ∨
        (endDocument q h m).2.2.compounds.contains d.type = true) ∧
      ∀ a ∈ b.ancestors, (endDocument q h m).2.2.ancestors.contains a = true) ∧
    (∀ k b, (endDocument q h m).2.2.blocks.value k = some b →
      (∀ d ∈ b.types,
        (endDocument q h m).2.2.types.contains d.type = true ∨
        (endDocument q h m).2.2.compounds.contains d.type = true) ∧
      ∀ a ∈ b.ancestors, (endDocument q h m).2.2.ancestors.contains a = true) := by
  rcases endDocument_spec q h m with
    ⟨_, _, _, _, _, _, ⟨_, e⟩ | ⟨_, e⟩⟩ |
    ⟨_, _, _, _, _, ⟨_, _, _, e⟩ | ⟨_, e⟩ | ⟨_, _, _, e⟩⟩ |
    ⟨_, _, _, _, _, _, ⟨_, _, _, e⟩ | ⟨_, _, _, e⟩⟩ |
    ⟨hC, hA, hB, m', e, _, ht, hck, hak, _, hcv, hav, hbv, _⟩
  any_goals (rw [e] at hs; cases hs)
  rw [e]
  have hres : ∀ t, Resolves m t →
      (m'.types.contains t = true ∨ m'.compounds.contains t = true) := by
    intro t hr
    rcases (resolves_congr ht hck t).2 hr with hr | hr
    · exact Or.inr hr
    · exact Or.inl hr
  have hanc : ∀ a, m.ancestors.contains a = true → m'.ancestors.contains a = true := by
    intro a ha
    rw [QHash.contains_iff_mem] at ha ⊢
    rw [hak]; exact ha
  refine ⟨?_, ?_, ?_⟩
  · intro k c hc d hd
    simp only [hcv k, Option.map_eq_some'] at hc
    obtain ⟨c0, hc0, rfl⟩ := hc
    obtain ⟨d0, hd0, rfl⟩ := List.mem_map.1 hd
    rw [setDefault_type]
    exact hres _ (hC k c0 hc0 d0 hd0).1
  · intro k b hb
    simp only [hav k, Option.map_eq_some'] at hb
    obtain ⟨b0, hb0, rfl⟩ := hb
    refine ⟨?_, ?_⟩
    · intro d hd
      obtain ⟨d0, hd0, rfl⟩ := List.mem_map.1 hd
      rw [setDefault_type]
      exact hres _ ((hA k b0 hb0).2 d0 hd0)
    · intro a ha
      exact hanc a ((hA k b0 hb0).1 a ha).1
  · intro k b hb
    simp only [hbv k, Option.map_eq_some'] at hb
    obtain ⟨b0, hb0, rfl⟩ := hb
    refine ⟨?_, ?_⟩
    · intro d hd
      obtain ⟨d0, hd0, rfl⟩ := List.mem_map.1 hd
      rw [setDefault_type]
      exact hres _ ((hB k b0 hb0).2 d0 hd0)
    · intro a ha
      exact hanc a ((hB k b0 hb0).1 a ha)

/-- C1 at `smallRegistry`: the validator succeeds there. -/
theorem C1_no_dangling_reference_witness :
    (endDocument sampleQt NifXmlHandler.new smallRegistry).1 = true ∧
    ∀ k c, (endDocument sampleQt NifXmlHandler.new smallRegistry).2.2.compounds.value k = some c →
      ∀ d ∈ c.types,
        (endDocument sampleQt NifXmlHandler.new smallRegistry).2.2.types.contains d.type = true ∨
        (endDocument sampleQt NifXmlHandler.new smallRegistry).2.2.compounds.contains d.type = true :=
  ⟨by decide, (C1_no_dangling_reference sampleQt NifXmlHandler.new smallRegistry (by decide)).1⟩

theorem QHash.mem_keys_iff_contains {V : Type} (q : Externals) (h : QHash V) (k : String) :
    k ∈ h.keys q ↔ h.contains k = true := by
  unfold QHash.keys
  rw [(q.keyOrder_perm _).mem_iff, QHash.contains_iff_mem]

theorem nocond_eq_true_iff (c : NifBlock) :
    c.nocond = true ↔ ∀ d ∈ c.types, d.ver1 = 0 ∧ d.ver2 = 0 ∧ d.cond = "" := by
  simp [NifBlock.nocond, NifData.unconditional, isEmpty, and_assoc]

/-- C4, as stated, fails on `sharedIdDocument`: it compiles, the field group
`a` has a field with the condition `y`, and `a` is in the unconditional set
(as the id of the primitive type `a`). -/
theorem C4_counterexample :
    (parseXmlDescription sampleQt {} "nif.xml" (some sharedIdDocument)).1 = "" ∧
    (parseXmlDescription sampleQt {} "nif.xml" (some sharedIdDocument)).2.compounds.value "a" =
      some { id := "a", types := [{ name := "x", type := "b", cond := "y", value := .int 0 }] } ∧
    "a" ∈ (parseXmlDescription sampleQt {} "nif.xml" (some sharedIdDocument)).2.uncondTypes := by
  decide

/-- C4, amended: when `endDocument` succeeds, the unconditional set contains
every primitive-type id, and the id of a field group is in the set if and only
if none of its fields has a version bound different from 0 or a non-empty
condition, or the id is also the id of a primitive type. -/
theorem C4_unconditional_set (q : Externals) (h : NifXmlHandler) (m : NifModel)
    (hs : (endDocument q h m).1 = true) :
    (∀ t, (endDocument q h m).2.2.types.contains t = true →
      t ∈ (endDocument q h m).2.2.uncondTypes) ∧
    ∀ k c, (endDocument q h m).2.2.compounds.value k = some c →
      (k ∈ (endDocument q h m).2.2.uncondTypes ↔
        (∀ d ∈ c.types, d.ver1 = 0 ∧ d.ver2 = 0 ∧ d.cond = "") ∨
        (endDocument q h m).2.2.types.contains k = true) := by
  rcases endDocument_spec q h m with
    ⟨_, _, _, _, _, _, ⟨_, e⟩ | ⟨_, e⟩⟩ |
    ⟨_, _, _, _, _, ⟨_, _, _, e⟩ | ⟨_, e⟩ | ⟨_, _, _, e⟩⟩ |
    ⟨_, _, _, _, _, _, ⟨_, _, _, e⟩ | ⟨_, _, _, e⟩⟩ |
    ⟨_, _, _, m', e, _, ht, _, _, _, hcv, _, _, hu⟩
  any_goals (rw [e] at hs; cases hs)
  rw [e]
  simp only
  refine ⟨?_, ?_⟩
  · intro t hc
    rw [hu, ht] at *
    exact List.mem_append_left _ ((QHash.mem_keys_iff_contains q _ t).2 hc)
  · intro k c hc
    simp only [hcv k, Option.map_eq_some'] at hc
    obtain ⟨c0, hc0, rfl⟩ := hc
    rw [hu, ht, List.mem_append, QHash.mem_keys_iff_contains, List.mem_filter, hc0,
      ← nocond_eq_true_iff, nocond_withDefaults]
    constructor
    · rintro (hk | ⟨_, hn⟩)
      · exact Or.inr hk
      · exact Or.inl (by simpa using hn)
    · rintro (hn | hk)
      · exact Or.inr ⟨QHash.mem_keys_of_value q _ k c0 hc0, by simpa using hn⟩
      · exact Or.inl hk

/-- C4, amended, at `smallRegistry`. -/
theorem C4_unconditional_set_witness :
    (endDocument sampleQt NifXmlHandler.new smallRegistry).1 = true ∧
    ∀ t, (endDocument sampleQt NifXmlHandler.new smallRegistry).2.2.types.contains t = true →
      t ∈ (endDocument sampleQt NifXmlHandler.new smallRegistry).2.2.uncondTypes :=
  ⟨by decide, (C4_unconditional_set sampleQt NifXmlHandler.new smallRegistry (by decide)).1⟩

/-- The field `d'` is the field `d` after default propagation from the
primitive types `types`. -/
theorem setDefault_cases (types : QHash NifBasicType) (d : NifData) :
    (d.value.isValid = true → setDefault types d = d) ∧
    (d.value.isValid = false → ∀ t, types.value d.type = some t →
      setDefault types d = { d with value := t.value }) := by
  refine ⟨?_, ?_⟩
  · intro hv
    simp [setDefault, hv]
  · intro hv t ht
    have hc : types.contains d.type = true := (QHash.contains_iff_value _ _).2 ⟨t, ht⟩
    simp [setDefault, hv, hc, ht]

theorem forall₂_withDefaults (types : QHash NifBasicType) (l : List NifData) :
    List.Forall₂ (fun d d' =>
        (d.value.isValid = true → d' = d) ∧
        (d.value.isValid = false → ∀ t, types.value d.type = some t →
          d' = { d with value := t.value }))
      l (l.map (setDefault types)) := by
  induction l with
  | nil => exact List.Forall₂.nil
  | cons d rest ih => exact List.Forall₂.cons (setDefault_cases types d) ih

/-- C5: when `endDocument` succeeds, every field group, ancestor record and
record type keeps its entry, field for field: a field that had a valid default
before validation is unchanged, and a field that had none and whose `type`
resolves to the primitive type `t` (the one `types.value` returns) is the same
field with the default of `t`. The primitive types are unchanged. -/
theorem C5_default_propagation (q : Externals) (h : NifXmlHandler) (m : NifModel)
    (hs : (endDocument q h m).1 = true) :
    (endDocument q h m).2.2.types = m.types ∧
    (∀ k c, m.compounds.value k = some c →
      ∃ c', (endDocument q h m).2.2.compounds.value k = some c' ∧
        List.Forall₂ (fun d d' =>
          (d.value.isValid = true → d' = d) ∧
          (d.value.isValid = false → ∀ t, m.types.value d.type = some t →
            d' = { d with value := t.value })) c.types c'.types) ∧
    (∀ k c, m.ancestors.value k = some c →
      ∃ c', (endDocument q h m).2.2.ancestors.value k = some c' ∧
        List.Forall₂ (fun d d' =>
          (d.value.isValid = true → d' = d) ∧
          (d.value.isValid = false → ∀ t, m.types.value d.type = some t →
            d' = { d with value := t.value })) c.types c'.types) ∧
    (∀ k c, m.blocks.value k = some c →
      ∃ c', (endDocument q h m).2.2.blocks.value k = some c' ∧
        List.Forall₂ (fun d d' =>
          (d.value.isValid = true → d' = d) ∧
          (d.value.isValid = false → ∀ t, m.types.value d.type = some t →
            d' = { d with value := t.value })) c.types c'.types) := by
  rcases endDocument_spec q h m with
    ⟨_, _, _, _, _, _, ⟨_, e⟩ | ⟨_, e⟩⟩ |
    ⟨_, _, _, _, _, ⟨_, _, _, e⟩ | ⟨_, e⟩ | ⟨_, _, _, e⟩⟩ |
    ⟨_, _, _, _, _, _, ⟨_, _, _, e⟩ | ⟨_, _, _, e⟩⟩ |
    ⟨_, _, _, m', e, _, ht, _, _, _, hcv, hav, hbv, _⟩
  any_goals (rw [e] at hs; cases hs)
  rw [e]
  refine ⟨ht, ?_, ?_, ?_⟩
  · intro k c hc
    exact ⟨c.withDefaults m.types, by simp [hcv k, hc], forall₂_withDefaults m.types c.types⟩
  · intro k c hc
    exact ⟨c.withDefaults m.types, by simp [hav k, hc], forall₂_withDefaults m.types c.types⟩
  · intro k c hc
    exact ⟨c.withDefaults m.types, by simp [hbv k, hc], forall₂_withDefaults m.types c.types⟩

/-- C5 at `smallRegistry`: in the field group `vector3` the field `x` takes
the default of `float` and the field `y` keeps its own. -/
theorem C5_default_propagation_witness :
    (endDocument sampleQt NifXmlHandler.new smallRegistry).1 = true ∧
    (endDocument sampleQt NifXmlHandler.new smallRegistry).2.2.compounds.value "vector3" =
      some { id := "vector3", types :=
        [{ name := "x", type := "float", value := .double "0.0" },
         { name := "y", type := "float", value := .double "1.0" }] } ∧
    (endDocument sampleQt NifXmlHandler.new smallRegistry).2.2.types = smallRegistry.types :=
  ⟨by decide, by decide,
    (C5_default_propagation sampleQt NifXmlHandler.new smallRegistry (by decide)).1⟩

/-! ## Lemmas on the parse state machine -/

theorem indexOf_elements (name : String) :
    (name = "niflotoxml" ∧ indexOf NifXmlHandler.new.elements name = 0) ∨
    (name = "type" ∧ indexOf NifXmlHandler.new.elements name = 1) ∨
    (name = "compound" ∧ indexOf NifXmlHandler.new.elements name = 2) ∨
    (name = "ancestor" ∧ indexOf NifXmlHandler.new.elements name = 3) ∨
    (name = "niblock" ∧ indexOf NifXmlHandler.new.elements name = 4) ∨
    (name = "add" ∧ indexOf NifXmlHandler.new.elements name = 5) ∨
    (name = "inherit" ∧ indexOf NifXmlHandler.new.elements name = 6) ∨
    (name ∉ NifXmlHandler.new.elements ∧ indexOf NifXmlHandler.new.elements name = -1) := by
  by_cases h0 : name = "niflotoxml"
  · left; subst h0; exact ⟨rfl, by decide⟩
  by_cases h1 : name = "type"
  · right; left; subst h1; exact ⟨rfl, by decide⟩
  by_cases h2 : name = "compound"
  · right; right; left; subst h2; exact ⟨rfl, by decide⟩
  by_cases h3 : name = "ancestor"
  · right; right; right; left; subst h3; exact ⟨rfl, by decide⟩
  by_cases h4 : name = "niblock"
  · right; right; right; right; left; subst h4; exact ⟨rfl, by decide⟩
  by_cases h5 : name = "add"
  · right; right; right; right; right; left; subst h5; exact ⟨rfl, by decide⟩
  by_cases h6 : name = "inherit"
  · right; right; right; right; right; right; left; subst h6; exact ⟨rfl, by decide⟩
  right; right; right; right; right; right; right
  refine ⟨by simp [NifXmlHandler.new, h0, h1, h2, h3, h4, h5, h6], ?_⟩
  simp [NifXmlHandler.new, indexOf, Ne.symm h0, Ne.symm h1, Ne.symm h2, Ne.symm h3, Ne.symm h4, Ne.symm h5, Ne.symm h6]


theorem indexOf_ge_neg_one (l : List String) (s : String) : -1 ≤ indexOf l s := by
  induction l with
  | nil => simp [indexOf]
  | cons a rest ih =>
    unfold indexOf
    split
    · omega
    · simp only
      split <;> omega

theorem indexOf_neg_iff (l : List String) (s : String) : indexOf l s < 0 ↔ s ∉ l := by
  induction l with
  | nil => simp [indexOf]
  | cons a rest ih =>
    have := indexOf_ge_neg_one rest s
    unfold indexOf
    by_cases ha : a = s
    · simp [ha]
    · simp only [ha, if_false, List.mem_cons, Ne.symm ha, false_or, ← ih]
      split <;> omega

theorem startElement_accept_iff (q : Externals) {h : NifXmlHandler} {m : NifModel}
    (hI : Inv h m) (name : String) (list : QXmlAttributes) :
    (startElement q m h name list).1 = true ↔
      AllowedPair h.innermost name ∧ RequiredAttributes name list := by
  obtain ⟨hel, hlen, htags, hshape⟩ := hI
  have hcases := indexOf_elements name
  simp only [NifXmlHandler.new] at hel hcases
  have hty := indexOf_neg_iff internalTypeTags (list.value "type")
  have hn1 := q.toLower_eq_empty (list.value "name")
  have hn2 := q.toLower_eq_empty (list.value "type")
  rcases hcases with ⟨rfl, hx⟩ | ⟨rfl, hx⟩ | ⟨rfl, hx⟩ | ⟨rfl, hx⟩ | ⟨rfl, hx⟩ |
    ⟨rfl, hx⟩ | ⟨rfl, hx⟩ | ⟨hn, hx⟩
  all_goals
    rcases hshape with ⟨hd, ht, hb⟩ | ⟨hd, hs0, ht, hb⟩ | ⟨hd, hs0, hs1, ⟨t, ht⟩, hb⟩ |
      ⟨hd, hs0, (hs1 | hs1 | hs1), ht, ⟨b, hb⟩⟩ |
      ⟨hd, hs0, (hs1 | hs1 | hs1), (hs2 | hs2), ht, ⟨b, hb⟩⟩
  all_goals
    simp [startElement, innermost, current, AllowedPair, RequiredAttributes,
      NifXmlHandler.err, listValue, isEmpty, *]
  all_goals first | (split <;> simp_all <;> tauto) | simp_all

theorem stackAt_push (h : NifXmlHandler) (x i : Int) (hd : 0 ≤ h.depth)
    (hlen : h.stack.length = 10) (hl : h.depth < 10) (hi : 0 ≤ i) :
    (h.push x).stackAt i = if i = h.depth then x else h.stackAt i := by
  unfold stackAt push
  simp only [hi, if_true]
  rw [List.getD_eq_getElem?_getD, List.getD_eq_getElem?_getD, List.getElem?_set]
  have : (h.depth.toNat = i.toNat) ↔ i = h.depth := by omega
  by_cases hid : i = h.depth
  · subst hid
    have hlt : h.depth.toNat < h.stack.length := by omega
    simp [hlt]
  · have : ¬ h.depth.toNat = i.toNat := by omega
    simp [hid, this]

theorem indexOf_mem_bounds (l : List String) (s : String) (hs : s ∈ l) :
    0 ≤ indexOf l s ∧ indexOf l s < l.length := by
  induction l with
  | nil => cases hs
  | cons a rest ih =>
    unfold indexOf
    by_cases ha : a = s
    · simp [ha]
    · have hs' : s ∈ rest := by
        rcases List.mem_cons.1 hs with rfl | h'
        · exact absurd rfl ha
        · exact h'
      obtain ⟨h0, h1⟩ := ih hs'
      simp only [ha, if_false, List.length_cons]
      split
      · omega
      · push_cast; omega

theorem convertToType_snd (q : Externals) (h : NifXmlHandler) (vstring : String) (type : Int)
    (h0 : 0 ≤ type) (h9 : type < 10) : (convertToType q h vstring type).2 = h := by
  have : type = 0 ∨ type = 1 ∨ type = 2 ∨ type = 3 ∨ type = 4 ∨ type = 5 ∨ type = 6 ∨
      type = 7 ∨ type = 8 ∨ type = 9 := by omega
  rcases this with rfl | rfl | rfl | rfl | rfl | rfl | rfl | rfl | rfl | rfl <;>
    simp [convertToType, it_uint8, it_uint16, it_uint32, it_int8, it_int16, it_int32, it_float,
      it_string, it_color3f, it_color4f]

theorem convertToType_fst (q : Externals) (h h' : NifXmlHandler) (vstring : String) (type : Int) :
    (convertToType q h vstring type).1 = (convertToType q h' vstring type).1 := by
  unfold convertToType
  split
  · rfl
  · split
    · rfl
    · split
      · rfl
      · split <;> rfl

theorem startElement_root (q : Externals) {h : NifXmlHandler} {m : NifModel} (hI : Inv h m)
    (hd : h.depth = 0) (list : QXmlAttributes) :
    startElement q m h "niflotoxml" list = (true, h.push 0) := by
  obtain ⟨hel, hlen, htags, hshape⟩ := hI
  simp only [NifXmlHandler.new] at hel
  have hx : indexOf ["niflotoxml", "type", "compound", "ancestor", "niblock", "add", "inherit"]
      "niflotoxml" = 0 := by decide
  simp [startElement, *]

theorem startElement_type (q : Externals) {h : NifXmlHandler} {m : NifModel} (hI : Inv h m)
    (hd : h.depth = 1) (list : QXmlAttributes) (hv : list.value "type" ∈ internalTypeTags) :
    startElement q m h "type" list =
      (true, { h.push 1 with typ := some (declaredType q list) }) := by
  obtain ⟨hel, hlen, htags, hshape⟩ := hI
  simp only [NifXmlHandler.new] at hel
  have hx : indexOf ["niflotoxml", "type", "compound", "ancestor", "niblock", "add", "inherit"]
      "type" = 1 := by decide
  have hb := indexOf_mem_bounds _ _ hv
  have hlen10 : internalTypeTags.length = 10 := by decide
  rw [hlen10] at hb
  have hnn : ¬ indexOf internalTypeTags (list.value "type") < 0 := by omega
  have hc := convertToType_snd q (h.push 1) (list.value "value") _ hb.1 (by exact_mod_cast hb.2)
  have hc1 := convertToType_fst q (h.push 1) NifXmlHandler.new (list.value "value")
    (indexOf internalTypeTags (list.value "type"))
  rcases hshape with ⟨hd', _⟩ | ⟨_, hs0, ht, hb⟩ | ⟨hd', _⟩ | ⟨hd', _⟩ | ⟨hd', _⟩
  any_goals (rw [hd] at hd'; exact absurd hd' (by decide))
  have htp : (h.push 1).typ = none := ht
  simp [startElement, current, declaredType, *]

theorem startElement_block (q : Externals) {h : NifXmlHandler} {m : NifModel} (hI : Inv h m)
    (hd : h.depth = 1) (name : String) (list : QXmlAttributes)
    (hn : name = "compound" ∨ name = "ancestor" ∨ name = "niblock") :
    startElement q m h name list =
      (true, { h.push (indexOf NifXmlHandler.new.elements name) with
                blk := some { id := list.value "name" } }) := by
  obtain ⟨hel, hlen, htags, hshape⟩ := hI
  simp only [NifXmlHandler.new] at hel ⊢
  rcases hshape with ⟨hd', _⟩ | ⟨_, hs0, ht, hb⟩ | ⟨hd', _⟩ | ⟨hd', _⟩ | ⟨hd', _⟩
  any_goals (rw [hd] at hd'; exact absurd hd' (by decide))
  rcases hn with rfl | rfl | rfl
  · have hx : indexOf ["niflotoxml", "type", "compound", "ancestor", "niblock", "add", "inherit"]
        "compound" = 2 := by decide
    have hbp : (h.push 2).blk = none := hb
    simp [startElement, current, *]
  · have hx : indexOf ["niflotoxml", "type", "compound", "ancestor", "niblock", "add", "inherit"]
        "ancestor" = 3 := by decide
    have hbp : (h.push 3).blk = none := hb
    simp [startElement, current, *]
  · have hx : indexOf ["niflotoxml", "type", "compound", "ancestor", "niblock", "add", "inherit"]
        "niblock" = 4 := by decide
    have hbp : (h.push 4).blk = none := hb
    simp [startElement, current, *]

theorem startElement_add (q : Externals) {h : NifXmlHandler} {m : NifModel} (hI : Inv h m)
    (hd : h.depth = 2) (hs : h.stackAt 1 = 2 ∨ h.stackAt 1 = 3 ∨ h.stackAt 1 = 4)
    (b : NifBlock) (hb : h.blk = some b) (list : QXmlAttributes)
    (hn : list.value "name" ≠ "") (ht : list.value "type" ≠ "") :
    startElement q m h "add" list =
      (true, ({ h with blk := some { b with types := b.types ++ [addedField q list] } }).push 5) := by
  obtain ⟨hel, hlen, htags, hshape⟩ := hI
  simp only [NifXmlHandler.new] at hel
  have hx : indexOf ["niflotoxml", "type", "compound", "ancestor", "niblock", "add", "inherit"]
      "add" = 5 := by decide
  have hn1 := q.toLower_eq_empty (list.value "name")
  have hn2 := q.toLower_eq_empty (list.value "type")
  rcases hs with hs | hs | hs <;>
    simp [startElement, current, addedField, isEmpty, NifXmlHandler.err, *]

theorem startElement_inherit (q : Externals) {h : NifXmlHandler} {m : NifModel} (hI : Inv h m)
    (hd : h.depth = 2) (hs : h.stackAt 1 = 3 ∨ h.stackAt 1 = 4)
    (b : NifBlock) (hb : h.blk = some b) (list : QXmlAttributes)
    (hn : list.value "name" ≠ "") :
    startElement q m h "inherit" list =
      (true,
        ({ h with blk := some { b with ancestors := b.ancestors ++ [list.value "name"] } }).push
          6) := by
  obtain ⟨hel, hlen, htags, hshape⟩ := hI
  simp only [NifXmlHandler.new] at hel
  have hx : indexOf ["niflotoxml", "type", "compound", "ancestor", "niblock", "add", "inherit"]
      "inherit" = 6 := by decide
  rcases hs with hs | hs <;>
    simp [startElement, current, isEmpty, NifXmlHandler.err, *]

theorem endElement_accept_iff {h : NifXmlHandler} {m : NifModel} (hI : Inv h m) (name : String) :
    (endElement m h name).1 = true ↔
      (h.depth = 1 ∧ name = "niflotoxml") ∨
      (h.depth = 2 ∧ h.stackAt 1 = 1 ∧ name = "type" ∧ ∃ t, h.typ = some t ∧ t.id ≠ "") ∨
      (h.depth = 2 ∧
        ((h.stackAt 1 = 2 ∧ name = "compound") ∨ (h.stackAt 1 = 3 ∧ name = "ancestor") ∨
          (h.stackAt 1 = 4 ∧ name = "niblock")) ∧ ∃ b, h.blk = some b ∧ b.id ≠ "") ∨
      (h.depth = 3 ∧ ((h.stackAt 2 = 5 ∧ name = "add") ∨ (h.stackAt 2 = 6 ∧ name = "inherit"))) := by
  obtain ⟨hel, hlen, htags, hshape⟩ := hI
  have hcases := indexOf_elements name
  simp only [NifXmlHandler.new] at hel hcases
  rcases hcases with ⟨rfl, hx⟩ | ⟨rfl, hx⟩ | ⟨rfl, hx⟩ | ⟨rfl, hx⟩ | ⟨rfl, hx⟩ |
    ⟨rfl, hx⟩ | ⟨rfl, hx⟩ | ⟨hn, hx⟩
  all_goals
    rcases hshape with ⟨hd, ht, hb⟩ | ⟨hd, hs0, ht, hb⟩ | ⟨hd, hs0, hs1, ⟨t, ht⟩, hb⟩ |
      ⟨hd, hs0, (hs1 | hs1 | hs1), ht, ⟨b, hb⟩⟩ |
      ⟨hd, hs0, (hs1 | hs1 | hs1), (hs2 | hs2), ht, ⟨b, hb⟩⟩
  all_goals
    simp [endElement, pop, current, NifXmlHandler.err, listValue, isEmpty, *]
  all_goals first | (split <;> simp_all) | simp_all

theorem endElement_root {h : NifXmlHandler} {m : NifModel} (hI : Inv h m) (hd : h.depth = 1) :
    endElement m h "niflotoxml" = (true, { h with depth := 0 }, m) := by
  obtain ⟨hel, hlen, htags, hshape⟩ := hI
  simp only [NifXmlHandler.new] at hel
  have hx : indexOf ["niflotoxml", "type", "compound", "ancestor", "niblock", "add", "inherit"]
      "niflotoxml" = 0 := by decide
  rcases hshape with ⟨hd', _⟩ | ⟨_, hs0, ht, hb⟩ | ⟨hd', _⟩ | ⟨hd', _⟩ | ⟨hd', _⟩
  any_goals (rw [hd] at hd'; exact absurd hd' (by decide))
  simp [endElement, pop, *]

theorem endElement_add {h : NifXmlHandler} {m : NifModel} (hI : Inv h m) (hd : h.depth = 3)
    (hs : h.stackAt 2 = 5) : endElement m h "add" = (true, { h with depth := 2 }, m) := by
  obtain ⟨hel, hlen, htags, hshape⟩ := hI
  simp only [NifXmlHandler.new] at hel
  have hx : indexOf ["niflotoxml", "type", "compound", "ancestor", "niblock", "add", "inherit"]
      "add" = 5 := by decide
  simp [endElement, pop, *]

theorem endElement_inherit {h : NifXmlHandler} {m : NifModel} (hI : Inv h m) (hd : h.depth = 3)
    (hs : h.stackAt 2 = 6) : endElement m h "inherit" = (true, { h with depth := 2 }, m) := by
  obtain ⟨hel, hlen, htags, hshape⟩ := hI
  simp only [NifXmlHandler.new] at hel
  have hx : indexOf ["niflotoxml", "type", "compound", "ancestor", "niblock", "add", "inherit"]
      "inherit" = 6 := by decide
  simp [endElement, pop, *]

theorem endElement_type {h : NifXmlHandler} {m : NifModel} (hI : Inv h m) (hd : h.depth = 2)
    (hs : h.stackAt 1 = 1) (t : NifBasicType) (ht : h.typ = some t) (hid : t.id ≠ "") :
    endElement m h "type" =
      (true, { h with depth := 1, typ := none },
        { m with types := m.types.insertMulti t.id t }) := by
  obtain ⟨hel, hlen, htags, hshape⟩ := hI
  simp only [NifXmlHandler.new] at hel
  have hx : indexOf ["niflotoxml", "type", "compound", "ancestor", "niblock", "add", "inherit"]
      "type" = 1 := by decide
  simp [endElement, pop, isEmpty, *]

theorem endElement_compound {h : NifXmlHandler} {m : NifModel} (hI : Inv h m) (hd : h.depth = 2)
    (hs : h.stackAt 1 = 2) (b : NifBlock) (hb : h.blk = some b) (hid : b.id ≠ "") :
    endElement m h "compound" =
      (true, { h with depth := 1, blk := none },
        { m with compounds := m.compounds.insert b.id b }) := by
  obtain ⟨hel, hlen, htags, hshape⟩ := hI
  simp only [NifXmlHandler.new] at hel
  have hx : indexOf ["niflotoxml", "type", "compound", "ancestor", "niblock", "add", "inherit"]
      "compound" = 2 := by decide
  simp [endElement, pop, isEmpty, *]

theorem endElement_ancestor {h : NifXmlHandler} {m : NifModel} (hI : Inv h m) (hd : h.depth = 2)
    (hs : h.stackAt 1 = 3) (b : NifBlock) (hb : h.blk = some b) (hid : b.id ≠ "") :
    endElement m h "ancestor" =
      (true, { h with depth := 1, blk := none },
        { m with ancestors := m.ancestors.insert b.id b }) := by
  obtain ⟨hel, hlen, htags, hshape⟩ := hI
  simp only [NifXmlHandler.new] at hel
  have hx : indexOf ["niflotoxml", "type", "compound", "ancestor", "niblock", "add", "inherit"]
      "ancestor" = 3 := by decide
  simp [endElement, pop, isEmpty, *]

theorem endElement_niblock {h : NifXmlHandler} {m : NifModel} (hI : Inv h m) (hd : h.depth = 2)
    (hs : h.stackAt 1 = 4) (b : NifBlock) (hb : h.blk = some b) (hid : b.id ≠ "") :
    endElement m h "niblock" =
      (true, { h with depth := 1, blk := none },
        { m with blocks := m.blocks.insert b.id b }) := by
  obtain ⟨hel, hlen, htags, hshape⟩ := hI
  simp only [NifXmlHandler.new] at hel
  have hx : indexOf ["niflotoxml", "type", "compound", "ancestor", "niblock", "add", "inherit"]
      "niblock" = 4 := by decide
  simp [endElement, pop, isEmpty, *]

theorem inv_new (m : NifModel) : Inv NifXmlHandler.new (clearRegistry m) :=
  ⟨rfl, by decide, rfl, Or.inl ⟨rfl, rfl, rfl⟩⟩

theorem stackAt_set_depth (h : NifXmlHandler) (d i : Int) :
    ({ h with depth := d } : NifXmlHandler).stackAt i = h.stackAt i := rfl

theorem innermost_of_inv {h : NifXmlHandler} {m : NifModel} (hI : Inv h m) :
    (h.depth = 0 ∧ h.innermost = none) ∨
    (h.depth = 1 ∧ h.innermost = some "niflotoxml") ∨
    (h.depth = 2 ∧ h.stackAt 1 = 1 ∧ h.innermost = some "type") ∨
    (h.depth = 2 ∧ h.stackAt 1 = 2 ∧ h.innermost = some "compound") ∨
    (h.depth = 2 ∧ h.stackAt 1 = 3 ∧ h.innermost = some "ancestor") ∨
    (h.depth = 2 ∧ h.stackAt 1 = 4 ∧ h.innermost = some "niblock") ∨
    (h.depth = 3 ∧ h.stackAt 2 = 5 ∧ h.innermost = some "add") ∨
    (h.depth = 3 ∧ h.stackAt 2 = 6 ∧ h.innermost = some "inherit") := by
  obtain ⟨hel, hlen, htags, hshape⟩ := hI
  simp only [NifXmlHandler.new] at hel
  rcases hshape with ⟨hd, ht, hb⟩ | ⟨hd, hs0, ht, hb⟩ | ⟨hd, hs0, hs1, ⟨t, ht⟩, hb⟩ |
      ⟨hd, hs0, (hs1 | hs1 | hs1), ht, ⟨b, hb⟩⟩ |
      ⟨hd, hs0, (hs1 | hs1 | hs1), (hs2 | hs2), ht, ⟨b, hb⟩⟩ <;>
    simp [innermost, current, listValue, *]

theorem push_facts (h : NifXmlHandler) (x : Int) (hd : 0 ≤ h.depth)
    (hlen : h.stack.length = 10) (hl : h.depth < 10) :
    (h.push x).depth = h.depth + 1 ∧ (h.push x).stack.length = 10 ∧
    (h.push x).elements = h.elements ∧ (h.push x).typ = h.typ ∧ (h.push x).blk = h.blk ∧
    (h.push x).errorStr = h.errorStr ∧ (h.push x).stackAt h.depth = x ∧
    ∀ i, 0 ≤ i → i ≠ h.depth → (h.push x).stackAt i = h.stackAt i := by
  refine ⟨rfl, by simp [push, hlen], rfl, rfl, rfl, rfl, ?_, ?_⟩
  · rw [stackAt_push h x _ hd hlen hl hd]; simp
  · intro i hi hne
    rw [stackAt_push h x _ hd hlen hl hi]; simp [hne]

theorem inv_startElement (q : Externals) {h : NifXmlHandler} {m : NifModel} (hI : Inv h m)
    (name : String) (list : QXmlAttributes)
    (hacc : (startElement q m h name list).1 = true) :
    Inv (startElement q m h name list).2 m := by
  have hiff := (startElement_accept_iff q hI name list).1 hacc
  obtain ⟨hpair, hreq⟩ := hiff
  have hI' := hI
  obtain ⟨hel, hlen, htags, hshape⟩ := hI'
  rcases hshape with ⟨hd, ht, hb⟩ | ⟨hd, hs0, ht, hb⟩ | ⟨hd, hs0, hs1, ⟨t, ht⟩, hb⟩ |
      ⟨hd, hs0, hs1, ht, ⟨b, hb⟩⟩ | ⟨hd, hs0, hs1, hs2, ht, ⟨b, hb⟩⟩
  · -- no element open
    have hin : h.innermost = none := by simp [innermost, hd]
    rw [hin] at hpair
    simp only [AllowedPair] at hpair
    subst hpair
    rw [startElement_root q hI hd]
    obtain ⟨p1, p2, p3, p4, p5, _, p7, p8⟩ := push_facts h 0 (by omega) hlen (by omega)
    refine ⟨by rw [p3, hel], p2, htags, Or.inr (Or.inl ⟨by rw [p1, hd]; rfl, ?_, by rw [p4, ht], by rw [p5, hb]⟩)⟩
    rw [hd] at p7; exact p7
  · -- the root is open
    have hin : h.innermost = some "niflotoxml" := by
      simp only [NifXmlHandler.new] at hel
      simp [innermost, current, listValue, *]
    rw [hin] at hpair
    simp only [AllowedPair] at hpair
    have hp :
        ∀ x, (h.push x).depth = 2 ∧ (h.push x).stack.length = 10 ∧
          (h.push x).elements = h.elements ∧ (h.push x).typ = none ∧ (h.push x).blk = none ∧
          True ∧ (h.push x).stackAt 1 = x ∧ (h.push x).stackAt 0 = 0 := by
      intro x
      obtain ⟨p1, p2, p3, p4, p5, _, p7, p8⟩ := push_facts h x (by omega) hlen (by omega)
      refine ⟨by rw [p1, hd]; rfl, p2, p3, by rw [p4, ht], by rw [p5, hb], trivial, ?_, ?_⟩
      · rw [hd] at p7; exact p7
      · rw [p8 0 (by omega) (by omega)]; exact hs0
    simp at hpair
    rcases hpair with rfl | rfl | rfl | rfl
    · obtain ⟨p1, p2, p3, p4, p5, _, p7, p8⟩ := hp 1
      rw [startElement_type q hI hd list (hreq.1 rfl)]
      exact ⟨by rw [← hel]; exact p3, p2, htags,
        Or.inr (Or.inr (Or.inl ⟨p1, p8, p7, ⟨_, rfl⟩, p5⟩))⟩
    · rw [startElement_block q hI hd _ list (Or.inl rfl)]
      have hx : indexOf NifXmlHandler.new.elements "compound" = 2 := by decide
      rw [hx]
      obtain ⟨p1, p2, p3, p4, p5, _, p7, p8⟩ := hp 2
      exact ⟨by rw [← hel]; exact p3, p2, htags,
        Or.inr (Or.inr (Or.inr (Or.inl ⟨p1, p8, Or.inl p7, p4, ⟨_, rfl⟩⟩)))⟩
    · rw [startElement_block q hI hd _ list (Or.inr (Or.inl rfl))]
      have hx : indexOf NifXmlHandler.new.elements "ancestor" = 3 := by decide
      rw [hx]
      obtain ⟨p1, p2, p3, p4, p5, _, p7, p8⟩ := hp 3
      exact ⟨by rw [← hel]; exact p3, p2, htags,
        Or.inr (Or.inr (Or.inr (Or.inl ⟨p1, p8, Or.inr (Or.inl p7), p4, ⟨_, rfl⟩⟩)))⟩
    · rw [startElement_block q hI hd _ list (Or.inr (Or.inr rfl))]
      have hx : indexOf NifXmlHandler.new.elements "niblock" = 4 := by decide
      rw [hx]
      obtain ⟨p1, p2, p3, p4, p5, _, p7, p8⟩ := hp 4
      exact ⟨by rw [← hel]; exact p3, p2, htags,
        Or.inr (Or.inr (Or.inr (Or.inl ⟨p1, p8, Or.inr (Or.inr p7), p4, ⟨_, rfl⟩⟩)))⟩
  · -- a type is open
    have hin : h.innermost = some "type" := by
      simp only [NifXmlHandler.new] at hel
      simp [innermost, current, listValue, *]
    rw [hin] at hpair
    simp [AllowedPair] at hpair
  · -- a compound, an ancestor or a niblock is open
    have hs1' := hs1
    have hp :
        ∀ (b' : NifBlock) x, (({ h with blk := some b' } : NifXmlHandler).push x).depth = 3 ∧
          (({ h with blk := some b' } : NifXmlHandler).push x).stack.length = 10 ∧
          (({ h with blk := some b' } : NifXmlHandler).push x).elements = h.elements ∧
          (({ h with blk := some b' } : NifXmlHandler).push x).typ = none ∧
          (({ h with blk := some b' } : NifXmlHandler).push x).blk = some b' ∧
          True ∧ (({ h with blk := some b' } : NifXmlHandler).push x).stackAt 2 = x ∧
          (({ h with blk := some b' } : NifXmlHandler).push x).stackAt 0 = 0 ∧
          (({ h with blk := some b' } : NifXmlHandler).push x).stackAt 1 = h.stackAt 1 := by
      intro b' x
      obtain ⟨p1, p2, p3, p4, p5, _, p7, p8⟩ :=
        push_facts ({ h with blk := some b' } : NifXmlHandler) x
          (by show 0 ≤ h.depth; omega) hlen (by show h.depth < 10; omega)
      refine ⟨by rw [p1]; show h.depth + 1 = 3; omega, p2, p3, by rw [p4]; exact ht, p5,
        trivial, ?_, ?_, ?_⟩
      · have h2 : (2 : Int) = h.depth := hd.symm
        rw [h2]; exact p7
      · rw [p8 0 (by omega) (by show (0 : Int) ≠ h.depth; omega)]; exact hs0
      · rw [p8 1 (by omega) (by show (1 : Int) ≠ h.depth; omega)]; rfl
    have hin : h.innermost = some "compound" ∨ h.innermost = some "ancestor" ∨
        h.innermost = some "niblock" := by
      simp only [NifXmlHandler.new] at hel
      rcases hs1 with hs1 | hs1 | hs1 <;> simp [innermost, current, listValue, *]
    have hname : name = "add" ∨ (name = "inherit" ∧ (h.stackAt 1 = 3 ∨ h.stackAt 1 = 4)) := by
      simp only [NifXmlHandler.new] at hel
      rcases hs1 with hs1 | hs1 | hs1 <;>
        simp [innermost, current, listValue, AllowedPair, *] at hpair <;> tauto
    rcases hname with rfl | ⟨rfl, hs34⟩
    · rw [startElement_add q hI hd hs1' b hb list (hreq.2.1 rfl).1 (hreq.2.1 rfl).2]
      obtain ⟨p1, p2, p3, p4, p5, _, p7, p8, p9⟩ :=
        hp { b with types := b.types ++ [addedField q list] } 5
      exact ⟨by rw [← hel]; exact p3, p2, htags,
        Or.inr (Or.inr (Or.inr (Or.inr ⟨p1, p8, by rw [p9]; exact hs1', Or.inl p7,
          p4, ⟨_, p5⟩⟩)))⟩
    · rw [startElement_inherit q hI hd hs34 b hb list (hreq.2.2 rfl)]
      obtain ⟨p1, p2, p3, p4, p5, _, p7, p8, p9⟩ :=
        hp { b with ancestors := b.ancestors ++ [list.value "name"] } 6
      exact ⟨by rw [← hel]; exact p3, p2, htags,
        Or.inr (Or.inr (Or.inr (Or.inr ⟨p1, p8, by rw [p9]; exact hs1', Or.inr p7,
          p4, ⟨_, p5⟩⟩)))⟩
  · -- an add or an inherit is open
    simp only [NifXmlHandler.new] at hel
    rcases hs2 with hs2 | hs2 <;>
      simp [innermost, current, listValue, AllowedPair, *] at hpair

theorem inv_endElement {h : NifXmlHandler} {m : NifModel} (hI : Inv h m) (name : String)
    (hacc : (endElement m h name).1 = true) :
    Inv (endElement m h name).2.1 (endElement m h name).2.2 := by
  have hiff := (endElement_accept_iff hI name).1 hacc
  have hI' := hI
  obtain ⟨hel, hlen, htags, hshape⟩ := hI'
  rcases hiff with ⟨hd, rfl⟩ | ⟨hd, hs1, rfl, t, ht, hid⟩ |
    ⟨hd, (⟨hs1, rfl⟩ | ⟨hs1, rfl⟩ | ⟨hs1, rfl⟩), b, hb, hid⟩ | ⟨hd, (⟨hs2, rfl⟩ | ⟨hs2, rfl⟩)⟩
  · rw [endElement_root hI hd]
    rcases hshape with ⟨hd', _⟩ | ⟨_, hs0, ht, hb⟩ | ⟨hd', _⟩ | ⟨hd', _⟩ | ⟨hd', _⟩
    any_goals (rw [hd] at hd'; exact absurd hd' (by decide))
    exact ⟨hel, hlen, htags, Or.inl ⟨rfl, ht, hb⟩⟩
  · rw [endElement_type hI hd hs1 t ht hid]
    rcases hshape with ⟨hd', _⟩ | ⟨hd', _⟩ | ⟨_, hs0, _, _, hb⟩ | ⟨_, hs0, _, ht', _⟩ | ⟨hd', _⟩
    any_goals (rw [hd] at hd'; exact absurd hd' (by decide))
    · exact ⟨hel, hlen, htags, Or.inr (Or.inl ⟨rfl, hs0, rfl, hb⟩)⟩
    · rw [ht] at ht'; cases ht'
  · rw [endElement_compound hI hd hs1 b hb hid]
    rcases hshape with ⟨hd', _⟩ | ⟨hd', _⟩ | ⟨_, hs0, _, ⟨_, ht'⟩, hb'⟩ | ⟨_, hs0, _, ht', _⟩ |
      ⟨hd', _⟩
    any_goals (rw [hd] at hd'; exact absurd hd' (by decide))
    · rw [hb] at hb'; cases hb'
    · exact ⟨hel, hlen, htags, Or.inr (Or.inl ⟨rfl, hs0, ht', rfl⟩)⟩
  · rw [endElement_ancestor hI hd hs1 b hb hid]
    rcases hshape with ⟨hd', _⟩ | ⟨hd', _⟩ | ⟨_, hs0, _, ⟨_, ht'⟩, hb'⟩ | ⟨_, hs0, _, ht', _⟩ |
      ⟨hd', _⟩
    any_goals (rw [hd] at hd'; exact absurd hd' (by decide))
    · rw [hb] at hb'; cases hb'
    · exact ⟨hel, hlen, htags, Or.inr (Or.inl ⟨rfl, hs0, ht', rfl⟩)⟩
  · rw [endElement_niblock hI hd hs1 b hb hid]
    rcases hshape with ⟨hd', _⟩ | ⟨hd', _⟩ | ⟨_, hs0, _, ⟨_, ht'⟩, hb'⟩ | ⟨_, hs0, _, ht', _⟩ |
      ⟨hd', _⟩
    any_goals (rw [hd] at hd'; exact absurd hd' (by decide))
    · rw [hb] at hb'; cases hb'
    · exact ⟨hel, hlen, htags, Or.inr (Or.inl ⟨rfl, hs0, ht', rfl⟩)⟩
  · rw [endElement_add hI hd hs2]
    rcases hshape with ⟨hd', _⟩ | ⟨hd', _⟩ | ⟨hd', _⟩ | ⟨hd', _⟩ | ⟨_, hs0, hs1, _, ht, hb⟩
    any_goals (rw [hd] at hd'; exact absurd hd' (by decide))
    exact ⟨hel, hlen, htags, Or.inr (Or.inr (Or.inr (Or.inl ⟨rfl, hs0, hs1, ht, hb⟩)))⟩
  · rw [endElement_inherit hI hd hs2]
    rcases hshape with ⟨hd', _⟩ | ⟨hd', _⟩ | ⟨hd', _⟩ | ⟨hd', _⟩ | ⟨_, hs0, hs1, _, ht, hb⟩
    any_goals (rw [hd] at hd'; exact absurd hd' (by decide))
    exact ⟨hel, hlen, htags, Or.inr (Or.inr (Or.inr (Or.inl ⟨rfl, hs0, hs1, ht, hb⟩)))⟩

theorem inv_deliver (q : Externals) {h : NifXmlHandler} {m : NifModel} (hI : Inv h m)
    (e : SaxEvent) (hacc : (deliver q h m e).1 = true) :
    Inv (deliver q h m e).2.1 (deliver q h m e).2.2 := by
  cases e with
  | startElement l n a => exact inv_startElement q hI n a hacc
  | endElement l n => exact inv_endElement hI n hacc

theorem inv_of_reachable (q : Externals) {h : NifXmlHandler} {m : NifModel}
    (hr : Reachable q h m) : Inv h m := by
  induction hr with
  | init m => exact inv_new m
  | step e _ hacc ih => exact inv_deliver q ih e hacc

theorem endElement_uncondTypes (m : NifModel) (u : List String) (h : NifXmlHandler)
    (name : String) :
    endElement { m with uncondTypes := u } h name = withUncond u (endElement m h name) := by
  unfold endElement
  simp only [pop]
  by_cases h1 : h.depth ≤ 0
  · simp only [if_pos h1]; rfl
  simp only [if_neg h1]
  by_cases h2 : h.stackAt (h.depth - 1) ≠ indexOf h.elements name
  · simp only [if_pos h2]; rfl
  simp only [if_neg h2]
  by_cases h3 : indexOf h.elements name = 1
  · simp only [if_pos h3]
    cases h.typ with
    | none => rfl
    | some t =>
      simp only
      by_cases h4 : ¬ isEmpty t.id = true
      · simp only [if_pos h4]; rfl
      · simp only [if_neg h4]; rfl
  simp only [if_neg h3]
  by_cases h5 : indexOf h.elements name = 2 ∨ indexOf h.elements name = 3 ∨
      indexOf h.elements name = 4
  · simp only [if_pos h5]
    cases h.blk with
    | none => rfl
    | some b =>
      simp only
      by_cases h4 : ¬ isEmpty b.id = true
      · simp only [if_pos h4]
        by_cases h6 : indexOf h.elements name = 2
        · simp only [if_pos h6]; rfl
        by_cases h7 : indexOf h.elements name = 3
        · simp only [if_neg h6, if_pos h7]; rfl
        by_cases h8 : indexOf h.elements name = 4
        · simp only [if_neg h6, if_neg h7, if_pos h8]; rfl
        · simp only [if_neg h6, if_neg h7, if_neg h8]; rfl
      · simp only [if_neg h4]; rfl
  · simp only [if_neg h5]; rfl

theorem deliver_uncondTypes (q : Externals) (m : NifModel) (u : List String)
    (h : NifXmlHandler) (e : SaxEvent) :
    deliver q h { m with uncondTypes := u } e = withUncond u (deliver q h m e) := by
  cases e with
  | startElement l n a => rfl
  | endElement l n => exact endElement_uncondTypes m u h n

theorem parseEvents_uncondTypes (q : Externals) (u : List String) (es : List SaxEvent) :
    ∀ (h : NifXmlHandler) (m : NifModel),
      parseEvents q h { m with uncondTypes := u } es = withUncond u (parseEvents q h m es) := by
  induction es with
  | nil => intro h m; rfl
  | cons e es ih =>
    intro h m
    rw [parseEvents, parseEvents, deliver_uncondTypes]
    rcases hd : deliver q h m e with ⟨ok, h1, m1⟩
    cases ok with
    | true => exact ih h1 m1
    | false => rfl

theorem endDocument_uncondTypes (q : Externals) (u : List String) (h : NifXmlHandler)
    (m : NifModel) : endDocument q h { m with uncondTypes := u } = endDocument q h m := rfl

/-- The outcome of `parseXmlDescription` from a prior registry `m`, against
the outcome from the empty registry: the error string and every member but the
unconditional set are the same; the unconditional set is the same when the
element events were all accepted, and is the one of `m` otherwise. -/
theorem parseXmlDescription_prior (q : Externals) (m : NifModel) (filename : String)
    (f : Option XmlSource) :
    (parseXmlDescription q m filename f).1 = (parseXmlDescription q {} filename f).1 ∧
    (parseXmlDescription q m filename f).2 =
      { (parseXmlDescription q {} filename f).2 with
        uncondTypes := (parseXmlDescription q m filename f).2.uncondTypes } ∧
    ((parseXmlDescription q m filename f).2.uncondTypes =
        (parseXmlDescription q {} filename f).2.uncondTypes ∨
      (parseXmlDescription q m filename f).2.uncondTypes = m.uncondTypes) := by
  cases f with
  | none => exact ⟨rfl, rfl, Or.inr rfl⟩
  | some source =>
    have hc : clearRegistry m = { clearRegistry {} with uncondTypes := m.uncondTypes } := rfl
    have hp := parseEvents_uncondTypes q m.uncondTypes source.events NifXmlHandler.new
      (clearRegistry {})
    rw [← hc] at hp
    simp only [parseXmlDescription, readerParse, hp, errorString]
    rcases hpe : parseEvents q NifXmlHandler.new (clearRegistry {}) source.events with
      ⟨ok, h1, m1⟩
    cases ok with
    | false => simp [withUncond]
    | true =>
      simp only [withUncond, endDocument_uncondTypes]
      rcases endDocument q h1 m1 with ⟨ok2, h2, m2⟩
      cases ok2 <;> simp

/-! ## The parse state machine -/

/-- C8: in every reachable state, `startElement` accepts an element only if
the pair (innermost open element, opened element) is one of (none,
niflotoxml), (niflotoxml, type | compound | ancestor | niblock), (compound,
add), (ancestor | niblock, add | inherit); and it accepts every such pair
whose required attributes are present. In particular nothing is accepted
inside `type`, and `inherit` is rejected inside `compound`. -/
theorem C8_element_grammar (q : Externals) (h : NifXmlHandler) (m : NifModel)
    (hr : Reachable q h m) (name : String) (list : QXmlAttributes) :
    ((startElement q m h name list).1 = true → AllowedPair h.innermost name) ∧
    (AllowedPair h.innermost name → RequiredAttributes name list →
      (startElement q m h name list).1 = true) ∧
    (h.innermost = some "type" → (startElement q m h name list).1 = false) ∧
    (h.innermost = some "compound" → (startElement q m h "inherit" list).1 = false) := by
  have hI := inv_of_reachable q hr
  refine ⟨fun hacc => ((startElement_accept_iff q hI name list).1 hacc).1,
    fun hp hq => (startElement_accept_iff q hI name list).2 ⟨hp, hq⟩, ?_, ?_⟩
  · intro hin
    cases hacc : (startElement q m h name list).1 with
    | false => rfl
    | true =>
      have := ((startElement_accept_iff q hI name list).1 hacc).1
      rw [hin] at this
      simp [AllowedPair] at this
  · intro hin
    cases hacc : (startElement q m h "inherit" list).1 with
    | false => rfl
    | true =>
      have := ((startElement_accept_iff q hI "inherit" list).1 hacc).1
      rw [hin] at this
      simp [AllowedPair] at this

/-- C8 at the fresh handler: the root is accepted when no element is open. -/
theorem C8_element_grammar_witness :
    AllowedPair NifXmlHandler.new.innermost "niflotoxml" ∧
    (startElement sampleQt (clearRegistry {}) NifXmlHandler.new "niflotoxml" []).1 = true :=
  ⟨rfl, (C8_element_grammar sampleQt NifXmlHandler.new (clearRegistry {}) (Reachable.init {})
    "niflotoxml" []).2.1 rfl ⟨by decide, by decide, by decide⟩⟩

theorem get?_indexOf (l : List String) (s : String) (hs : s ∈ l) :
    l.get? (indexOf l s).toNat = some s := by
  induction l with
  | nil => cases hs
  | cons a rest ih =>
    unfold indexOf
    by_cases ha : a = s
    · simp [ha]
    · have hs' : s ∈ rest := by
        rcases List.mem_cons.1 hs with rfl | h'
        · exact absurd rfl ha
        · exact h'
      obtain ⟨h0, _⟩ := indexOf_mem_bounds rest s hs'
      have hnn : ¬ indexOf rest s < 0 := by omega
      simp only [ha, if_false, hnn]
      have : (indexOf rest s + 1).toNat = (indexOf rest s).toNat + 1 := by omega
      rw [this, List.get?_cons_succ]
      exact ih hs'

theorem depth_of_innermost_root {h : NifXmlHandler} {m : NifModel} (hI : Inv h m)
    (hroot : h.innermost = some "niflotoxml") : h.depth = 1 := by
  rcases innermost_of_inv hI with ⟨_, hi⟩ | ⟨hd, _⟩ | ⟨_, _, hi⟩ | ⟨_, _, hi⟩ | ⟨_, _, hi⟩ |
    ⟨_, _, hi⟩ | ⟨_, _, hi⟩ | ⟨_, _, hi⟩
  any_goals (rw [hi] at hroot; simp at hroot)
  exact hd

theorem startElement_type_invalid (q : Externals) {h : NifXmlHandler} {m : NifModel}
    (hI : Inv h m) (hd : h.depth = 1) (list : QXmlAttributes)
    (hv : list.value "type" ∉ internalTypeTags) :
    startElement q m h "type" list =
      (false, { h.push 1 with errorStr := "type declaration must name a valid internal type" }) := by
  obtain ⟨hel, hlen, htags, hshape⟩ := hI
  simp only [NifXmlHandler.new] at hel
  have hx : indexOf ["niflotoxml", "type", "compound", "ancestor", "niblock", "add", "inherit"]
      "type" = 1 := by decide
  have hneg := (indexOf_neg_iff internalTypeTags (list.value "type")).2 hv
  rcases hshape with ⟨hd', _⟩ | ⟨_, hs0, ht, hb⟩ | ⟨hd', _⟩ | ⟨hd', _⟩ | ⟨hd', _⟩
  any_goals (rw [hd] at hd'; exact absurd hd' (by decide))
  simp [startElement, current, NifXmlHandler.err, *]

/-- C9: opening a `type` element directly under the root succeeds if and only
if its `type` attribute is exactly one of the ten tags of `internalTypeTags`
(`uint8`, `uint16`, `uint32`, `int8`, `int16`, `int32`, `float`, `string`,
`color3f`, `color4f`); any other value, the missing attribute and a tag in
another case included, is the error "type declaration must name a valid
internal type"; on success the recorded `internalType` is the position of the
tag in the list. -/
theorem C9_internal_kind (q : Externals) (h : NifXmlHandler) (m : NifModel)
    (hr : Reachable q h m) (hroot : h.innermost = some "niflotoxml") (list : QXmlAttributes) :
    internalTypeTags = ["uint8", "uint16", "uint32", "int8", "int16", "int32", "float", "string",
      "color3f", "color4f"] ∧
    "" ∉ internalTypeTags ∧ "UInt8" ∉ internalTypeTags ∧
    ((startElement q m h "type" list).1 = true ↔ list.value "type" ∈ internalTypeTags) ∧
    (list.value "type" ∉ internalTypeTags →
      (startElement q m h "type" list).2.errorStr =
        "type declaration must name a valid internal type") ∧
    (list.value "type" ∈ internalTypeTags →
      ∃ t, (startElement q m h "type" list).2.typ = some t ∧ 0 ≤ t.internalType ∧
        internalTypeTags.get? t.internalType.toNat = some (list.value "type")) := by
  have hI := inv_of_reachable q hr
  have hd := depth_of_innermost_root hI hroot
  refine ⟨rfl, by decide, by decide, ?_, ?_, ?_⟩
  · constructor
    · intro hacc
      by_contra hv
      rw [startElement_type_invalid q hI hd list hv] at hacc
      cases hacc
    · intro hv
      rw [startElement_type q hI hd list hv]
  · intro hv
    rw [startElement_type_invalid q hI hd list hv]
  · intro hv
    rw [startElement_type q hI hd list hv]
    exact ⟨_, rfl, (indexOf_mem_bounds _ _ hv).1, get?_indexOf _ _ hv⟩

/-- C9 in the state in which the root has just been opened. -/
theorem C9_internal_kind_witness :
    (startElement sampleQt (clearRegistry {}) NifXmlHandler.new "niflotoxml" []).2.innermost =
      some "niflotoxml" ∧
    ((startElement sampleQt (clearRegistry {})
        (startElement sampleQt (clearRegistry {}) NifXmlHandler.new "niflotoxml" []).2
        "type" [("name", "flag"), ("type", "uint16")]).1 = true ↔
      QXmlAttributes.value [("name", "flag"), ("type", "uint16")] "type" ∈ internalTypeTags) :=
  ⟨by decide,
    (C9_internal_kind sampleQt _ _
      (Reachable.step (.startElement 1 "niflotoxml" []) (Reachable.init {}) (by decide))
      (by decide) [("name", "flag"), ("type", "uint16")]).2.2.2.1⟩

/-- C10, as stated, fails on `badDefaultDocument`: `abc` cannot be converted
to an integer, yet the document compiles and the type `count` is committed,
with the default `0`. -/
theorem C10_counterexample :
    sampleQt.toInt "abc" = none ∧
    (parseXmlDescription sampleQt {} "nif.xml" (some badDefaultDocument)).1 = "" ∧
    (parseXmlDescription sampleQt {} "nif.xml" (some badDefaultDocument)).2.types.value "count" =
      some { id := "count", internalType := 0, value := .int 0 } := by
  decide

/-- C10, amended: opening a `type` element with a valid internal kind directly
under the root succeeds whatever its default string is, and leaves the error
string untouched; the recorded default is a valid value, which is the integer
0 when the kind is an integer kind and the string cannot be converted; and the
type is committed when the element closes, provided its name is not empty. -/
theorem C10_default_not_checked (q : Externals) (h : NifXmlHandler) (m : NifModel)
    (hr : Reachable q h m) (hroot : h.innermost = some "niflotoxml") (list : QXmlAttributes)
    (hk : list.value "type" ∈ internalTypeTags) :
    (startElement q m h "type" list).1 = true ∧
    (startElement q m h "type" list).2.errorStr = h.errorStr ∧
    ∃ t, (startElement q m h "type" list).2.typ = some t ∧ t.value.isValid = true ∧
      (q.toInt (list.value "value") = none → t.internalType ≤ it_int32 → t.value = .int 0) ∧
      (list.value "name" ≠ "" →
        (endElement m (startElement q m h "type" list).2 "type").1 = true ∧
        (endElement m (startElement q m h "type" list).2 "type").2.2.types =
          m.types.insertMulti t.id t) := by
  have hI := inv_of_reachable q hr
  have hd := depth_of_innermost_root hI hroot
  have hacc : (startElement q m h "type" list).1 = true := by
    rw [startElement_type q hI hd list hk]
  have hI2 := inv_startElement q hI "type" list hacc
  rw [startElement_type q hI hd list hk] at hI2 ⊢
  obtain ⟨h0, h9⟩ := indexOf_mem_bounds _ _ hk
  have hlen10 : internalTypeTags.length = 10 := by decide
  rw [hlen10] at h9
  have h9' : indexOf internalTypeTags (list.value "type") < 10 := by exact_mod_cast h9
  refine ⟨rfl, rfl, declaredType q list, rfl, ?_, ?_, ?_⟩
  · have : indexOf internalTypeTags (list.value "type") = 0 ∨
        indexOf internalTypeTags (list.value "type") = 1 ∨
        indexOf internalTypeTags (list.value "type") = 2 ∨
        indexOf internalTypeTags (list.value "type") = 3 ∨
        indexOf internalTypeTags (list.value "type") = 4 ∨
        indexOf internalTypeTags (list.value "type") = 5 ∨
        indexOf internalTypeTags (list.value "type") = 6 ∨
        indexOf internalTypeTags (list.value "type") = 7 ∨
        indexOf internalTypeTags (list.value "type") = 8 ∨
        indexOf internalTypeTags (list.value "type") = 9 := by omega
    rcases this with e | e | e | e | e | e | e | e | e | e <;>
      simp [declaredType, e, convertToType, it_uint8, it_uint16, it_uint32, it_int8, it_int16,
        it_int32, it_float, it_string, it_color3f, it_color4f, QVariant.isValid]
  · intro hnone hle
    have hle' : indexOf internalTypeTags (list.value "type") ≤ 5 := hle
    have : indexOf internalTypeTags (list.value "type") = 0 ∨
        indexOf internalTypeTags (list.value "type") = 1 ∨
        indexOf internalTypeTags (list.value "type") = 2 ∨
        indexOf internalTypeTags (list.value "type") = 3 ∨
        indexOf internalTypeTags (list.value "type") = 4 ∨
        indexOf internalTypeTags (list.value "type") = 5 := by omega
    rcases this with e | e | e | e | e | e <;>
      simp [declaredType, e, convertToType, it_uint8, it_uint16, it_uint32, it_int8, it_int16,
        it_int32, hnone]
  · intro hname
    have hid : (declaredType q list).id ≠ "" := by
      simpa [declaredType, q.toLower_eq_empty] using hname
    have hp := push_facts h 1 (by omega) hI.stackLength (by omega)
    have hs1 : ({ h.push 1 with typ := some (declaredType q list) } : NifXmlHandler).stackAt 1 =
        1 := by
      have := hp.2.2.2.2.2.2.1
      rw [hd] at this
      exact this
    have hd2 : ({ h.push 1 with typ := some (declaredType q list) } : NifXmlHandler).depth =
        2 := by
      show h.depth + 1 = 2
      omega
    rw [endElement_type hI2 hd2 hs1 (declaredType q list) rfl hid]
    exact ⟨rfl, rfl⟩

/-- C10, amended, in the state in which the root has just been opened, for
the `type` element of `badDefaultDocument`. -/
theorem C10_default_not_checked_witness :
    (startElement sampleQt (clearRegistry {}) NifXmlHandler.new "niflotoxml" []).2.innermost =
      some "niflotoxml" ∧
    QXmlAttributes.value [("name", "count"), ("type", "uint8"), ("value", "abc")] "type" ∈
      internalTypeTags ∧
    (startElement sampleQt (clearRegistry {})
      (startElement sampleQt (clearRegistry {}) NifXmlHandler.new "niflotoxml" []).2
      "type" [("name", "count"), ("type", "uint8"), ("value", "abc")]).1 = true :=
  ⟨by decide, by decide,
    (C10_default_not_checked sampleQt _ _
      (Reachable.step (.startElement 1 "niflotoxml" []) (Reachable.init {}) (by decide))
      (by decide) [("name", "count"), ("type", "uint8"), ("value", "abc")] (by decide)).1⟩

/-! ## The entry point -/

/-- C6, evaluated: after a first run on `firstRunDocument`, a second run on
`notSchemaDocument` fails in `startElement`; it leaves the four hashes empty
but the unconditional set still lists `old`, while the same run from an empty
registry leaves the set empty. -/
theorem C6_stale_unconditional_set :
    (parseXmlDescription sampleQt {} "nif.xml" (some firstRunDocument)).1 = "" ∧
    (parseXmlDescription sampleQt {} "nif.xml" (some firstRunDocument)).2.uncondTypes = ["old"] ∧
    (parseXmlDescription sampleQt
      (parseXmlDescription sampleQt {} "nif.xml" (some firstRunDocument)).2
      "nif.xml" (some notSchemaDocument)) =
      ("XML parse error (line 1):<br>error unknown element 'html'",
        { internalTypes := internalTypeTags, uncondTypes := ["old"] }) ∧
    (parseXmlDescription sampleQt {} "nif.xml" (some notSchemaDocument)) =
      ("XML parse error (line 1):<br>error unknown element 'html'",
        { internalTypes := internalTypeTags, uncondTypes := [] }) := by
  decide

set_option maxRecDepth 100000 in
/-- C7, as stated, fails: the error the example document reports is not the
one that names `AController`; `AController` does not occur in it. -/
theorem C7_counterexample :
    (parseXmlDescription sampleQt {} "nif.xml" (some exampleDocument)).1 ≠
      "XML parse error (line 11):<br>niblock NiNode inherits unknown ancestor AController" ∧
    ¬ ("AController".data <:+:
      (parseXmlDescription sampleQt {} "nif.xml" (some exampleDocument)).1.data) := by
  decide

/-- C7, amended: the example document fails in the compound sweep with the
referential violation that names `float`, the type of the fields of `Vector3`,
which the document does not declare; with a primitive type `float` declared as
well, it fails with the referential violation that names `AController`. This
holds from every prior registry. -/
theorem C7_example_document (m : NifModel) :
    (parseXmlDescription sampleQt m "nif.xml" (some exampleDocument)).1 =
      "XML parse error (line 11):<br>compound type Vector3 referes to unknown type float" ∧
    (parseXmlDescription sampleQt m "nif.xml" (some exampleDocumentWithFloat)).1 =
      "XML parse error (line 11):<br>niblock NiNode inherits unknown ancestor AController" := by
  rw [(parseXmlDescription_prior sampleQt m "nif.xml" (some exampleDocument)).1,
    (parseXmlDescription_prior sampleQt m "nif.xml" (some exampleDocumentWithFloat)).1]
  exact ⟨by decide, by decide⟩

/-! ## Lemmas on whole documents -/

theorem parseEvents_cons_true (q : Externals) (h : NifXmlHandler) (m : NifModel) (e : SaxEvent)
    (es : List SaxEvent) (hacc : (parseEvents q h m (e :: es)).1 = true) :
    (deliver q h m e).1 = true ∧
    parseEvents q h m (e :: es) = parseEvents q (deliver q h m e).2.1 (deliver q h m e).2.2 es := by
  rw [parseEvents] at hacc ⊢
  rcases hd : deliver q h m e with ⟨ok, h1, m1⟩
  rw [hd] at hacc
  cases ok with
  | true => exact ⟨rfl, rfl⟩
  | false => simp at hacc

theorem parseEvents_append_true (q : Externals) (a b : List SaxEvent) :
    ∀ (h : NifXmlHandler) (m : NifModel), (parseEvents q h m (a ++ b)).1 = true →
      (parseEvents q h m a).1 = true ∧
      parseEvents q h m (a ++ b) =
        parseEvents q (parseEvents q h m a).2.1 (parseEvents q h m a).2.2 b := by
  induction a with
  | nil => intro h m _; exact ⟨rfl, rfl⟩
  | cons e es ih =>
    intro h m hacc
    rw [List.cons_append] at hacc ⊢
    obtain ⟨h1, h2⟩ := parseEvents_cons_true q h m e (es ++ b) hacc
    rw [h2] at hacc
    obtain ⟨h3, h4⟩ := ih _ _ hacc
    have h5 : parseEvents q h m (e :: es) =
        parseEvents q (deliver q h m e).2.1 (deliver q h m e).2.2 es := by
      rw [parseEvents]
      rcases hd : deliver q h m e with ⟨ok, h1', m1'⟩
      rw [hd] at h1
      cases ok with
      | true => rfl
      | false => cases h1
    rw [h5, h2]
    exact ⟨h3, h4⟩

theorem reachable_parseEvents (q : Externals) (es : List SaxEvent) :
    ∀ (h : NifXmlHandler) (m : NifModel), Reachable q h m →
      (parseEvents q h m es).1 = true →
      Reachable q (parseEvents q h m es).2.1 (parseEvents q h m es).2.2 := by
  induction es with
  | nil => intro h m hr _; exact hr
  | cons e es ih =>
    intro h m hr hacc
    obtain ⟨h1, h2⟩ := parseEvents_cons_true q h m e es hacc
    rw [h2] at hacc ⊢
    exact ih _ _ (Reachable.step e hr h1) hacc

theorem extend_nil (b : NifBlock) : b.extend [] [] = b := by
  cases b; simp [NifBlock.extend]

theorem extend_extend (b : NifBlock) (f1 f2 : List NifData) (n1 n2 : List String) :
    (b.extend f1 n1).extend f2 n2 = b.extend (f1 ++ f2) (n1 ++ n2) := by
  cases b; simp [NifBlock.extend]

/-- One accepted event inside an open block element, other than the end of
that element. -/
theorem body_step (q : Externals) {h : NifXmlHandler} {m : NifModel} (hI : Inv h m) (x : Int)
    (hx : x = 2 ∨ x = 3 ∨ x = 4) (hdep : h.depth = 2 ∨ h.depth = 3) (hs1 : h.stackAt 1 = x)
    (b : NifBlock) (hb : h.blk = some b) (e : SaxEvent)
    (hne : ∀ l, e ≠ .endElement l (listValue NifXmlHandler.new.elements x))
    (hacc : (deliver q h m e).1 = true) :
    ((deliver q h m e).2.1.depth = 2 ∨ (deliver q h m e).2.1.depth = 3) ∧
    (deliver q h m e).2.1.stackAt 1 = x ∧
    (deliver q h m e).2.1.blk = some (b.extend (addedFields q [e]) (inheritedNames [e])) ∧
    (deliver q h m e).2.2 = m := by
  have hlen := hI.stackLength
  cases e with
  | startElement l n a =>
    have hacc' : (startElement q m h n a).1 = true := hacc
    obtain ⟨hpair, hreq⟩ := (startElement_accept_iff q hI n a).1 hacc'
    show ((startElement q m h n a).2.depth = 2 ∨ (startElement q m h n a).2.depth = 3) ∧
      (startElement q m h n a).2.stackAt 1 = x ∧
      (startElement q m h n a).2.blk = some (b.extend (addedFields q [SaxEvent.startElement l n a])
        (inheritedNames [SaxEvent.startElement l n a])) ∧
      m = m
    rcases innermost_of_inv hI with ⟨hd, _⟩ | ⟨hd, _⟩ | ⟨hd, hs, hi⟩ | ⟨hd, hs, hi⟩ |
      ⟨hd, hs, hi⟩ | ⟨hd, hs, hi⟩ | ⟨hd, _, hi⟩ | ⟨hd, _, hi⟩
    · omega
    · omega
    · rw [hi] at hpair; simp [AllowedPair] at hpair
    · rw [hi] at hpair
      simp [AllowedPair] at hpair
      subst hpair
      rw [startElement_add q hI hd (Or.inl hs) b hb a (hreq.2.1 rfl).1 (hreq.2.1 rfl).2]
      obtain ⟨p1, _, _, _, p5, _, _, p8⟩ := push_facts
        ({ h with blk := some { b with types := b.types ++ [addedField q a] } } : NifXmlHandler) 5
        (by show 0 ≤ h.depth; omega) hlen (by show h.depth < 10; omega)
      refine ⟨Or.inr (by rw [p1]; show h.depth + 1 = 3; omega), ?_, ?_, rfl⟩
      · rw [p8 1 (by omega) (by show (1 : Int) ≠ h.depth; omega)]; exact hs1
      · rw [p5]; simp [addedFields, inheritedNames, NifBlock.extend]
    · rw [hi] at hpair
      simp [AllowedPair] at hpair
      rcases hpair with rfl | rfl
      · rw [startElement_add q hI hd (Or.inr (Or.inl hs)) b hb a (hreq.2.1 rfl).1 (hreq.2.1 rfl).2]
        obtain ⟨p1, _, _, _, p5, _, _, p8⟩ := push_facts
          ({ h with blk := some { b with types := b.types ++ [addedField q a] } } : NifXmlHandler)
          5 (by show 0 ≤ h.depth; omega) hlen (by show h.depth < 10; omega)
        refine ⟨Or.inr (by rw [p1]; show h.depth + 1 = 3; omega), ?_, ?_, rfl⟩
        · rw [p8 1 (by omega) (by show (1 : Int) ≠ h.depth; omega)]; exact hs1
        · rw [p5]; simp [addedFields, inheritedNames, NifBlock.extend]
      · rw [startElement_inherit q hI hd (Or.inl hs) b hb a (hreq.2.2 rfl)]
        obtain ⟨p1, _, _, _, p5, _, _, p8⟩ := push_facts
          ({ h with blk := some { b with ancestors := b.ancestors ++ [a.value "name"] } } :
            NifXmlHandler)
          6 (by show 0 ≤ h.depth; omega) hlen (by show h.depth < 10; omega)
        refine ⟨Or.inr (by rw [p1]; show h.depth + 1 = 3; omega), ?_, ?_, rfl⟩
        · rw [p8 1 (by omega) (by show (1 : Int) ≠ h.depth; omega)]; exact hs1
        · rw [p5]; simp [addedFields, inheritedNames, NifBlock.extend]
    · rw [hi] at hpair
      simp [AllowedPair] at hpair
      rcases hpair with rfl | rfl
      · rw [startElement_add q hI hd (Or.inr (Or.inr hs)) b hb a (hreq.2.1 rfl).1 (hreq.2.1 rfl).2]
        obtain ⟨p1, _, _, _, p5, _, _, p8⟩ := push_facts
          ({ h with blk := some { b with types := b.types ++ [addedField q a] } } : NifXmlHandler)
          5 (by show 0 ≤ h.depth; omega) hlen (by show h.depth < 10; omega)
        refine ⟨Or.inr (by rw [p1]; show h.depth + 1 = 3; omega), ?_, ?_, rfl⟩
        · rw [p8 1 (by omega) (by show (1 : Int) ≠ h.depth; omega)]; exact hs1
        · rw [p5]; simp [addedFields, inheritedNames, NifBlock.extend]
      · rw [startElement_inherit q hI hd (Or.inr hs) b hb a (hreq.2.2 rfl)]
        obtain ⟨p1, _, _, _, p5, _, _, p8⟩ := push_facts
          ({ h with blk := some { b with ancestors := b.ancestors ++ [a.value "name"] } } :
            NifXmlHandler)
          6 (by show 0 ≤ h.depth; omega) hlen (by show h.depth < 10; omega)
        refine ⟨Or.inr (by rw [p1]; show h.depth + 1 = 3; omega), ?_, ?_, rfl⟩
        · rw [p8 1 (by omega) (by show (1 : Int) ≠ h.depth; omega)]; exact hs1
        · rw [p5]; simp [addedFields, inheritedNames, NifBlock.extend]
    · rw [hi] at hpair; simp [AllowedPair] at hpair
    · rw [hi] at hpair; simp [AllowedPair] at hpair
  | endElement l n =>
    have hacc' : (endElement m h n).1 = true := hacc
    show ((endElement m h n).2.1.depth = 2 ∨ (endElement m h n).2.1.depth = 3) ∧
      (endElement m h n).2.1.stackAt 1 = x ∧
      (endElement m h n).2.1.blk = some (b.extend (addedFields q [SaxEvent.endElement l n])
        (inheritedNames [SaxEvent.endElement l n])) ∧
      (endElement m h n).2.2 = m
    have hnil : b.extend (addedFields q [SaxEvent.endElement l n])
        (inheritedNames [SaxEvent.endElement l n]) = b := extend_nil b
    rw [hnil]
    rcases (endElement_accept_iff hI n).1 hacc' with ⟨hd, _⟩ | ⟨hd, hs, _⟩ |
      ⟨hd, (⟨hs, rfl⟩ | ⟨hs, rfl⟩ | ⟨hs, rfl⟩), _⟩ | ⟨hd, (⟨hs2, rfl⟩ | ⟨hs2, rfl⟩)⟩
    · omega
    · rw [hs] at hs1; omega
    · rw [hs] at hs1; subst hs1; exact absurd rfl (hne l)
    · rw [hs] at hs1; subst hs1; exact absurd rfl (hne l)
    · rw [hs] at hs1; subst hs1; exact absurd rfl (hne l)
    · rw [endElement_add hI hd hs2]
      exact ⟨Or.inl rfl, hs1, hb, rfl⟩
    · rw [endElement_inherit hI hd hs2]
      exact ⟨Or.inl rfl, hs1, hb, rfl⟩

theorem addedFields_cons (q : Externals) (e : SaxEvent) (es : List SaxEvent) :
    addedFields q (e :: es) = addedFields q [e] ++ addedFields q es := by
  cases e with
  | startElement l n a => by_cases hn : n = "add" <;> simp [addedFields, hn]
  | endElement l n => simp [addedFields]

theorem inheritedNames_cons (e : SaxEvent) (es : List SaxEvent) :
    inheritedNames (e :: es) = inheritedNames [e] ++ inheritedNames es := by
  cases e with
  | startElement l n a => by_cases hn : n = "inherit" <;> simp [inheritedNames, hn]
  | endElement l n => simp [inheritedNames]

/-- The accepted events between the start and the end of a block element. -/
theorem body_run (q : Externals) (x : Int) (hx : x = 2 ∨ x = 3 ∨ x = 4) (body : List SaxEvent) :
    ∀ (h : NifXmlHandler) (m : NifModel) (b : NifBlock), Inv h m →
      (h.depth = 2 ∨ h.depth = 3) → h.stackAt 1 = x → h.blk = some b →
      (∀ l, SaxEvent.endElement l (listValue NifXmlHandler.new.elements x) ∉ body) →
      (parseEvents q h m body).1 = true →
      Inv (parseEvents q h m body).2.1 (parseEvents q h m body).2.2 ∧
      ((parseEvents q h m body).2.1.depth = 2 ∨ (parseEvents q h m body).2.1.depth = 3) ∧
      (parseEvents q h m body).2.1.stackAt 1 = x ∧
      (parseEvents q h m body).2.1.blk =
        some (b.extend (addedFields q body) (inheritedNames body)) ∧
      (parseEvents q h m body).2.2 = m := by
  induction body with
  | nil =>
    intro h m b hI hdep hs1 hb _ _
    refine ⟨hI, hdep, hs1, ?_, rfl⟩
    show h.blk = _
    rw [hb]; simp [addedFields, inheritedNames, extend_nil]
  | cons e es ih =>
    intro h m b hI hdep hs1 hb hne hacc
    obtain ⟨h1, h2⟩ := parseEvents_cons_true q h m e es hacc
    have hne1 : ∀ l, e ≠ .endElement l (listValue NifXmlHandler.new.elements x) := by
      intro l he
      exact hne l (by rw [← he]; exact List.mem_cons_self _ _)
    obtain ⟨s1, s2, s3, s4⟩ := body_step q hI x hx hdep hs1 b hb e hne1 h1
    have hI1 := inv_deliver q hI e h1
    rw [h2] at hacc ⊢
    have hne2 : ∀ l, SaxEvent.endElement l (listValue NifXmlHandler.new.elements x) ∉ es :=
      fun l hmem => hne l (List.mem_cons_of_mem _ hmem)
    obtain ⟨r1, r2, r3, r4, r5⟩ := ih _ _ _ hI1 s1 s2 s3 hne2 hacc
    refine ⟨r1, r2, r3, ?_, by rw [r5, s4]⟩
    rw [r4, extend_extend, ← addedFields_cons, ← inheritedNames_cons]

theorem kindName_cases (x : Int) (hx : x = 2 ∨ x = 3 ∨ x = 4) :
    (x = 2 ∧ listValue NifXmlHandler.new.elements x = "compound") ∨
    (x = 3 ∧ listValue NifXmlHandler.new.elements x = "ancestor") ∨
    (x = 4 ∧ listValue NifXmlHandler.new.elements x = "niblock") := by
  rcases hx with rfl | rfl | rfl
  · exact Or.inl ⟨rfl, by decide⟩
  · exact Or.inr (Or.inl ⟨rfl, by decide⟩)
  · exact Or.inr (Or.inr ⟨rfl, by decide⟩)

/-- An accepted start of a block element. -/
theorem open_block (q : Externals) {h : NifXmlHandler} {m : NifModel} (hI : Inv h m) (x : Int)
    (hx : x = 2 ∨ x = 3 ∨ x = 4) (l : Int) (atts : QXmlAttributes)
    (hacc : (deliver q h m
      (.startElement l (listValue NifXmlHandler.new.elements x) atts)).1 = true) :
    (deliver q h m (.startElement l (listValue NifXmlHandler.new.elements x) atts)).2.1.depth = 2 ∧
    (deliver q h m (.startElement l (listValue NifXmlHandler.new.elements x) atts)).2.1.stackAt 1 =
      x ∧
    (deliver q h m (.startElement l (listValue NifXmlHandler.new.elements x) atts)).2.1.blk =
      some { id := atts.value "name" } ∧
    (deliver q h m (.startElement l (listValue NifXmlHandler.new.elements x) atts)).2.2 = m := by
  have hlen := hI.stackLength
  have hd : h.depth = 1 := by
    have hacc' : (startElement q m h (listValue NifXmlHandler.new.elements x) atts).1 = true :=
      hacc
    obtain ⟨hpair, _⟩ := (startElement_accept_iff q hI _ atts).1 hacc'
    rcases kindName_cases x hx with ⟨_, hk⟩ | ⟨_, hk⟩ | ⟨_, hk⟩ <;> rw [hk] at hpair <;>
      rcases innermost_of_inv hI with ⟨hd, hi⟩ | ⟨hd, _⟩ | ⟨hd, hs, hi⟩ | ⟨hd, hs, hi⟩ |
        ⟨hd, hs, hi⟩ | ⟨hd, hs, hi⟩ | ⟨hd, _, hi⟩ | ⟨hd, _, hi⟩ <;>
      first
        | exact hd
        | (rw [hi] at hpair; simp [AllowedPair] at hpair)
  have hname : listValue NifXmlHandler.new.elements x = "compound" ∨
      listValue NifXmlHandler.new.elements x = "ancestor" ∨
      listValue NifXmlHandler.new.elements x = "niblock" := by
    rcases kindName_cases x hx with ⟨_, hk⟩ | ⟨_, hk⟩ | ⟨_, hk⟩
    · exact Or.inl hk
    · exact Or.inr (Or.inl hk)
    · exact Or.inr (Or.inr hk)
  have hidx : indexOf NifXmlHandler.new.elements (listValue NifXmlHandler.new.elements x) = x := by
    rcases hx with rfl | rfl | rfl <;> decide
  show (startElement q m h _ atts).2.depth = 2 ∧ (startElement q m h _ atts).2.stackAt 1 = x ∧
    (startElement q m h _ atts).2.blk = some { id := atts.value "name" } ∧ m = m
  rw [startElement_block q hI hd _ atts hname, hidx]
  obtain ⟨p1, _, _, _, _, _, p7, _⟩ := push_facts h x (by omega) hlen (by omega)
  refine ⟨by show h.depth + 1 = 2; omega, ?_, rfl, rfl⟩
  rw [hd] at p7
  exact p7

theorem QHash.value_insert_self {V : Type} (h : QHash V) (k : String) (v : V) :
    (h.insert k v).value k = some v := by
  unfold QHash.insert
  by_cases hc : h.contains k = true
  · obtain ⟨w, hw⟩ := (QHash.contains_iff_value h k).1 hc
    simp [hc, QHash.value_assign, hw]
  · simp [hc, QHash.value]

theorem QHash.value_insert_ne {V : Type} (h : QHash V) (k k' : String) (v : V) (hne : k' ≠ k) :
    (h.insert k v).value k' = h.value k' := by
  unfold QHash.insert
  by_cases hc : h.contains k = true
  · simp [hc, QHash.value_assign, hne]
  · simp [hc, QHash.value, Ne.symm hne]

/-- An accepted end of the open block element. -/
theorem close_block (q : Externals) {h : NifXmlHandler} {m : NifModel} (hI : Inv h m) (x : Int)
    (hx : x = 2 ∨ x = 3 ∨ x = 4) (hs1 : h.stackAt 1 = x)
    (b : NifBlock) (hb : h.blk = some b) (l : Int)
    (hacc : (deliver q h m
      (.endElement l (listValue NifXmlHandler.new.elements x))).1 = true) :
    (deliver q h m (.endElement l (listValue NifXmlHandler.new.elements x))).2.1.depth = 1 ∧
    ((deliver q h m (.endElement l (listValue NifXmlHandler.new.elements x))).2.2.blockHash x).value
      b.id = some b := by
  show (endElement m h _).2.1.depth = 1 ∧ ((endElement m h _).2.2.blockHash x).value b.id = some b
  have hacc' : (endElement m h (listValue NifXmlHandler.new.elements x)).1 = true := hacc
  rcases kindName_cases x hx with ⟨rfl, hk⟩ | ⟨rfl, hk⟩ | ⟨rfl, hk⟩ <;> rw [hk] at hacc' ⊢ <;>
    rcases (endElement_accept_iff hI _).1 hacc' with ⟨hd, hn⟩ | ⟨hd, hs, hn, _⟩ |
      ⟨hd, (⟨hs, hn⟩ | ⟨hs, hn⟩ | ⟨hs, hn⟩), b', hb', hid⟩ | ⟨hd, (⟨hs2, hn⟩ | ⟨hs2, hn⟩)⟩ <;>
    try simp at hn
  · rw [hb] at hb'; cases hb'
    rw [endElement_compound hI hd hs b hb hid]
    exact ⟨rfl, QHash.value_insert_self _ _ _⟩
  · rw [hb] at hb'; cases hb'
    rw [endElement_ancestor hI hd hs b hb hid]
    exact ⟨rfl, QHash.value_insert_self _ _ _⟩
  · rw [hb] at hb'; cases hb'
    rw [endElement_niblock hI hd hs b hb hid]
    exact ⟨rfl, QHash.value_insert_self _ _ _⟩

theorem blockHash_types (m : NifModel) (t : QHash NifBasicType) (x : Int) :
    ({ m with types := t } : NifModel).blockHash x = m.blockHash x := rfl

/-- A committed block stays in its hash while no element of the same kind and
the same name is opened. -/
theorem persist_step (q : Externals) {h : NifXmlHandler} {m : NifModel} (hI : Inv h m) (x : Int)
    (hx : x = 2 ∨ x = 3 ∨ x = 4) (N : String) (b : NifBlock)
    (hv : (m.blockHash x).value N = some b)
    (hblk : ∀ b', (h.depth = 2 ∨ h.depth = 3) → h.stackAt 1 = x → h.blk = some b' → b'.id ≠ N)
    (e : SaxEvent)
    (he : ∀ l atts, e = .startElement l (listValue NifXmlHandler.new.elements x) atts →
      atts.value "name" ≠ N)
    (hacc : (deliver q h m e).1 = true) :
    ((deliver q h m e).2.2.blockHash x).value N = some b ∧
    ∀ b', ((deliver q h m e).2.1.depth = 2 ∨ (deliver q h m e).2.1.depth = 3) →
      (deliver q h m e).2.1.stackAt 1 = x → (deliver q h m e).2.1.blk = some b' → b'.id ≠ N := by
  have hI' := hI
  obtain ⟨hel, hlen, htags, hshape⟩ := hI'
  rcases hshape with ⟨hd, ht, hb⟩ | ⟨hd, hs0, ht, hb⟩ | ⟨hd, hs0, hs1, ⟨t, ht⟩, hb⟩ |
      ⟨hd, hs0, hs1, ht, ⟨b0, hb⟩⟩ | ⟨hd, hs0, hs1, hs2, ht, ⟨b0, hb⟩⟩
  · -- no element open
    cases e with
    | startElement l n a =>
      have hacc' : (startElement q m h n a).1 = true := hacc
      obtain ⟨hpair, _⟩ := (startElement_accept_iff q hI n a).1 hacc'
      have hin : h.innermost = none := by simp [innermost, hd]
      rw [hin] at hpair
      simp only [AllowedPair] at hpair
      subst hpair
      show ((m.blockHash x).value N = some b) ∧ ∀ b',
        ((startElement q m h _ a).2.depth = 2 ∨ (startElement q m h _ a).2.depth = 3) → _
      rw [startElement_root q hI hd]
      refine ⟨hv, ?_⟩
      intro b' hdep _ _
      exfalso
      have : (h.push 0).depth = h.depth + 1 := rfl
      rw [this] at hdep
      omega
    | endElement l n =>
      have hacc' : (endElement m h n).1 = true := hacc
      rcases (endElement_accept_iff hI n).1 hacc' with ⟨hd', _⟩ | ⟨hd', _⟩ | ⟨hd', _⟩ | ⟨hd', _⟩ <;>
        omega
  · -- the root is open
    cases e with
    | startElement l n a =>
      have hacc' : (startElement q m h n a).1 = true := hacc
      obtain ⟨hpair, hreq⟩ := (startElement_accept_iff q hI n a).1 hacc'
      have hin : h.innermost = some "niflotoxml" := by
        simp only [NifXmlHandler.new] at hel
        simp [innermost, current, listValue, *]
      rw [hin] at hpair
      simp [AllowedPair] at hpair
      refine ⟨hv, ?_⟩
      rcases hpair with rfl | hkind
      · show ∀ b', ((startElement q m h _ a).2.depth = 2 ∨ (startElement q m h _ a).2.depth = 3) →
          (startElement q m h _ a).2.stackAt 1 = x → _
        rw [startElement_type q hI hd a (hreq.1 rfl)]
        intro b' _ hs
        obtain ⟨_, _, _, _, _, _, p7, _⟩ := push_facts h 1 (by omega) hlen (by omega)
        rw [hd] at p7
        have : (1 : Int) = x := p7.symm.trans hs
        omega
      · obtain ⟨y, hy, hname⟩ : ∃ y : Int, (y = 2 ∨ y = 3 ∨ y = 4) ∧
            n = listValue NifXmlHandler.new.elements y := by
          rcases hkind with rfl | rfl | rfl
          · exact ⟨2, Or.inl rfl, by decide⟩
          · exact ⟨3, Or.inr (Or.inl rfl), by decide⟩
          · exact ⟨4, Or.inr (Or.inr rfl), by decide⟩
        subst hname
        obtain ⟨o1, o2, o3, o4⟩ := open_block q hI y hy l a hacc
        intro b' _ hs hb'
        rw [o2] at hs
        subst hs
        rw [o3] at hb'
        cases hb'
        exact he l a rfl
    | endElement l n =>
      have hacc' : (endElement m h n).1 = true := hacc
      rcases (endElement_accept_iff hI n).1 hacc' with ⟨_, rfl⟩ | ⟨hd', _⟩ | ⟨hd', _⟩ | ⟨hd', _⟩
      any_goals omega
      show ((endElement m h _).2.2.blockHash x).value N = some b ∧ ∀ b',
        ((endElement m h _).2.1.depth = 2 ∨ (endElement m h _).2.1.depth = 3) → _
      rw [endElement_root hI hd]
      refine ⟨hv, ?_⟩
      intro b' hdep _ _
      exfalso
      have : ({ h with depth := 0 } : NifXmlHandler).depth = 0 := rfl
      rw [this] at hdep
      omega
  · -- a type is open
    cases e with
    | startElement l n a =>
      have hacc' : (startElement q m h n a).1 = true := hacc
      obtain ⟨hpair, _⟩ := (startElement_accept_iff q hI n a).1 hacc'
      have hin : h.innermost = some "type" := by
        simp only [NifXmlHandler.new] at hel
        simp [innermost, current, listValue, *]
      rw [hin] at hpair
      simp [AllowedPair] at hpair
    | endElement l n =>
      have hacc' : (endElement m h n).1 = true := hacc
      rcases (endElement_accept_iff hI n).1 hacc' with ⟨hd', _⟩ | ⟨_, _, rfl, t', ht', hid⟩ |
        ⟨_, hk, _⟩ | ⟨hd', _⟩
      · omega
      · show ((endElement m h _).2.2.blockHash x).value N = some b ∧ ∀ b',
          ((endElement m h _).2.1.depth = 2 ∨ (endElement m h _).2.1.depth = 3) → _
        rw [endElement_type hI hd hs1 t' ht' hid]
        refine ⟨hv, ?_⟩
        intro b' hdep _ _
        exfalso
        have : ({ h with depth := 1, typ := none } : NifXmlHandler).depth = 1 := rfl
        rw [this] at hdep
        omega
      · rcases hk with ⟨hs, _⟩ | ⟨hs, _⟩ | ⟨hs, _⟩ <;> (rw [hs1] at hs; omega)
      · omega
  · -- a block element is open
    have hy : h.stackAt 1 = 2 ∨ h.stackAt 1 = 3 ∨ h.stackAt 1 = 4 := hs1
    by_cases hend : ∃ l, e = .endElement l (listValue NifXmlHandler.new.elements (h.stackAt 1))
    · obtain ⟨l, rfl⟩ := hend
      have hacc' : (endElement m h (listValue NifXmlHandler.new.elements (h.stackAt 1))).1 =
          true := hacc
      show ((endElement m h _).2.2.blockHash x).value N = some b ∧ ∀ b',
        ((endElement m h _).2.1.depth = 2 ∨ (endElement m h _).2.1.depth = 3) → _
      have hid : b0.id ≠ "" := by
        rcases (endElement_accept_iff hI _).1 hacc' with ⟨hd', _⟩ | ⟨_, hs, _⟩ |
          ⟨_, _, b', hb', hid⟩ | ⟨hd', _⟩
        · omega
        · rcases hy with hy | hy | hy <;> (rw [hy] at hs; omega)
        · rw [hb] at hb'; cases hb'; exact hid
        · omega
      rcases kindName_cases _ hy with ⟨hs, hk⟩ | ⟨hs, hk⟩ | ⟨hs, hk⟩ <;> rw [hk]
      · rw [endElement_compound hI hd hs b0 hb hid]
        refine ⟨?_, ?_⟩
        · rcases hx with rfl | rfl | rfl
          · show (m.compounds.insert b0.id b0).value N = some b
            rw [QHash.value_insert_ne _ _ _ _ (Ne.symm (hblk b0 (Or.inl hd) hs hb))]
            exact hv
          · exact hv
          · exact hv
        · intro b' hdep _ _
          exfalso
          have : ({ h with depth := 1, blk := none } : NifXmlHandler).depth = 1 := rfl
          rw [this] at hdep
          omega
      · rw [endElement_ancestor hI hd hs b0 hb hid]
        refine ⟨?_, ?_⟩
        · rcases hx with rfl | rfl | rfl
          · exact hv
          · show (m.ancestors.insert b0.id b0).value N = some b
            rw [QHash.value_insert_ne _ _ _ _ (Ne.symm (hblk b0 (Or.inl hd) hs hb))]
            exact hv
          · exact hv
        · intro b' hdep _ _
          exfalso
          have : ({ h with depth := 1, blk := none } : NifXmlHandler).depth = 1 := rfl
          rw [this] at hdep
          omega
      · rw [endElement_niblock hI hd hs b0 hb hid]
        refine ⟨?_, ?_⟩
        · rcases hx with rfl | rfl | rfl
          · exact hv
          · exact hv
          · show (m.blocks.insert b0.id b0).value N = some b
            rw [QHash.value_insert_ne _ _ _ _ (Ne.symm (hblk b0 (Or.inl hd) hs hb))]
            exact hv
        · intro b' hdep _ _
          exfalso
          have : ({ h with depth := 1, blk := none } : NifXmlHandler).depth = 1 := rfl
          rw [this] at hdep
          omega
    · have hne : ∀ l, e ≠ .endElement l (listValue NifXmlHandler.new.elements (h.stackAt 1)) :=
        fun l hl => hend ⟨l, hl⟩
      obtain ⟨s1, s2, s3, s4⟩ := body_step q hI _ hy (Or.inl hd) rfl b0 hb e hne hacc
      rw [s4]
      refine ⟨hv, ?_⟩
      intro b' _ hs hb'
      rw [s3] at hb'
      cases hb'
      rw [s2] at hs
      exact hblk b0 (Or.inl hd) hs hb
  · -- an add or an inherit is open
    have hy : h.stackAt 1 = 2 ∨ h.stackAt 1 = 3 ∨ h.stackAt 1 = 4 := hs1
    have hne : ∀ l, e ≠ .endElement l (listValue NifXmlHandler.new.elements (h.stackAt 1)) := by
      intro l hl
      subst hl
      have hacc' : (endElement m h (listValue NifXmlHandler.new.elements (h.stackAt 1))).1 =
          true := hacc
      rcases kindName_cases _ hy with ⟨_, hk⟩ | ⟨_, hk⟩ | ⟨_, hk⟩ <;> rw [hk] at hacc' <;>
        rcases (endElement_accept_iff hI _).1 hacc' with ⟨hd', _⟩ | ⟨hd', _⟩ | ⟨hd', _⟩ |
          ⟨_, (⟨_, hn⟩ | ⟨_, hn⟩)⟩ <;>
        first
          | omega
          | (simp at hn)
    obtain ⟨s1, s2, s3, s4⟩ := body_step q hI _ hy (Or.inr hd) rfl b0 hb e hne hacc
    rw [s4]
    refine ⟨hv, ?_⟩
    intro b' _ hs hb'
    rw [s3] at hb'
    cases hb'
    rw [s2] at hs
    exact hblk b0 (Or.inr hd) hs hb

theorem persist_run (q : Externals) (x : Int) (hx : x = 2 ∨ x = 3 ∨ x = 4) (N : String)
    (b : NifBlock) (post : List SaxEvent) :
    ∀ (h : NifXmlHandler) (m : NifModel), Inv h m →
      (m.blockHash x).value N = some b →
      (∀ b', (h.depth = 2 ∨ h.depth = 3) → h.stackAt 1 = x → h.blk = some b' → b'.id ≠ N) →
      (∀ l atts, SaxEvent.startElement l (listValue NifXmlHandler.new.elements x) atts ∈ post →
        atts.value "name" ≠ N) →
      (parseEvents q h m post).1 = true →
      ((parseEvents q h m post).2.2.blockHash x).value N = some b := by
  induction post with
  | nil => intro h m _ hv _ _ _; exact hv
  | cons e es ih =>
    intro h m hI hv hblk hlast hacc
    obtain ⟨h1, h2⟩ := parseEvents_cons_true q h m e es hacc
    rw [h2] at hacc ⊢
    have he : ∀ l atts, e = .startElement l (listValue NifXmlHandler.new.elements x) atts →
        atts.value "name" ≠ N := by
      intro l atts hl
      exact hlast l atts (by rw [← hl]; exact List.mem_cons_self _ _)
    obtain ⟨p1, p2⟩ := persist_step q hI x hx N b hv hblk e he h1
    exact ih _ _ (inv_deliver q hI e h1) p1 p2
      (fun l atts hmem => hlast l atts (List.mem_cons_of_mem _ hmem)) hacc

/-- The block that a `compound`, `ancestor` or `niblock` element of an accepted
document leaves in its hash, when no later element of the same kind has the
same name: its id is the `name` attribute, its fields are those of the `add`
children and its ancestors the names of the `inherit` children, in document
order. -/
theorem declared_block (q : Externals) (m0 : NifModel) (x : Int) (hx : x = 2 ∨ x = 3 ∨ x = 4)
    (pre body post : List SaxEvent) (l1 l2 : Int) (atts : QXmlAttributes)
    (hbody : ∀ l, SaxEvent.endElement l (listValue NifXmlHandler.new.elements x) ∉ body)
    (hlast : ∀ l atts',
      SaxEvent.startElement l (listValue NifXmlHandler.new.elements x) atts' ∈ post →
      atts'.value "name" ≠ atts.value "name")
    (hparse : (parseEvents q NifXmlHandler.new (clearRegistry m0)
      (pre ++ .startElement l1 (listValue NifXmlHandler.new.elements x) atts ::
        (body ++ .endElement l2 (listValue NifXmlHandler.new.elements x) :: post))).1 = true) :
    ((parseEvents q NifXmlHandler.new (clearRegistry m0)
      (pre ++ .startElement l1 (listValue NifXmlHandler.new.elements x) atts ::
        (body ++ .endElement l2 (listValue NifXmlHandler.new.elements x) :: post))).2.2.blockHash
          x).value (atts.value "name") =
      some { id := atts.value "name", ancestors := inheritedNames body,
             types := addedFields q body } := by
  obtain ⟨a1, a2⟩ := parseEvents_append_true q pre _ _ _ hparse
  rw [a2] at hparse ⊢
  have hr1 := reachable_parseEvents q pre _ _ (Reachable.init m0) a1
  have hI1 := inv_of_reachable q hr1
  obtain ⟨b1, b2⟩ := parseEvents_cons_true q _ _ _ _ hparse
  rw [b2] at hparse ⊢
  obtain ⟨o1, o2, o3, o4⟩ := open_block q hI1 x hx l1 atts b1
  have hI2 := inv_deliver q hI1 _ b1
  obtain ⟨c1, c2⟩ := parseEvents_append_true q body _ _ _ hparse
  rw [c2] at hparse ⊢
  obtain ⟨r1, r2, r3, r4, r5⟩ := body_run q x hx body _ _ _ hI2 (Or.inl o1) o2 o3 hbody c1
  obtain ⟨d1, d2⟩ := parseEvents_cons_true q _ _ _ _ hparse
  rw [d2] at hparse ⊢
  obtain ⟨e1, e2⟩ := close_block q r1 x hx r3 _ r4 l2 d1
  have hI3 := inv_deliver q r1 _ d1
  have hext : (({ id := atts.value "name" } : NifBlock).extend (addedFields q body)
      (inheritedNames body)) =
      { id := atts.value "name", ancestors := inheritedNames body,
        types := addedFields q body } := by
    simp [NifBlock.extend]
  rw [hext] at e2
  refine persist_run q x hx _ _ post _ _ hI3 e2 ?_ hlast hparse
  intro b' hdep
  rw [e1] at hdep
  omega

theorem mem_addedFields (q : Externals) (l : Int) (a : QXmlAttributes) (body : List SaxEvent)
    (hmem : SaxEvent.startElement l "add" a ∈ body) : addedField q a ∈ addedFields q body := by
  induction body with
  | nil => cases hmem
  | cons e es ih =>
    rw [addedFields_cons]
    rcases List.mem_cons.1 hmem with rfl | hmem
    · exact List.mem_append_left _ (by simp [addedFields])
    · exact List.mem_append_right _ (ih hmem)

theorem mem_inheritedNames (l : Int) (a : QXmlAttributes) (body : List SaxEvent)
    (hmem : SaxEvent.startElement l "inherit" a ∈ body) :
    a.value "name" ∈ inheritedNames body := by
  induction body with
  | nil => cases hmem
  | cons e es ih =>
    rw [inheritedNames_cons]
    rcases List.mem_cons.1 hmem with rfl | hmem
    · exact List.mem_append_left _ (by simp [inheritedNames])
    · exact List.mem_append_right _ (ih hmem)

theorem append_ne_empty (a b : String) (ha : a ≠ "") : a ++ b ≠ "" := by
  intro hab
  apply ha
  have := congrArg String.data hab
  simp only [String.data_append] at this
  have h2 : a.data = [] := (List.append_eq_nil.1 this).1
  exact String.ext h2

/-- The error string `parseXmlDescription` returns when every element event is
accepted and `endDocument` fails with the message `msg`. -/
theorem parseXmlDescription_validator_error (q : Externals) (m0 : NifModel) (filename : String)
    (source : XmlSource)
    (hparse : (parseEvents q NifXmlHandler.new (clearRegistry m0) source.events).1 = true)
    (msg : String) (m' : NifModel) (hmsg : msg ≠ "")
    (hend : endDocument q
        (parseEvents q NifXmlHandler.new (clearRegistry m0) source.events).2.1
        (parseEvents q NifXmlHandler.new (clearRegistry m0) source.events).2.2 =
      (false, { (parseEvents q NifXmlHandler.new (clearRegistry m0) source.events).2.1 with
                  errorStr := msg }, m')) :
    (parseXmlDescription q m0 filename (some source)).1 =
      "XML parse error (line " ++ toString source.endLine ++ "):<br>" ++ msg := by
  simp only [parseXmlDescription, readerParse, errorString]
  rcases hp : parseEvents q NifXmlHandler.new (clearRegistry m0) source.events with ⟨ok, h1, m1⟩
  rw [hp] at hparse hend
  simp only at hparse hend
  subst hparse
  simp only [hend, fatalError, isEmpty, hmsg, decide_False]
  rfl

/-! ## Cycles of length one -/

/-- C2, as stated, fails for a name with an uppercase letter: in
`upperSelfDocument` the compound `Vec` has an `add` child of type `Vec`, the
captured type is `vec`, a declared primitive type, and the document compiles;
without that primitive type (`upperSelfOnlyDocument`) compilation fails, but
with the unknown-type error. -/
theorem C2_counterexample :
    (parseXmlDescription sampleQt {} "nif.xml" (some upperSelfDocument)).1 = "" ∧
    (parseXmlDescription sampleQt {} "nif.xml" (some upperSelfDocument)).2.compounds.value "Vec" =
      some { id := "Vec", types := [{ name := "x", type := "vec", value := .double "" }] } ∧
    (parseXmlDescription sampleQt {} "nif.xml" (some upperSelfOnlyDocument)).1 =
      "XML parse error (line 6):<br>compound type Vec referes to unknown type vec" := by
  decide

/-- C2, amended: take a document whose element events are all accepted and
whose field-group fields all resolve in the registry it builds. If it contains
a compound element whose name is its own lower-case form, that has an `add`
child whose `type` attribute is that name, and that no later compound element
of the same name replaces, then compilation fails and the error is the cyclic
violation `compound type K contains itself` of a field group `K`. -/
theorem C2_self_containing_compound (q : Externals) (m0 : NifModel) (filename : String)
    (source : XmlSource) (pre body post : List SaxEvent) (l1 l2 l3 : Int)
    (atts a : QXmlAttributes)
    (hdoc : source.events =
      pre ++ .startElement l1 "compound" atts :: (body ++ .endElement l2 "compound" :: post))
    (hbody : ∀ l, SaxEvent.endElement l "compound" ∉ body)
    (hadd : SaxEvent.startElement l3 "add" a ∈ body)
    (htype : a.value "type" = atts.value "name")
    (hlower : q.toLower (atts.value "name") = atts.value "name")
    (hlast : ∀ l atts', SaxEvent.startElement l "compound" atts' ∈ post →
      atts'.value "name" ≠ atts.value "name")
    (hparse : (parseEvents q NifXmlHandler.new (clearRegistry m0) source.events).1 = true)
    (hres : ∀ k c,
      (parseEvents q NifXmlHandler.new (clearRegistry m0) source.events).2.2.compounds.value k =
        some c →
      ∀ d ∈ c.types,
        Resolves (parseEvents q NifXmlHandler.new (clearRegistry m0) source.events).2.2 d.type) :
    ∃ k, (parseXmlDescription q m0 filename (some source)).1 =
      "XML parse error (line " ++ toString source.endLine ++ "):<br>" ++
        ("compound type " ++ k ++ " contains itself") := by
  have hk : listValue NifXmlHandler.new.elements 2 = "compound" := by decide
  have hblock := declared_block q m0 2 (Or.inl rfl) pre body post l1 l2 atts
    (by rw [hk]; exact hbody) (by rw [hk]; exact hlast) (by rw [hk, ← hdoc]; exact hparse)
  rw [hk, ← hdoc] at hblock
  have hself : ∃ d ∈ addedFields q body, d.type = atts.value "name" :=
    ⟨addedField q a, mem_addedFields q l3 a body hadd, by
      show q.toLower (a.value "type") = atts.value "name"
      rw [htype, hlower]⟩
  obtain ⟨d0, hd0, hd0t⟩ := hself
  rcases endDocument_spec q
      (parseEvents q NifXmlHandler.new (clearRegistry m0) source.events).2.1
      (parseEvents q NifXmlHandler.new (clearRegistry m0) source.events).2.2 with
    ⟨k, c, d, m', hc, hd, ⟨hr, _⟩ | ⟨_, e⟩⟩ | ⟨hC, _⟩ | ⟨hC, _⟩ | ⟨hC, _⟩
  · exact absurd (hres k c hc d hd) hr
  · exact ⟨k, parseXmlDescription_validator_error q m0 filename source hparse _ m'
      (by rw [String.append_assoc]; exact append_ne_empty _ _ (by decide)) e⟩
  · exact absurd hd0t (hC _ _ hblock d0 hd0).2
  · exact absurd hd0t (hC _ _ hblock d0 hd0).2
  · exact absurd hd0t (hC _ _ hblock d0 hd0).2

/-- C2, amended, at `selfCompoundDocument`. -/
theorem C2_self_containing_compound_witness :
    (parseEvents sampleQt NifXmlHandler.new (clearRegistry {}) selfCompoundDocument.events).1 =
      true ∧
    ∃ k, (parseXmlDescription sampleQt {} "nif.xml" (some selfCompoundDocument)).1 =
      "XML parse error (line " ++ toString selfCompoundDocument.endLine ++ "):<br>" ++
        ("compound type " ++ k ++ " contains itself") :=
  ⟨by decide,
    C2_self_containing_compound sampleQt {} "nif.xml" selfCompoundDocument
      [.startElement 1 "niflotoxml" []]
      [.startElement 3 "add" [("name", "x"), ("type", "a")], .endElement 3 "add"]
      [.endElement 5 "niflotoxml"] 2 4 3 [("name", "a")] [("name", "x"), ("type", "a")]
      rfl (by intro l hl; simp at hl) (by decide) rfl (by decide)
      (by intro l atts' hl; simp at hl) (by decide)
      (by
        have hm : (parseEvents sampleQt NifXmlHandler.new (clearRegistry {})
            selfCompoundDocument.events).2.2.compounds =
            [("a", { id := "a", types := [{ name := "x", type := "a" }] })] := by decide
        intro k c hc d hd
        rw [hm] at hc
        left
        rw [hm]
        by_cases hka : "a" = k
        · subst hka
          simp [QHash.value] at hc
          subst hc
          simp at hd
          subst hd
          decide
        · simp [QHash.value, hka] at hc)⟩

/-- C3, as stated, fails on `replacedAncestorDocument`: the first ancestor
element `A` has an `inherit` child named `A`, a second ancestor element `A`
replaces it in the hash, and the document compiles. -/
theorem C3_counterexample :
    (parseXmlDescription sampleQt {} "nif.xml" (some replacedAncestorDocument)).1 = "" ∧
    (parseXmlDescription sampleQt {} "nif.xml" (some replacedAncestorDocument)).2.ancestors =
      [("A", { id := "A" })] := by
  decide

/-- C3, amended: take a document whose element events are all accepted and in
whose registry the field groups pass their sweep and every ancestor record has
resolved ancestor names and field types. If it contains an ancestor element
with an `inherit` child whose `name` is the ancestor's own `name`, and no later
ancestor element of the same name replaces it, then compilation fails and the
error is the cyclic violation `ancestor block K inherits itself` of an ancestor
record `K`. -/
theorem C3_self_inheriting_ancestor (q : Externals) (m0 : NifModel) (filename : String)
    (source : XmlSource) (pre body post : List SaxEvent) (l1 l2 l3 : Int)
    (atts a : QXmlAttributes)
    (hdoc : source.events =
      pre ++ .startElement l1 "ancestor" atts :: (body ++ .endElement l2 "ancestor" :: post))
    (hbody : ∀ l, SaxEvent.endElement l "ancestor" ∉ body)
    (hinherit : SaxEvent.startElement l3 "inherit" a ∈ body)
    (hname : a.value "name" = atts.value "name")
    (hlast : ∀ l atts', SaxEvent.startElement l "ancestor" atts' ∈ post →
      atts'.value "name" ≠ atts.value "name")
    (hparse : (parseEvents q NifXmlHandler.new (clearRegistry m0) source.events).1 = true)
    (hcompounds :
      CompoundsOk (parseEvents q NifXmlHandler.new (clearRegistry m0) source.events).2.2)
    (hres : ∀ k b,
      (parseEvents q NifXmlHandler.new (clearRegistry m0) source.events).2.2.ancestors.value k =
        some b →
      (∀ n ∈ b.ancestors,
        (parseEvents q NifXmlHandler.new (clearRegistry m0)
          source.events).2.2.ancestors.contains n = true) ∧
      ∀ d ∈ b.types,
        Resolves (parseEvents q NifXmlHandler.new (clearRegistry m0) source.events).2.2 d.type) :
    ∃ k, (parseXmlDescription q m0 filename (some source)).1 =
      "XML parse error (line " ++ toString source.endLine ++ "):<br>" ++
        ("ancestor block " ++ k ++ " inherits itself") := by
  have hk : listValue NifXmlHandler.new.elements 3 = "ancestor" := by decide
  have hblock := declared_block q m0 3 (Or.inr (Or.inl rfl)) pre body post l1 l2 atts
    (by rw [hk]; exact hbody) (by rw [hk]; exact hlast) (by rw [hk, ← hdoc]; exact hparse)
  rw [hk, ← hdoc] at hblock
  have hself : atts.value "name" ∈ inheritedNames body := by
    rw [← hname]; exact mem_inheritedNames l3 a body hinherit
  rcases endDocument_spec q
      (parseEvents q NifXmlHandler.new (clearRegistry m0) source.events).2.1
      (parseEvents q NifXmlHandler.new (clearRegistry m0) source.events).2.2 with
    ⟨k, c, d, m', hc, hd, ⟨hr, _⟩ | ⟨ht, _⟩⟩ |
    ⟨_, k, b, m', hb, ⟨n, hn, hr, _⟩ | ⟨_, e⟩ | ⟨d, hd, hr, _⟩⟩ | ⟨_, hA, _⟩ | ⟨_, hA, _⟩
  · exact absurd (hcompounds k c hc d hd).1 hr
  · exact absurd ht (hcompounds k c hc d hd).2
  · rw [(hres k b hb).1 n hn] at hr; cases hr
  · exact ⟨k, parseXmlDescription_validator_error q m0 filename source hparse _ m'
      (by rw [String.append_assoc]; exact append_ne_empty _ _ (by decide)) e⟩
  · exact absurd ((hres k b hb).2 d hd) hr
  · exact absurd rfl ((hA _ _ hblock).1 _ hself).2
  · exact absurd rfl ((hA _ _ hblock).1 _ hself).2

/-- C3, amended, at `selfAncestorDocument`. -/
theorem C3_self_inheriting_ancestor_witness :
    (parseEvents sampleQt NifXmlHandler.new (clearRegistry {}) selfAncestorDocument.events).1 =
      true ∧
    ∃ k, (parseXmlDescription sampleQt {} "nif.xml" (some selfAncestorDocument)).1 =
      "XML parse error (line " ++ toString selfAncestorDocument.endLine ++ "):<br>" ++
        ("ancestor block " ++ k ++ " inherits itself") :=
  ⟨by decide,
    C3_self_inheriting_ancestor sampleQt {} "nif.xml" selfAncestorDocument
      [.startElement 1 "niflotoxml" []]
      [.startElement 3 "inherit" [("name", "A")], .endElement 3 "inherit"]
      [.endElement 5 "niflotoxml"] 2 4 3 [("name", "A")] [("name", "A")]
      rfl (by intro l hl; simp at hl) (by decide) rfl
      (by intro l atts' hl; simp at hl) (by decide)
      (by
        have hm : (parseEvents sampleQt NifXmlHandler.new (clearRegistry {})
            selfAncestorDocument.events).2.2.compounds = [] := by decide
        intro k c hc
        rw [hm] at hc
        simp [QHash.value] at hc)
      (by
        have hm : (parseEvents sampleQt NifXmlHandler.new (clearRegistry {})
            selfAncestorDocument.events).2.2.ancestors =
            [("A", { id := "A", ancestors := ["A"] })] := by decide
        intro k b hb
        rw [hm] at hb ⊢
        by_cases hka : "A" = k
        · subst hka
          simp [QHash.value] at hb
          subst hb
          refine ⟨?_, ?_⟩
          · intro n hn
            simp at hn
            subst hn
            decide
          · intro d hd
            simp at hd
        · simp [QHash.value, hka] at hb)⟩

/-! ## Depth and stack of the handler -/

/-- C19: in every reachable state `0 ≤ depth ≤ 3`; below `depth` the stack
holds `niflotoxml` at index 0, one of `type`, `compound`, `ancestor`, `niblock`
at index 1 and `add` or `inherit` at index 2. Hence the check `depth >= 8` of
`startElement` never fires, and a `push` writes at an index inside the ten
cells of `stack`. -/
theorem C19_depth_and_stack (q : Externals) (h : NifXmlHandler) (m : NifModel)
    (hr : Reachable q h m) :
    0 ≤ h.depth ∧ h.depth ≤ 3 ∧
    (1 ≤ h.depth → listValue h.elements (h.stackAt 0) = "niflotoxml") ∧
    (2 ≤ h.depth → listValue h.elements (h.stackAt 1) ∈ ["type", "compound", "ancestor", "niblock"]) ∧
    (3 ≤ h.depth → listValue h.elements (h.stackAt 2) ∈ ["add", "inherit"]) ∧
    ¬ h.depth ≥ 8 ∧
    h.stack.length = 10 ∧ h.depth.toNat < h.stack.length ∧
    ∀ x, (h.push x).stack.length = 10 ∧ (h.push x).stackAt h.depth = x := by
  have hI := inv_of_reachable q hr
  obtain ⟨hel, hlen, htags, hshape⟩ := hI
  have hpush : ∀ x, 0 ≤ h.depth → h.depth < 10 →
      (h.push x).stack.length = 10 ∧ (h.push x).stackAt h.depth = x := by
    intro x h0 h10
    obtain ⟨_, p2, _, _, _, _, p7, _⟩ := push_facts h x h0 hlen h10
    exact ⟨p2, p7⟩
  simp only [NifXmlHandler.new] at hel
  rcases hshape with ⟨hd, ht, hb⟩ | ⟨hd, hs0, ht, hb⟩ | ⟨hd, hs0, hs1, ⟨t, ht⟩, hb⟩ |
      ⟨hd, hs0, (hs1 | hs1 | hs1), ht, ⟨b, hb⟩⟩ |
      ⟨hd, hs0, (hs1 | hs1 | hs1), (hs2 | hs2), ht, ⟨b, hb⟩⟩
  all_goals
    refine ⟨by omega, by omega, ?_, ?_, ?_, by omega, hlen, by omega, fun x =>
      hpush x (by omega) (by omega)⟩
  all_goals simp [listValue, *]

/-- C19 at the fresh handler. -/
theorem C19_depth_and_stack_witness :
    0 ≤ NifXmlHandler.new.depth ∧ NifXmlHandler.new.depth ≤ 3 :=
  ⟨(C19_depth_and_stack sampleQt NifXmlHandler.new (clearRegistry {}) (Reachable.init {})).1,
    (C19_depth_and_stack sampleQt NifXmlHandler.new (clearRegistry {}) (Reachable.init {})).2.1⟩

/-! ## What an element commits -/

/-- C16: in an accepted document, take a `compound`, `ancestor` or `niblock`
element (index `x` = 2, 3, 4 in `elements`) with attributes `atts` and the
events `body` between its start and its end. The block found under its name in
its hash, once it has closed (`post = []`) and as long as no later element of
the same kind and name replaces it, has the `name` attribute as its id, case
preserved; its fields are exactly those of the `add` elements of `body` in
document order, each with `name`, `type`, `arg`, `arr1`, `arr2`, `cond`
lower-cased (`addedField`); its ancestors are exactly the `name` attributes of
the `inherit` elements of `body` in document order, case preserved. Nothing
else is in it. -/
theorem C16_committed_block (q : Externals) (m0 : NifModel) (x : Int)
    (hx : x = 2 ∨ x = 3 ∨ x = 4) (pre body post : List SaxEvent) (l1 l2 : Int)
    (atts : QXmlAttributes)
    (hbody : ∀ l, SaxEvent.endElement l (listValue NifXmlHandler.new.elements x) ∉ body)
    (hlast : ∀ l atts',
      SaxEvent.startElement l (listValue NifXmlHandler.new.elements x) atts' ∈ post →
      atts'.value "name" ≠ atts.value "name")
    (hparse : (parseEvents q NifXmlHandler.new (clearRegistry m0)
      (pre ++ .startElement l1 (listValue NifXmlHandler.new.elements x) atts ::
        (body ++ .endElement l2 (listValue NifXmlHandler.new.elements x) :: post))).1 = true) :
    listValue NifXmlHandler.new.elements x ∈ ["compound", "ancestor", "niblock"] ∧
    ((parseEvents q NifXmlHandler.new (clearRegistry m0)
      (pre ++ .startElement l1 (listValue NifXmlHandler.new.elements x) atts ::
        (body ++ .endElement l2 (listValue NifXmlHandler.new.elements x) :: post))).2.2.blockHash
          x).value (atts.value "name") =
      some { id := atts.value "name", ancestors := inheritedNames body,
             types := addedFields q body } ∧
    (∀ l a, addedFields q (SaxEvent.startElement l "add" a :: body) =
      { name := q.toLower (a.value "name"), type := q.toLower (a.value "type"),
        arg := q.toLower (a.value "arg"), arr1 := q.toLower (a.value "arr1"),
        arr2 := q.toLower (a.value "arr2"), cond := q.toLower (a.value "cond"),
        ver1 := q.version2number (a.value "ver1"), ver2 := q.version2number (a.value "ver2"),
        value := .invalid } :: addedFields q body) ∧
    (∀ l a, inheritedNames (SaxEvent.startElement l "inherit" a :: body) =
      a.value "name" :: inheritedNames body) := by
  refine ⟨?_, declared_block q m0 x hx pre body post l1 l2 atts hbody hlast hparse, ?_, ?_⟩
  · rcases kindName_cases x hx with ⟨_, hk⟩ | ⟨_, hk⟩ | ⟨_, hk⟩ <;> rw [hk] <;> simp
  · intro l a; simp [addedFields, addedField]
  · intro l a; simp [inheritedNames]

/-- C16 at the niblock `N` of `plainBlocksDocument`. -/
theorem C16_committed_block_witness :
    ((parseEvents sampleQt NifXmlHandler.new (clearRegistry {})
      plainBlocksDocument.events).2.2.blockHash 4).value "N" =
      some { id := "N", ancestors := ["A"],
             types := [{ name := "y", type := "f" }] } :=
  (C16_committed_block sampleQt {} 4 (Or.inr (Or.inr rfl))
    [.startElement 1 "niflotoxml" [],
      .startElement 2 "type" [("name", "f"), ("type", "float")],
      .endElement 2 "type",
      .startElement 3 "ancestor" [("name", "A")],
      .startElement 4 "add" [("name", "x"), ("type", "f")],
      .endElement 4 "add",
      .endElement 5 "ancestor"]
    [.startElement 7 "inherit" [("name", "A")],
      .endElement 7 "inherit",
      .startElement 8 "add" [("name", "y"), ("type", "f")],
      .endElement 8 "add"]
    [.endElement 10 "niflotoxml"] 6 9 [("name", "N")]
    (by
      intro l hl
      have hk : listValue NifXmlHandler.new.elements 4 = "niblock" := by decide
      rw [hk] at hl
      simp at hl)
    (by intro l atts' hl; simp at hl)
    (by decide)).2.1

/-! ## What the validator accepts -/

theorem sweepCompounds_ok (q : Externals) (h : NifXmlHandler) (m : NifModel)
    (hC : CompoundsOk m) :
    (sweepCompounds h { m with uncondTypes := m.types.keys q } (m.compounds.keys q)).1 = true := by
  rcases sweepCompounds_spec h (m.compounds.keys q) { m with uncondTypes := m.types.keys q } with
    ⟨m', hs, _⟩ | ⟨k, _, c, hc, d, hd, m', ⟨hr, _⟩ | ⟨ht, _⟩⟩
  · rw [hs]
  · exact absurd (hC k c hc d hd).1 hr
  · exact absurd ht (hC k c hc d hd).2

theorem endDocument_ok (q : Externals) (h : NifXmlHandler) (m : NifModel)
    (hC : CompoundsOk m) (hA : AncestorsOk m) (hB : BlocksOk m) :
    (endDocument q h m).1 = true := by
  rcases endDocument_spec q h m with
    ⟨k, c, d, m', hc, hd, ⟨hr, _⟩ | ⟨ht, _⟩⟩ |
    ⟨_, k, b, m', hb, ⟨n, hn, hr, _⟩ | ⟨hk, _⟩ | ⟨d, hd, hr, _⟩⟩ |
    ⟨_, _, k, b, m', hb, ⟨n, hn, hr, _⟩ | ⟨d, hd, hr, _⟩⟩ |
    ⟨_, _, _, m', e, _⟩
  · exact absurd (hC k c hc d hd).1 hr
  · exact absurd ht (hC k c hc d hd).2
  · rw [((hA k b hb).1 n hn).1] at hr; cases hr
  · exact absurd rfl ((hA k b hb).1 k hk).2
  · exact absurd ((hA k b hb).2 d hd) hr
  · rw [(hB k b hb).1 n hn] at hr; cases hr
  · exact absurd ((hB k b hb).2 d hd) hr
  · rw [e]

/-- C18, as stated, fails in its general part: in the registry that
`exampleDocumentWithFloat` builds, the only field group is `Vector3`, its
fields have the declared type `float`, none names `Vector3`, and yet
`endDocument` rejects the registry (in the niblock sweep). -/
theorem C18_counterexample :
    (parseEvents sampleQt NifXmlHandler.new (clearRegistry {})
      exampleDocumentWithFloat.events).1 = true ∧
    (parseEvents sampleQt NifXmlHandler.new (clearRegistry {})
      exampleDocumentWithFloat.events).2.2.compounds =
      [("Vector3", { id := "Vector3", types :=
        [{ name := "x", type := "float" }, { name := "x", type := "float" },
          { name := "x", type := "float" }] })] ∧
    (parseEvents sampleQt NifXmlHandler.new (clearRegistry {})
      exampleDocumentWithFloat.events).2.2.types.contains "float" = true ∧
    (endDocument sampleQt
      (parseEvents sampleQt NifXmlHandler.new (clearRegistry {})
        exampleDocumentWithFloat.events).2.1
      (parseEvents sampleQt NifXmlHandler.new (clearRegistry {})
        exampleDocumentWithFloat.events).2.2).1 = false := by
  decide

/-- C18, amended: cycles of field groups longer than one are not detected.
`twoCycleDocument`, in which `a` has a field of type `b` and `b` a field of
type `a`, compiles. More generally, on every registry whose field-group fields
all resolve and none names its own group, the field-group sweep succeeds, and
`endDocument` succeeds when the ancestor records and the record types pass
their sweeps as well. -/
theorem C18_longer_cycles_accepted (q : Externals) (h : NifXmlHandler) (m : NifModel)
    (hC : ∀ k c, m.compounds.value k = some c → ∀ d ∈ c.types, Resolves m d.type ∧ d.type ≠ k) :
    (sweepCompounds h { m with uncondTypes := m.types.keys q } (m.compounds.keys q)).1 = true ∧
    (AncestorsOk m → BlocksOk m → (endDocument q h m).1 = true) ∧
    (parseXmlDescription sampleQt {} "nif.xml" (some twoCycleDocument)).1 = "" ∧
    (parseXmlDescription sampleQt {} "nif.xml" (some twoCycleDocument)).2.compounds =
      [("b", { id := "b", types := [{ name := "y", type := "a" }] }),
        ("a", { id := "a", types := [{ name := "x", type := "b" }] })] :=
  ⟨sweepCompounds_ok q h m hC, fun hA hB => endDocument_ok q h m hC hA hB, by decide, by decide⟩

/-- C18, amended, at the registry of `twoCycleDocument`. -/
theorem C18_longer_cycles_accepted_witness :
    (endDocument sampleQt NifXmlHandler.new
      { compounds := [("b", { id := "b", types := [{ name := "y", type := "a" }] }),
          ("a", { id := "a", types := [{ name := "x", type := "b" }] })] }).1 = true :=
  (C18_longer_cycles_accepted sampleQt NifXmlHandler.new
    { compounds := [("b", { id := "b", types := [{ name := "y", type := "a" }] }),
        ("a", { id := "a", types := [{ name := "x", type := "b" }] })] }
    (by
      intro k c hc d hd
      by_cases hb : "b" = k
      · subst hb
        simp [QHash.value] at hc
        subst hc
        simp at hd
        subst hd
        exact ⟨Or.inl (by decide), by decide⟩
      · by_cases ha : "a" = k
        · subst ha
          simp [QHash.value] at hc
          subst hc
          simp at hd
          subst hd
          exact ⟨Or.inl (by decide), by decide⟩
        · simp [QHash.value, hb, ha] at hc)).2.1
    (by intro k b hb; simp [QHash.value] at hb)
    (by intro k b hb; simp [QHash.value] at hb)

/-- C13, as stated, fails on `plainBlocksDocument`: it compiles, the fields of
the ancestor `A` and of the niblock `N` have no condition and no version
bound, and the unconditional set is `["f"]`: it holds neither `A` nor `N`. -/
theorem C13_counterexample :
    (parseXmlDescription sampleQt {} "nif.xml" (some plainBlocksDocument)).1 = "" ∧
    (parseXmlDescription sampleQt {} "nif.xml" (some plainBlocksDocument)).2.ancestors =
      [("A", { id := "A", types := [{ name := "x", type := "f", value := .double "" }] })] ∧
    (parseXmlDescription sampleQt {} "nif.xml" (some plainBlocksDocument)).2.blocks =
      [("N", { id := "N", ancestors := ["A"],
               types := [{ name := "y", type := "f", value := .double "" }] })] ∧
    (parseXmlDescription sampleQt {} "nif.xml" (some plainBlocksDocument)).2.uncondTypes =
      ["f"] := by
  decide

/-- C13, amended: when `endDocument` succeeds, the unconditional set holds
exactly the primitive-type ids and the ids of the field groups none of whose
fields has a version bound or a condition. The ancestor records and the record
types play no part: two registries with the same primitive types and the same
field groups get the same unconditional set, so the id of an ancestor record
or of a record type is in the set only when it is also such an id, and giving
one of its fields a condition changes nothing. -/
theorem C13_unconditional_set_ignores_blocks (q : Externals) (h : NifXmlHandler)
    (m : NifModel) (hs : (endDocument q h m).1 = true) :
    (∀ k, k ∈ (endDocument q h m).2.2.uncondTypes ↔
      (m.types.contains k = true ∨
        ∃ c, m.compounds.value k = some c ∧
          ∀ d ∈ c.types, d.ver1 = 0 ∧ d.ver2 = 0 ∧ d.cond = "")) ∧
    ∀ h2 m2, m2.types = m.types → m2.compounds = m.compounds →
      (endDocument q h2 m2).1 = true →
      (endDocument q h2 m2).2.2.uncondTypes = (endDocument q h m).2.2.uncondTypes := by
  have key : ∀ (h : NifXmlHandler) (m : NifModel), (endDocument q h m).1 = true →
      (endDocument q h m).2.2.uncondTypes = m.types.keys q ++
        (m.compounds.keys q).filter (fun k => (m.compounds.value k).any NifBlock.nocond) := by
    intro h m hs
    rcases endDocument_spec q h m with
      ⟨_, _, _, _, _, _, ⟨_, e⟩ | ⟨_, e⟩⟩ |
      ⟨_, _, _, _, _, ⟨_, _, _, e⟩ | ⟨_, e⟩ | ⟨_, _, _, e⟩⟩ |
      ⟨_, _, _, _, _, _, ⟨_, _, _, e⟩ | ⟨_, _, _, e⟩⟩ |
      ⟨_, _, _, m', e, _, _, _, _, _, _, _, _, hu⟩
    any_goals (rw [e] at hs; cases hs)
    rw [e]; exact hu
  refine ⟨?_, ?_⟩
  · intro k
    rw [key h m hs, List.mem_append, QHash.mem_keys_iff_contains, List.mem_filter]
    constructor
    · rintro (hk | ⟨_, hn⟩)
      · exact Or.inl hk
      · cases hv : m.compounds.value k with
        | none => rw [hv] at hn; simp at hn
        | some c =>
          rw [hv] at hn
          exact Or.inr ⟨c, rfl, (nocond_eq_true_iff c).1 (by simpa using hn)⟩
    · rintro (hk | ⟨c, hc, hn⟩)
      · exact Or.inl hk
      · exact Or.inr ⟨QHash.mem_keys_of_value q _ k c hc, by
          rw [hc]; simpa using (nocond_eq_true_iff c).2 hn⟩
  · intro h2 m2 ht hc hs2
    rw [key h m hs, key h2 m2 hs2, ht, hc]

/-- C13, amended, at `smallRegistry`. -/
theorem C13_unconditional_set_ignores_blocks_witness :
    (endDocument sampleQt NifXmlHandler.new smallRegistry).1 = true ∧
    ("AController" ∈ (endDocument sampleQt NifXmlHandler.new smallRegistry).2.2.uncondTypes ↔
      (smallRegistry.types.contains "AController" = true ∨
        ∃ c, smallRegistry.compounds.value "AController" = some c ∧
          ∀ d ∈ c.types, d.ver1 = 0 ∧ d.ver2 = 0 ∧ d.cond = "")) :=
  ⟨by decide,
    (C13_unconditional_set_ignores_blocks sampleQt NifXmlHandler.new smallRegistry
      (by decide)).1 "AController"⟩

/-- The accepted callbacks, one by one, with the state each leaves. -/
theorem deliver_cases (q : Externals) {h : NifXmlHandler} {m : NifModel} (hI : Inv h m)
    (e : SaxEvent) (hacc : (deliver q h m e).1 = true) :
    (∃ l a, e = .startElement l "niflotoxml" a ∧ h.depth = 0 ∧ h.typ = none ∧ h.blk = none ∧
      deliver q h m e = (true, h.push 0, m)) ∨
    (∃ l a, e = .startElement l "type" a ∧ h.depth = 1 ∧ h.typ = none ∧ h.blk = none ∧
      a.value "type" ∈ internalTypeTags ∧
      deliver q h m e = (true, { h.push 1 with typ := some (declaredType q a) }, m)) ∨
    (∃ l a x, (x = 2 ∨ x = 3 ∨ x = 4) ∧
      e = .startElement l (listValue NifXmlHandler.new.elements x) a ∧
      h.depth = 1 ∧ h.typ = none ∧ h.blk = none ∧
      deliver q h m e = (true, { h.push x with blk := some { id := a.value "name" } }, m)) ∨
    (∃ l a b, e = .startElement l "add" a ∧ h.depth = 2 ∧ h.typ = none ∧ h.blk = some b ∧
      a.value "name" ≠ "" ∧ a.value "type" ≠ "" ∧
      deliver q h m e =
        (true, ({ h with blk := some (b.extend [addedField q a] []) }).push 5, m)) ∨
    (∃ l a b, e = .startElement l "inherit" a ∧ h.depth = 2 ∧ h.typ = none ∧ h.blk = some b ∧
      (h.stackAt 1 = 3 ∨ h.stackAt 1 = 4) ∧ a.value "name" ≠ "" ∧
      deliver q h m e =
        (true, ({ h with blk := some (b.extend [] [a.value "name"]) }).push 6, m)) ∨
    (∃ l, e = .endElement l "niflotoxml" ∧ h.depth = 1 ∧ h.typ = none ∧ h.blk = none ∧
      deliver q h m e = (true, { h with depth := 0 }, m)) ∨
    (∃ l t, e = .endElement l "type" ∧ h.depth = 2 ∧ h.typ = some t ∧ h.blk = none ∧ t.id ≠ "" ∧
      deliver q h m e = (true, { h with depth := 1, typ := none },
        { m with types := m.types.insertMulti t.id t })) ∨
    (∃ l b, e = .endElement l "compound" ∧ h.depth = 2 ∧ h.typ = none ∧ h.blk = some b ∧
      b.id ≠ "" ∧ h.stackAt 1 = 2 ∧
      deliver q h m e = (true, { h with depth := 1, blk := none },
        { m with compounds := m.compounds.insert b.id b })) ∨
    (∃ l b, e = .endElement l "ancestor" ∧ h.depth = 2 ∧ h.typ = none ∧ h.blk = some b ∧
      b.id ≠ "" ∧ h.stackAt 1 = 3 ∧
      deliver q h m e = (true, { h with depth := 1, blk := none },
        { m with ancestors := m.ancestors.insert b.id b })) ∨
    (∃ l b, e = .endElement l "niblock" ∧ h.depth = 2 ∧ h.typ = none ∧ h.blk = some b ∧
      b.id ≠ "" ∧ h.stackAt 1 = 4 ∧
      deliver q h m e = (true, { h with depth := 1, blk := none },
        { m with blocks := m.blocks.insert b.id b })) ∨
    (∃ l n b, e = .endElement l n ∧ h.depth = 3 ∧ h.typ = none ∧ h.blk = some b ∧
      deliver q h m e = (true, { h with depth := 2 }, m)) := by
  have hI' := hI
  obtain ⟨hel, hlen, htags, hshape⟩ := hI'
  cases e with
  | startElement l n a =>
    have hacc' : (startElement q m h n a).1 = true := hacc
    obtain ⟨hpair, hreq⟩ := (startElement_accept_iff q hI n a).1 hacc'
    have hdel : deliver q h m (.startElement l n a) =
        ((startElement q m h n a).1, (startElement q m h n a).2, m) := rfl
    rcases hshape with ⟨hd, ht, hb⟩ | ⟨hd, hs0, ht, hb⟩ | ⟨hd, hs0, hs1, ⟨t, ht⟩, hb⟩ |
        ⟨hd, hs0, hs1, ht, ⟨b, hb⟩⟩ | ⟨hd, hs0, hs1, hs2, ht, ⟨b, hb⟩⟩
    · have hin : h.innermost = none := by simp [innermost, hd]
      rw [hin] at hpair
      simp only [AllowedPair] at hpair
      subst hpair
      left
      exact ⟨l, a, rfl, hd, ht, hb, by rw [hdel, startElement_root q hI hd]⟩
    · have hin : h.innermost = some "niflotoxml" := by
        simp only [NifXmlHandler.new] at hel
        simp [innermost, current, listValue, *]
      rw [hin] at hpair
      simp [AllowedPair] at hpair
      rcases hpair with rfl | hkind
      · right; left
        exact ⟨l, a, rfl, hd, ht, hb, hreq.1 rfl, by
          rw [hdel, startElement_type q hI hd a (hreq.1 rfl)]⟩
      · right; right; left
        obtain ⟨y, hy, hname, hidx⟩ : ∃ y : Int, (y = 2 ∨ y = 3 ∨ y = 4) ∧
            n = listValue NifXmlHandler.new.elements y ∧
            indexOf NifXmlHandler.new.elements n = y := by
          rcases hkind with rfl | rfl | rfl
          · exact ⟨2, Or.inl rfl, by decide, by decide⟩
          · exact ⟨3, Or.inr (Or.inl rfl), by decide, by decide⟩
          · exact ⟨4, Or.inr (Or.inr rfl), by decide, by decide⟩
        refine ⟨l, a, y, hy, by rw [hname], hd, ht, hb, ?_⟩
        rw [hdel, startElement_block q hI hd n a hkind, hidx]
    · have hin : h.innermost = some "type" := by
        simp only [NifXmlHandler.new] at hel
        simp [innermost, current, listValue, *]
      rw [hin] at hpair
      simp [AllowedPair] at hpair
    · have hname : n = "add" ∨ (n = "inherit" ∧ (h.stackAt 1 = 3 ∨ h.stackAt 1 = 4)) := by
        simp only [NifXmlHandler.new] at hel
        rcases hs1 with hs1 | hs1 | hs1 <;>
          simp [innermost, current, listValue, AllowedPair, *] at hpair <;> tauto
      rcases hname with rfl | ⟨rfl, hs34⟩
      · right; right; right; left
        exact ⟨l, a, b, rfl, hd, ht, hb, (hreq.2.1 rfl).1, (hreq.2.1 rfl).2, by
          rw [hdel, startElement_add q hI hd hs1 b hb a (hreq.2.1 rfl).1 (hreq.2.1 rfl).2]
          simp [NifBlock.extend]⟩
      · right; right; right; right; left
        exact ⟨l, a, b, rfl, hd, ht, hb, hs34, hreq.2.2 rfl, by
          rw [hdel, startElement_inherit q hI hd hs34 b hb a (hreq.2.2 rfl)]
          simp [NifBlock.extend]⟩
    · simp only [NifXmlHandler.new] at hel
      rcases hs2 with hs2 | hs2 <;>
        simp [innermost, current, listValue, AllowedPair, *] at hpair
  | endElement l n =>
    have hacc' : (endElement m h n).1 = true := hacc
    have hdel : deliver q h m (.endElement l n) = endElement m h n := rfl
    have htb : (h.depth = 1 → h.typ = none ∧ h.blk = none) ∧
        (h.depth = 2 → h.stackAt 1 = 1 → h.blk = none) ∧
        (h.depth = 2 → h.stackAt 1 ≠ 1 → h.typ = none) ∧
        (h.depth = 3 → h.typ = none ∧ ∃ b, h.blk = some b) := by
      rcases hshape with ⟨hd, ht, hb⟩ | ⟨hd, hs0, ht, hb⟩ | ⟨hd, hs0, hs1, ⟨t, ht⟩, hb⟩ |
        ⟨hd, hs0, hs1, ht, ⟨b, hb⟩⟩ | ⟨hd, hs0, hs1, hs2, ht, ⟨b, hb⟩⟩
      · exact ⟨fun h1 => by omega, fun h1 => by omega, fun h1 => by omega, fun h1 => by omega⟩
      · exact ⟨fun _ => ⟨ht, hb⟩, fun h1 => by omega, fun h1 => by omega, fun h1 => by omega⟩
      · exact ⟨fun h1 => by omega, fun _ _ => hb, fun _ hne => absurd hs1 hne,
          fun h1 => by omega⟩
      · refine ⟨fun h1 => by omega, fun _ h1 => ?_, fun _ _ => ht, fun h1 => by omega⟩
        rcases hs1 with hs1 | hs1 | hs1 <;> omega
      · exact ⟨fun h1 => by omega, fun h1 => by omega, fun h1 => by omega,
          fun _ => ⟨ht, b, hb⟩⟩
    rcases (endElement_accept_iff hI n).1 hacc' with ⟨hd, rfl⟩ | ⟨hd, hs1, rfl, t, ht, hid⟩ |
      ⟨hd, (⟨hs1, rfl⟩ | ⟨hs1, rfl⟩ | ⟨hs1, rfl⟩), b, hb, hid⟩ | ⟨hd, hk⟩
    · iterate 5 right
      left
      exact ⟨l, rfl, hd, (htb.1 hd).1, (htb.1 hd).2, by rw [hdel, endElement_root hI hd]⟩
    · iterate 6 right
      left
      exact ⟨l, t, rfl, hd, ht, htb.2.1 hd hs1, hid, by
        rw [hdel, endElement_type hI hd hs1 t ht hid]⟩
    · iterate 7 right
      left
      exact ⟨l, b, rfl, hd, htb.2.2.1 hd (by omega), hb, hid, hs1, by
        rw [hdel, endElement_compound hI hd hs1 b hb hid]⟩
    · iterate 8 right
      left
      exact ⟨l, b, rfl, hd, htb.2.2.1 hd (by omega), hb, hid, hs1, by
        rw [hdel, endElement_ancestor hI hd hs1 b hb hid]⟩
    · iterate 9 right
      left
      exact ⟨l, b, rfl, hd, htb.2.2.1 hd (by omega), hb, hid, hs1, by
        rw [hdel, endElement_niblock hI hd hs1 b hb hid]⟩
    · iterate 10 right
      obtain ⟨ht, b, hb⟩ := htb.2.2.2 hd
      refine ⟨l, n, b, rfl, hd, ht, hb, ?_⟩
      rcases hk with ⟨hs2, rfl⟩ | ⟨hs2, rfl⟩
      · rw [hdel, endElement_add hI hd hs2]
      · rw [hdel, endElement_inherit hI hd hs2]

theorem deliver_false_model (q : Externals) (h : NifXmlHandler) (m : NifModel) (e : SaxEvent)
    (hf : (deliver q h m e).1 = false) : (deliver q h m e).2.2 = m := by
  cases e with
  | startElement l n a => rfl
  | endElement l n =>
    have hf' : (endElement m h n).1 = false := hf
    show (endElement m h n).2.2 = m
    unfold endElement at hf' ⊢
    simp only [pop] at hf' ⊢
    split_ifs at hf' ⊢ <;> (try rfl) <;> split at hf' <;> (try rfl) <;>
      split_ifs at hf' ⊢ <;> rfl

theorem QHash.mem_assign {V : Type} (hash : QHash V) (key : String) (v : V)
    (e : String × V) (he : e ∈ hash.assign key v) : e ∈ hash ∨ e = (key, v) := by
  induction hash with
  | nil => simp [QHash.assign] at he
  | cons x rest ih =>
    obtain ⟨k, w⟩ := x
    by_cases hk : k = key
    · simp only [QHash.assign, if_pos hk] at he
      rcases List.mem_cons.1 he with rfl | he
      · right; rw [hk]
      · left; exact List.mem_cons_of_mem _ he
    · simp only [QHash.assign, if_neg hk] at he
      rcases List.mem_cons.1 he with rfl | he
      · left; exact List.mem_cons_self _ _
      · rcases ih he with h1 | h1
        · left; exact List.mem_cons_of_mem _ h1
        · right; exact h1

theorem QHash.mem_insert {V : Type} (hash : QHash V) (key : String) (v : V)
    (e : String × V) (he : e ∈ hash.insert key v) : e ∈ hash ∨ e = (key, v) := by
  unfold QHash.insert at he
  split_ifs at he
  · exact QHash.mem_assign hash key v e he
  · rcases List.mem_cons.1 he with rfl | he
    · right; rfl
    · left; exact he

theorem captured_addedField (q : Externals) (a : QXmlAttributes) (h1 : a.value "name" ≠ "")
    (h2 : a.value "type" ≠ "") : Captured q (addedField q a) := ⟨a, h1, h2, rfl⟩

theorem regInv_step (q : Externals) {h : NifXmlHandler} {m : NifModel} (hI : Inv h m)
    (hR : RegInv q h m) (e : SaxEvent) (hacc : (deliver q h m e).1 = true) :
    RegInv q (deliver q h m e).2.1 (deliver q h m e).2.2 := by
  obtain ⟨rt, rc, ra, rb, rbl⟩ := hR
  have hins : ∀ (hash : QHash NifBlock) (b : NifBlock), (∀ e ∈ hash, Keyed q e) →
      h.blk = some b → b.id ≠ "" → ∀ e ∈ hash.insert b.id b, Keyed q e := by
    intro hash b hk hb hid e he
    rcases QHash.mem_insert hash b.id b e he with h1 | rfl
    · exact hk e h1
    · exact ⟨hid, rfl, rbl b hb⟩
  rcases deliver_cases q hI e hacc with ⟨l, a, rfl, hd, ht, hb, hdel⟩ |
    ⟨l, a, rfl, hd, ht, hb, hk, hdel⟩ | ⟨l, a, x, hx, rfl, hd, ht, hb, hdel⟩ |
    ⟨l, a, b, rfl, hd, ht, hb, hn, hty, hdel⟩ | ⟨l, a, b, rfl, hd, ht, hb, hs, hn, hdel⟩ |
    ⟨l, rfl, hd, ht, hb, hdel⟩ | ⟨l, t, rfl, hd, ht, hb, hid, hdel⟩ |
    ⟨l, b, rfl, hd, ht, hb, hid, hs, hdel⟩ | ⟨l, b, rfl, hd, ht, hb, hid, hs, hdel⟩ |
    ⟨l, b, rfl, hd, ht, hb, hid, hs, hdel⟩ | ⟨l, n, b, rfl, hd, ht, hb, hdel⟩ <;> rw [hdel]
  · exact ⟨rt, rc, ra, rb, rbl⟩
  · exact ⟨rt, rc, ra, rb, rbl⟩
  · refine ⟨rt, rc, ra, rb, ?_⟩
    intro b hb' d hdm
    simp at hb'
    subst hb'
    simp at hdm
  · refine ⟨rt, rc, ra, rb, ?_⟩
    intro b' hb' d hdm
    have hb2 : b.extend [addedField q a] [] = b' := by
      simpa [push] using hb'
    subst hb2
    simp only [NifBlock.extend, List.mem_append, List.mem_singleton] at hdm
    rcases hdm with hdm | rfl
    · exact rbl b hb d hdm
    · exact captured_addedField q a hn hty
  · refine ⟨rt, rc, ra, rb, ?_⟩
    intro b' hb' d hdm
    have hb2 : b.extend [] [a.value "name"] = b' := by
      simpa [push] using hb'
    subst hb2
    simp only [NifBlock.extend, List.append_nil] at hdm
    exact rbl b hb d hdm
  · exact ⟨rt, rc, ra, rb, rbl⟩
  · refine ⟨?_, rc, ra, rb, ?_⟩
    · intro e he
      rcases List.mem_cons.1 he with rfl | he
      · exact ⟨hid, rfl⟩
      · exact rt e he
    · intro b hb'
      rw [hb] at hb'
      cases hb'
  · refine ⟨rt, hins _ b rc hb hid, ra, rb, ?_⟩
    intro b' hb'
    cases hb'
  · refine ⟨rt, rc, hins _ b ra hb hid, rb, ?_⟩
    intro b' hb'
    cases hb'
  · refine ⟨rt, rc, ra, hins _ b rb hb hid, ?_⟩
    intro b' hb'
    cases hb'
  · exact ⟨rt, rc, ra, rb, rbl⟩

theorem regInv_of_reachable (q : Externals) {h : NifXmlHandler} {m : NifModel}
    (hr : Reachable q h m) : RegInv q h m := by
  induction hr with
  | init m0 =>
    refine ⟨?_, ?_, ?_, ?_, ?_⟩ <;> intro e he <;> simp [clearRegistry, NifXmlHandler.new] at he
  | step e hr hacc ih => exact regInv_step q (inv_of_reachable q hr) ih e hacc

theorem forall₂_swept_refl (types : QHash NifBasicType) (l : QHash NifBlock) :
    List.Forall₂ (Swept types) l l := by
  induction l with
  | nil => exact List.Forall₂.nil
  | cons x rest ih => exact List.Forall₂.cons ⟨rfl, Or.inl rfl⟩ ih

theorem forall₂_swept_assign (types : QHash NifBasicType) (key : String) (c : NifBlock) :
    ∀ hash : QHash NifBlock, hash.value key = some c →
      List.Forall₂ (Swept types) (hash.assign key (c.withDefaults types)) hash := by
  intro hash
  induction hash with
  | nil => intro hv; simp [QHash.value] at hv
  | cons x rest ih =>
    intro hv
    obtain ⟨k, w⟩ := x
    by_cases hk : k = key
    · simp only [QHash.value, if_pos hk] at hv
      cases hv
      simp only [QHash.assign, if_pos hk]
      exact List.Forall₂.cons ⟨rfl, Or.inr rfl⟩ (forall₂_swept_refl types rest)
    · simp only [QHash.value, if_neg hk] at hv
      simp only [QHash.assign, if_neg hk]
      exact List.Forall₂.cons ⟨rfl, Or.inl rfl⟩ (ih hv)

theorem forall₂_swept_trans (types : QHash NifBasicType) :
    ∀ a b c : QHash NifBlock, List.Forall₂ (Swept types) a b →
      List.Forall₂ (Swept types) b c → List.Forall₂ (Swept types) a c := by
  intro a b c hab
  induction hab generalizing c with
  | nil => intro hbc; cases hbc; exact List.Forall₂.nil
  | cons hxy _ ih =>
    intro hbc
    cases hbc with
    | cons hyz hrest =>
      refine List.Forall₂.cons ⟨hxy.1.trans hyz.1, ?_⟩ (ih _ hrest)
      rcases hxy.2 with h1 | h1 <;> rcases hyz.2 with h2 | h2
      · left; rw [h1, h2]
      · right; rw [h1, h2]
      · right; rw [h1, h2]
      · right; rw [h1, h2, withDefaults_idem]

theorem sweepCompounds_frame (h : NifXmlHandler) (ks : List String) : ∀ m : NifModel,
    (sweepCompounds h m ks).2.2.internalTypes = m.internalTypes ∧
    (sweepCompounds h m ks).2.2.types = m.types ∧
    (sweepCompounds h m ks).2.2.ancestors = m.ancestors ∧
    (sweepCompounds h m ks).2.2.blocks = m.blocks ∧
    List.Forall₂ (Swept m.types) (sweepCompounds h m ks).2.2.compounds m.compounds ∧
    m.uncondTypes <+: (sweepCompounds h m ks).2.2.uncondTypes := by
  induction ks with
  | nil =>
    intro m
    exact ⟨rfl, rfl, rfl, rfl, forall₂_swept_refl _ _, List.prefix_refl _⟩
  | cons key ks ih =>
    intro m
    cases hv : m.compounds.value key with
    | none =>
      have e : sweepCompounds h m (key :: ks) = sweepCompounds h m ks := by
        simp [sweepCompounds, hv]
      rw [e]
      exact ih m
    | some c =>
      cases hc : checkCompoundTypes m key c.types true with
      | error msg =>
        have e : sweepCompounds h m (key :: ks) = (false, { h with errorStr := msg }, m) := by
          simp [sweepCompounds, hv, hc]
        rw [e]
        exact ⟨rfl, rfl, rfl, rfl, forall₂_swept_refl _ _, List.prefix_refl _⟩
      | ok nocond =>
        obtain ⟨m1, hm1, e⟩ : ∃ m1 : NifModel,
            m1 = { m with
                    uncondTypes := if nocond then m.uncondTypes ++ [key] else m.uncondTypes
                    compounds := m.compounds.assign key (c.withDefaults m.types) } ∧
            sweepCompounds h m (key :: ks) = sweepCompounds h m1 ks := by
          refine ⟨_, rfl, ?_⟩
          rw [sweepCompounds]
          simp only [hv, hc]
          cases nocond <;> simp [NifBlock.withDefaults]
        rw [e]
        obtain ⟨i1, i2, i3, i4, i5, i6⟩ := ih m1
        have ht : m1.types = m.types := by rw [hm1]
        rw [ht] at i5
        refine ⟨by rw [i1, hm1], by rw [i2, ht], by rw [i3, hm1], by rw [i4, hm1], ?_, ?_⟩
        · refine forall₂_swept_trans _ _ _ _ i5 ?_
          rw [hm1]
          exact forall₂_swept_assign m.types key c m.compounds hv
        · refine List.IsPrefix.trans ?_ i6
          rw [hm1]
          cases nocond
          · exact List.prefix_refl _
          · exact List.prefix_append _ _

theorem sweepAncestors_frame (h : NifXmlHandler) (ks : List String) : ∀ m : NifModel,
    (sweepAncestors h m ks).2.2.internalTypes = m.internalTypes ∧
    (sweepAncestors h m ks).2.2.types = m.types ∧
    (sweepAncestors h m ks).2.2.compounds = m.compounds ∧
    (sweepAncestors h m ks).2.2.blocks = m.blocks ∧
    List.Forall₂ (Swept m.types) (sweepAncestors h m ks).2.2.ancestors m.ancestors ∧
    (sweepAncestors h m ks).2.2.uncondTypes = m.uncondTypes := by
  induction ks with
  | nil =>
    intro m
    exact ⟨rfl, rfl, rfl, rfl, forall₂_swept_refl _ _, rfl⟩
  | cons key ks ih =>
    intro m
    cases hv : m.ancestors.value key with
    | none =>
      have e : sweepAncestors h m (key :: ks) = sweepAncestors h m ks := by
        simp [sweepAncestors, hv]
      rw [e]
      exact ih m
    | some c =>
      cases hc : checkAncestorAncestors m key c.ancestors with
      | error msg =>
        have e : sweepAncestors h m (key :: ks) = (false, { h with errorStr := msg }, m) := by
          simp [sweepAncestors, hv, hc]
        rw [e]
        exact ⟨rfl, rfl, rfl, rfl, forall₂_swept_refl _ _, rfl⟩
      | ok u =>
        cases hc2 : checkTypes m "ancestor block " " referes to unknown type " key c.types with
        | error msg =>
          have e : sweepAncestors h m (key :: ks) = (false, { h with errorStr := msg }, m) := by
            simp [sweepAncestors, hv, hc, hc2]
          rw [e]
          exact ⟨rfl, rfl, rfl, rfl, forall₂_swept_refl _ _, rfl⟩
        | ok u2 =>
          obtain ⟨m1, hm1, e⟩ : ∃ m1 : NifModel,
              m1 = { m with ancestors := m.ancestors.assign key (c.withDefaults m.types) } ∧
              sweepAncestors h m (key :: ks) = sweepAncestors h m1 ks := by
            refine ⟨_, rfl, ?_⟩
            rw [sweepAncestors]
            simp only [hv, hc, hc2]
            simp [NifBlock.withDefaults]
          rw [e]
          obtain ⟨i1, i2, i3, i4, i5, i6⟩ := ih m1
          have ht : m1.types = m.types := by rw [hm1]
          rw [ht] at i5
          refine ⟨by rw [i1, hm1], by rw [i2, ht], by rw [i3, hm1], by rw [i4, hm1], ?_,
            by rw [i6, hm1]⟩
          refine forall₂_swept_trans _ _ _ _ i5 ?_
          rw [hm1]
          exact forall₂_swept_assign m.types key c m.ancestors hv

theorem sweepBlocks_frame (h : NifXmlHandler) (ks : List String) : ∀ m : NifModel,
    (sweepBlocks h m ks).2.2.internalTypes = m.internalTypes ∧
    (sweepBlocks h m ks).2.2.types = m.types ∧
    (sweepBlocks h m ks).2.2.compounds = m.compounds ∧
    (sweepBlocks h m ks).2.2.ancestors = m.ancestors ∧
    List.Forall₂ (Swept m.types) (sweepBlocks h m ks).2.2.blocks m.blocks ∧
    (sweepBlocks h m ks).2.2.uncondTypes = m.uncondTypes := by
  induction ks with
  | nil =>
    intro m
    exact ⟨rfl, rfl, rfl, rfl, forall₂_swept_refl _ _, rfl⟩
  | cons key ks ih =>
    intro m
    cases hv : m.blocks.value key with
    | none =>
      have e : sweepBlocks h m (key :: ks) = sweepBlocks h m ks := by
        simp [sweepBlocks, hv]
      rw [e]
      exact ih m
    | some c =>
      cases hc : checkBlockAncestors m key c.ancestors with
      | error msg =>
        have e : sweepBlocks h m (key :: ks) = (false, { h with errorStr := msg }, m) := by
          simp [sweepBlocks, hv, hc]
        rw [e]
        exact ⟨rfl, rfl, rfl, rfl, forall₂_swept_refl _ _, rfl⟩
      | ok u =>
        cases hc2 : checkTypes m "compound type " " referres to unknown type " key c.types with
        | error msg =>
          have e : sweepBlocks h m (key :: ks) = (false, { h with errorStr := msg }, m) := by
            simp [sweepBlocks, hv, hc, hc2]
          rw [e]
          exact ⟨rfl, rfl, rfl, rfl, forall₂_swept_refl _ _, rfl⟩
        | ok u2 =>
          obtain ⟨m1, hm1, e⟩ : ∃ m1 : NifModel,
              m1 = { m with blocks := m.blocks.assign key (c.withDefaults m.types) } ∧
              sweepBlocks h m (key :: ks) = sweepBlocks h m1 ks := by
            refine ⟨_, rfl, ?_⟩
            rw [sweepBlocks]
            simp only [hv, hc, hc2]
            simp [NifBlock.withDefaults]
          rw [e]
          obtain ⟨i1, i2, i3, i4, i5, i6⟩ := ih m1
          have ht : m1.types = m.types := by rw [hm1]
          rw [ht] at i5
          refine ⟨by rw [i1, hm1], by rw [i2, ht], by rw [i3, hm1], by rw [i4, hm1], ?_,
            by rw [i6, hm1]⟩
          refine forall₂_swept_trans _ _ _ _ i5 ?_
          rw [hm1]
          exact forall₂_swept_assign m.types key c m.blocks hv

/-- What `endDocument` leaves, whatever its outcome: the primitive types as
they were, every entry of the three block hashes under its key, with or
without its defaults, and an unconditional set that starts with the ids of
the primitive types. -/
theorem endDocument_frame (q : Externals) (h : NifXmlHandler) (m : NifModel) :
    (endDocument q h m).2.2.internalTypes = m.internalTypes ∧
    (endDocument q h m).2.2.types = m.types ∧
    List.Forall₂ (Swept m.types) (endDocument q h m).2.2.compounds m.compounds ∧
    List.Forall₂ (Swept m.types) (endDocument q h m).2.2.ancestors m.ancestors ∧
    List.Forall₂ (Swept m.types) (endDocument q h m).2.2.blocks m.blocks ∧
    m.types.keys q <+: (endDocument q h m).2.2.uncondTypes := by
  obtain ⟨m0, hm0⟩ : ∃ m0 : NifModel, m0 = { m with uncondTypes := m.types.keys q } := ⟨_, rfl⟩
  obtain ⟨c1, c2, c3, c4, c5, c6⟩ := sweepCompounds_frame h (m0.compounds.keys q) m0
  have e0 : endDocument q h m =
      match sweepCompounds h m0 (m0.compounds.keys q) with
      | (false, h, m) => (false, h, m)
      | (true, h, m) =>
        match sweepAncestors h m (m.ancestors.keys q) with
        | (false, h, m) => (false, h, m)
        | (true, h, m) => sweepBlocks h m (m.blocks.keys q) := by
    rw [hm0]; rfl
  rw [e0]
  rcases hs : sweepCompounds h m0 (m0.compounds.keys q) with ⟨ok1, h1, m1⟩
  rw [hs] at c1 c2 c3 c4 c5 c6
  simp only at c1 c2 c3 c4 c5 c6
  have t0 : m0.types = m.types := by rw [hm0]
  rw [t0] at c5
  cases ok1 with
  | false =>
    exact ⟨by rw [c1, hm0], by rw [c2, hm0], by rw [hm0] at c5; exact c5,
      by rw [c3, hm0]; exact forall₂_swept_refl _ _,
      by rw [c4, hm0]; exact forall₂_swept_refl _ _, by rw [hm0] at c6; exact c6⟩
  | true =>
    simp only
    obtain ⟨a1, a2, a3, a4, a5, a6⟩ := sweepAncestors_frame h1 (m1.ancestors.keys q) m1
    rcases hs2 : sweepAncestors h1 m1 (m1.ancestors.keys q) with ⟨ok2, h2, m2⟩
    rw [hs2] at a1 a2 a3 a4 a5 a6
    simp only at a1 a2 a3 a4 a5 a6
    rw [c2, t0, c3] at a5
    cases ok2 with
    | false =>
      exact ⟨by rw [a1, c1, hm0], by rw [a2, c2, hm0], by rw [a3]; rw [hm0] at c5; exact c5,
        by rw [hm0] at a5; exact a5,
        by rw [a4, c4, hm0]; exact forall₂_swept_refl _ _, by rw [a6]; rw [hm0] at c6; exact c6⟩
    | true =>
      simp only
      obtain ⟨b1, b2, b3, b4, b5, b6⟩ := sweepBlocks_frame h2 (m2.blocks.keys q) m2
      have hb : m2.blocks = m.blocks := by rw [a4, c4, hm0]
      have ht2 : m2.types = m.types := by rw [a2, c2, t0]
      obtain ⟨r, hr⟩ : ∃ r, r = (sweepBlocks h2 m2 (m2.blocks.keys q)).2.2.blocks := ⟨_, rfl⟩
      rw [← hr, ht2, hb] at b5
      exact ⟨by rw [b1, a1, c1, hm0], by rw [b2, a2, c2, hm0],
        by rw [b3, a3]; rw [hm0] at c5; exact c5,
        by rw [b4]; rw [hm0] at a5; exact a5,
        by rw [← hr]; exact b5, by rw [b6, a6]; rw [hm0] at c6; exact c6⟩

theorem setDefault_name (t : QHash NifBasicType) (d : NifData) :
    (setDefault t d).name = d.name := by
  unfold setDefault
  split
  · split
    · split <;> rfl
    · rfl
  · rfl

theorem captured_named (q : Externals) (d : NifData) (hc : Captured q d) :
    d.name ≠ "" ∧ d.type ≠ "" := by
  obtain ⟨list, hn, ht, rfl⟩ := hc
  exact ⟨fun e => hn ((q.toLower_eq_empty _).1 e), fun e => ht ((q.toLower_eq_empty _).1 e)⟩

theorem swept_mem (types : QHash NifBasicType) (r m : QHash NifBlock)
    (hF : List.Forall₂ (Swept types) r m) : ∀ e' ∈ r, ∃ e ∈ m, Swept types e' e := by
  induction hF with
  | nil => intro e' he; cases he
  | cons hxy _ ih =>
    intro e' he
    rcases List.mem_cons.1 he with rfl | he
    · exact ⟨_, List.mem_cons_self _ _, hxy⟩
    · obtain ⟨e, hm, hs⟩ := ih e' he
      exact ⟨e, List.mem_cons_of_mem _ hm, hs⟩

theorem swept_keys (types : QHash NifBasicType) (r m : QHash NifBlock)
    (hF : List.Forall₂ (Swept types) r m) : r.map Prod.fst = m.map Prod.fst := by
  induction hF with
  | nil => rfl
  | cons hxy _ ih => simp [hxy.1, ih]

theorem keyed_swept (q : Externals) (types : QHash NifBasicType) (e' e : String × NifBlock)
    (hs : Swept types e' e) (hk : Keyed q e) :
    e'.1 ≠ "" ∧ e'.2.id = e'.1 ∧
      ∀ d ∈ e'.2.types, ∃ d0, Captured q d0 ∧ d.name = d0.name ∧ d.type = d0.type := by
  obtain ⟨h1, h2⟩ := hs
  obtain ⟨k1, k2, k3⟩ := hk
  rcases h2 with h2 | h2
  · rw [h1, h2]
    exact ⟨k1, k2, fun d hd => ⟨d, k3 d hd, rfl, rfl⟩⟩
  · rw [h1, h2]
    refine ⟨k1, k2, ?_⟩
    intro d hd
    simp only [NifBlock.withDefaults, List.mem_map] at hd
    obtain ⟨d0, hd0, rfl⟩ := hd
    exact ⟨d0, k3 d0 hd0, setDefault_name _ _, setDefault_type _ _⟩

/-- The registry that `endDocument` leaves from a reachable state, whatever
its outcome: keys are the non-empty ids of their entries, and every field has
the name and the type of a captured one. -/
theorem registry_after_endDocument (q : Externals) {h : NifXmlHandler} {m : NifModel}
    (hr : Reachable q h m) :
    (∀ e ∈ (endDocument q h m).2.2.types, e.1 ≠ "" ∧ e.2.id = e.1) ∧
    ∀ e, (e ∈ (endDocument q h m).2.2.compounds ∨ e ∈ (endDocument q h m).2.2.ancestors ∨
        e ∈ (endDocument q h m).2.2.blocks) →
      e.1 ≠ "" ∧ e.2.id = e.1 ∧
        ∀ d ∈ e.2.types, ∃ d0, Captured q d0 ∧ d.name = d0.name ∧ d.type = d0.type := by
  obtain ⟨rt, rc, ra, rb, _⟩ := regInv_of_reachable q hr
  obtain ⟨_, f2, f3, f4, f5, _⟩ := endDocument_frame q h m
  refine ⟨by rw [f2]; exact rt, ?_⟩
  intro e he
  rcases he with he | he | he
  · obtain ⟨e0, hm, hs⟩ := swept_mem _ _ _ f3 e he
    exact keyed_swept q _ _ _ hs (rc e0 hm)
  · obtain ⟨e0, hm, hs⟩ := swept_mem _ _ _ f4 e he
    exact keyed_swept q _ _ _ hs (ra e0 hm)
  · obtain ⟨e0, hm, hs⟩ := swept_mem _ _ _ f5 e he
    exact keyed_swept q _ _ _ hs (rb e0 hm)

theorem startElement_add_rejected (q : Externals) {h : NifXmlHandler} {m : NifModel}
    (hI : Inv h m)
    (hin : h.innermost = some "compound" ∨ h.innermost = some "ancestor" ∨
      h.innermost = some "niblock")
    (list : QXmlAttributes) (hempty : list.value "name" = "" ∨ list.value "type" = "") :
    startElement q m h "add" list =
      (false, { h with errorStr := "add needs at least name and type attributes" }) := by
  have hx : indexOf ["niflotoxml", "type", "compound", "ancestor", "niblock", "add", "inherit"]
      "add" = 5 := by decide
  have hl : q.toLower (list.value "name") = "" ∨ q.toLower (list.value "type") = "" :=
    hempty.imp (q.toLower_eq_empty _).2 (q.toLower_eq_empty _).2
  have hel := hI.elements
  simp only [NifXmlHandler.new] at hel
  have hcur : h.depth = 2 ∧ (h.current = 2 ∨ h.current = 3 ∨ h.current = 4) := by
    rcases innermost_of_inv hI with ⟨hd, hi⟩ | ⟨hd, hi⟩ | ⟨hd, hs, hi⟩ | ⟨hd, hs, hi⟩ |
      ⟨hd, hs, hi⟩ | ⟨hd, hs, hi⟩ | ⟨hd, hs, hi⟩ | ⟨hd, hs, hi⟩ <;>
      simp [hi] at hin <;> simp [current, hd, hs]
  obtain ⟨hd, hc⟩ := hcur
  rcases hc with hc | hc | hc <;> rcases hl with hl | hl <;>
    simp [startElement, addedField, isEmpty, NifXmlHandler.err, hx, hel, hd, hc, hl]

/-- How an accepted callback changes the primitive types and the type being
built. -/
theorem types_step (q : Externals) {h : NifXmlHandler} {m : NifModel} (hI : Inv h m)
    (e : SaxEvent) (hacc : (deliver q h m e).1 = true) :
    ((deliver q h m e).2.2.types = m.types ∧
      ((deliver q h m e).2.1.typ = h.typ ∨
        ∃ l a, e = .startElement l "type" a ∧
          (deliver q h m e).2.1.typ = some (declaredType q a))) ∨
    (∃ l t, e = .endElement l "type" ∧ h.typ = some t ∧ t.id ≠ "" ∧
      (deliver q h m e).2.2.types = (t.id, t) :: m.types ∧ (deliver q h m e).2.1.typ = none) := by
  rcases deliver_cases q hI e hacc with ⟨l, a, rfl, hd, ht, hb, hdel⟩ |
    ⟨l, a, rfl, hd, ht, hb, hk, hdel⟩ | ⟨l, a, x, hx, rfl, hd, ht, hb, hdel⟩ |
    ⟨l, a, b, rfl, hd, ht, hb, hn, hty, hdel⟩ | ⟨l, a, b, rfl, hd, ht, hb, hs, hn, hdel⟩ |
    ⟨l, rfl, hd, ht, hb, hdel⟩ | ⟨l, t, rfl, hd, ht, hb, hid, hdel⟩ |
    ⟨l, b, rfl, hd, ht, hb, hid, hs, hdel⟩ | ⟨l, b, rfl, hd, ht, hb, hid, hs, hdel⟩ |
    ⟨l, b, rfl, hd, ht, hb, hid, hs, hdel⟩ | ⟨l, n, b, rfl, hd, ht, hb, hdel⟩ <;> rw [hdel]
  · exact Or.inl ⟨rfl, Or.inl rfl⟩
  · exact Or.inl ⟨rfl, Or.inr ⟨l, a, rfl, rfl⟩⟩
  · exact Or.inl ⟨rfl, Or.inl rfl⟩
  · exact Or.inl ⟨rfl, Or.inl rfl⟩
  · exact Or.inl ⟨rfl, Or.inl rfl⟩
  · exact Or.inl ⟨rfl, Or.inl rfl⟩
  · exact Or.inr ⟨l, t, rfl, ht, hid, rfl, rfl⟩
  · exact Or.inl ⟨rfl, Or.inl rfl⟩
  · exact Or.inl ⟨rfl, Or.inl rfl⟩
  · exact Or.inl ⟨rfl, Or.inl rfl⟩
  · exact Or.inl ⟨rfl, Or.inl rfl⟩

/-- The primitive types only grow, at the front. -/
theorem types_suffix_run (q : Externals) (es : List SaxEvent) :
    ∀ (h : NifXmlHandler) (m : NifModel), Reachable q h m →
      (parseEvents q h m es).1 = true → m.types <:+ (parseEvents q h m es).2.2.types := by
  induction es with
  | nil => intro h m _ _; exact List.suffix_refl _
  | cons e es ih =>
    intro h m hr hacc
    obtain ⟨h1, h2⟩ := parseEvents_cons_true q h m e es hacc
    rw [h2] at hacc ⊢
    have hnext := ih _ _ (Reachable.step e hr h1) hacc
    refine List.IsSuffix.trans ?_ hnext
    rcases types_step q (inv_of_reachable q hr) e h1 with ⟨ht, _⟩ | ⟨l, t, _, _, _, ht, _⟩
    · rw [ht]
    · rw [ht]; exact List.suffix_cons _ _

/-- The lookup of an id does not change while no primitive type of that id is
declared. -/
theorem types_value_run (q : Externals) (N : String) (es : List SaxEvent) :
    ∀ (h : NifXmlHandler) (m : NifModel), Reachable q h m →
      (parseEvents q h m es).1 = true →
      (∀ t, h.typ = some t → t.id ≠ N) →
      (∀ l a, SaxEvent.startElement l "type" a ∈ es → q.toLower (a.value "name") ≠ N) →
      (parseEvents q h m es).2.2.types.value N = m.types.value N := by
  induction es with
  | nil => intro h m _ _ _ _; rfl
  | cons e es ih =>
    intro h m hr hacc htyp hes
    obtain ⟨h1, h2⟩ := parseEvents_cons_true q h m e es hacc
    rw [h2] at hacc ⊢
    have hes' : ∀ l a, SaxEvent.startElement l "type" a ∈ es →
        q.toLower (a.value "name") ≠ N := fun l a hm => hes l a (List.mem_cons_of_mem _ hm)
    rcases types_step q (inv_of_reachable q hr) e h1 with ⟨ht, hty⟩ | ⟨l, t, _, hsome, _, ht, hty⟩
    · rw [ih _ _ (Reachable.step e hr h1) hacc ?_ hes', ht]
      intro t ht'
      rcases hty with hty | ⟨l, a, rfl, hty⟩
      · rw [hty] at ht'
        exact htyp t ht'
      · rw [hty] at ht'
        cases ht'
        exact hes l a (List.mem_cons_self _ _)
    · rw [ih _ _ (Reachable.step e hr h1) hacc ?_ hes', ht]
      · simp [QHash.value, htyp t hsome]
      · intro t' ht'
        rw [hty] at ht'
        cases ht'

/-- A `type` element, opened and closed, puts the type it declares in front of
the primitive types. -/
theorem type_element (q : Externals) {h : NifXmlHandler} {m : NifModel} (hr : Reachable q h m)
    (l l' : Int) (a : QXmlAttributes) (rest : List SaxEvent)
    (hacc : (parseEvents q h m (.startElement l "type" a :: .endElement l' "type" :: rest)).1 =
      true) :
    ∃ h2 m2, Reachable q h2 m2 ∧
      parseEvents q h m (.startElement l "type" a :: .endElement l' "type" :: rest) =
        parseEvents q h2 m2 rest ∧
      m2.types = (q.toLower (a.value "name"), declaredType q a) :: m.types ∧ h2.typ = none := by
  obtain ⟨a1, a2⟩ := parseEvents_cons_true q h m _ _ hacc
  rw [a2] at hacc
  obtain ⟨b1, b2⟩ := parseEvents_cons_true q _ _ _ _ hacc
  have hr1 := Reachable.step _ hr a1
  have hr2 := Reachable.step _ hr1 b1
  refine ⟨_, _, hr2, by rw [a2, b2], ?_, ?_⟩
  all_goals
    have hty : (deliver q h m (.startElement l "type" a)).2.1.typ = some (declaredType q a) ∧
        (deliver q h m (.startElement l "type" a)).2.2.types = m.types := by
      rcases deliver_cases q (inv_of_reachable q hr) _ a1 with ⟨l, a, he, hd, ht, hb, hdel⟩ |
        ⟨l, a, he, hd, ht, hb, hk, hdel⟩ | ⟨l, a, x, hx, he, hd, ht, hb, hdel⟩ |
        ⟨l, a, b, he, hd, ht, hb, hn, hty, hdel⟩ | ⟨l, a, b, he, hd, ht, hb, hs, hn, hdel⟩ |
        ⟨l, he, hd, ht, hb, hdel⟩ | ⟨l, t, he, hd, ht, hb, hid, hdel⟩ |
        ⟨l, b, he, hd, ht, hb, hid, hs, hdel⟩ | ⟨l, b, he, hd, ht, hb, hid, hs, hdel⟩ |
        ⟨l, b, he, hd, ht, hb, hid, hs, hdel⟩ | ⟨l, n, b, he, hd, ht, hb, hdel⟩
      · simp at he
      · simp only [SaxEvent.startElement.injEq] at he
        obtain ⟨rfl, _, rfl⟩ := he
        rw [hdel]
        exact ⟨rfl, rfl⟩
      · exfalso
        simp only [SaxEvent.startElement.injEq] at he
        have h2 := he.2.1
        rcases hx with rfl | rfl | rfl <;> exact absurd h2 (by decide)
      · simp at he
      · simp at he
      · simp at he
      · simp at he
      · simp at he
      · simp at he
      · simp at he
      · simp at he
    rcases types_step q (inv_of_reachable q hr1) _ b1 with ⟨_, hq | ⟨l2, a2, he, _⟩⟩ |
      ⟨l2, t, _, hsome, _, ht, htn⟩
    · exfalso
      rcases deliver_cases q (inv_of_reachable q hr1) _ b1 with ⟨l, a, he, hd, ht, hb, hdel⟩ |
        ⟨l, a, he, hd, ht, hb, hk, hdel⟩ | ⟨l, a, x, hx, he, hd, ht, hb, hdel⟩ |
        ⟨l, a, b, he, hd, ht, hb, hn, hty', hdel⟩ | ⟨l, a, b, he, hd, ht, hb, hs, hn, hdel⟩ |
        ⟨l, he, hd, ht, hb, hdel⟩ | ⟨l, t, he, hd, ht, hb, hid, hdel⟩ |
        ⟨l, b, he, hd, ht, hb, hid, hs, hdel⟩ | ⟨l, b, he, hd, ht, hb, hid, hs, hdel⟩ |
        ⟨l, b, he, hd, ht, hb, hid, hs, hdel⟩ | ⟨l, n, b, he, hd, ht, hb, hdel⟩
      all_goals first
        | (simp at he; done)
        | (rw [hty.1] at ht; simp at ht; done)
        | skip
      rw [hdel] at hq
      rw [hty.1] at ht
      simp at hq
      rw [hty.1] at hq
      simp at hq
    · simp at he
    · rw [hty.1] at hsome
      cases hsome
      first
        | (rw [ht, hty.2]; rfl)
        | exact htn

theorem parseEvents_false (q : Externals) (es : List SaxEvent) :
    ∀ (h : NifXmlHandler) (m : NifModel), (parseEvents q h m es).1 = false →
    ∃ pre e post, es = pre ++ e :: post ∧ (parseEvents q h m pre).1 = true ∧
      (deliver q (parseEvents q h m pre).2.1 (parseEvents q h m pre).2.2 e).1 = false ∧
      (parseEvents q h m es).2.2 = (parseEvents q h m pre).2.2 ∧
      (parseEvents q h m es).2.1 =
        (deliver q (parseEvents q h m pre).2.1 (parseEvents q h m pre).2.2 e).2.1.fatalError
          e.line := by
  induction es with
  | nil => intro h m hf; simp [parseEvents] at hf
  | cons e es ih =>
    intro h m hf
    rcases hd : deliver q h m e with ⟨ok, h1, m1⟩
    cases ok with
    | false =>
      have hm : m1 = m := by
        have := deliver_false_model q h m e (by rw [hd])
        rw [hd] at this
        exact this
      refine ⟨[], e, es, rfl, rfl, by simp only [parseEvents]; rw [hd], ?_, ?_⟩
      · simp only [parseEvents]
        rw [hd]
        exact hm
      · simp only [parseEvents]
        rw [hd]
    | true =>
      have e1 : ∀ l, parseEvents q h m (e :: l) = parseEvents q h1 m1 l := by
        intro l
        rw [parseEvents, hd]
      rw [e1] at hf
      obtain ⟨pre, e', post, hes, hp, hdel, hm, hh⟩ := ih h1 m1 hf
      refine ⟨e :: pre, e', post, by rw [hes]; rfl, ?_, ?_, ?_, ?_⟩
      · rw [e1]; exact hp
      · rw [e1]; exact hdel
      · rw [e1, e1]; exact hm
      · rw [e1, e1]; exact hh

theorem parseEvents_keeps_uncondTypes (q : Externals) (h : NifXmlHandler) (m : NifModel)
    (es : List SaxEvent) : (parseEvents q h m es).2.2.uncondTypes = m.uncondTypes := by
  have := parseEvents_uncondTypes q m.uncondTypes es h m
  have e : ({ m with uncondTypes := m.uncondTypes } : NifModel) = m := rfl
  rw [e] at this
  rw [this]
  rfl

theorem fatalError_ne_empty (h : NifXmlHandler) (l : Int) : (h.fatalError l).errorStr ≠ "" := by
  unfold fatalError
  simp only [String.append_assoc]
  exact append_ne_empty _ _ (by decide)

theorem captured_value (q : Externals) (d : NifData) (hc : Captured q d) :
    d.value = QVariant.invalid := by
  obtain ⟨list, _, _, rfl⟩ := hc
  rfl

theorem readerParse_false (q : Externals) (h : NifXmlHandler) (m : NifModel) (source : XmlSource)
    (hfail : (readerParse q h m source).1 = false) :
    ((parseEvents q h m source.events).1 = false ∧
      readerParse q h m source = parseEvents q h m source.events) ∨
    ((parseEvents q h m source.events).1 = true ∧
      (endDocument q (parseEvents q h m source.events).2.1
        (parseEvents q h m source.events).2.2).1 = false ∧
      readerParse q h m source =
        (false,
          (endDocument q (parseEvents q h m source.events).2.1
            (parseEvents q h m source.events).2.2).2.1.fatalError source.endLine,
          (endDocument q (parseEvents q h m source.events).2.1
            (parseEvents q h m source.events).2.2).2.2)) := by
  unfold readerParse at hfail ⊢
  rcases hp : parseEvents q h m source.events with ⟨ok, h1, m1⟩
  rw [hp] at hfail
  cases ok with
  | false => left; exact ⟨rfl, rfl⟩
  | true =>
    right
    simp only at hfail ⊢
    rcases he : endDocument q h1 m1 with ⟨ok2, h2, m2⟩
    rw [he] at hfail
    cases ok2 with
    | false => exact ⟨trivial, rfl, rfl⟩
    | true => simp at hfail

theorem char_toLower_idem (c : Char) : c.toLower.toLower = c.toLower := by
  have key : ∀ n : Nat, 65 ≤ n → n ≤ 90 →
      (Char.ofNat (n + 32)).toLower = Char.ofNat (n + 32) := by
    intro n h1 h2
    interval_cases n <;> decide
  by_cases hc : c.toNat ≥ 65 ∧ c.toNat ≤ 90
  · have e : c.toLower = Char.ofNat (c.toNat + 32) := by
      simp only [Char.toLower]
      rw [if_pos hc]
    rw [e]
    exact key _ hc.1 hc.2
  · have e : c.toLower = c := by
      simp only [Char.toLower]
      rw [if_neg hc]
    rw [e, e]

theorem sampleToLower_idem (s : String) : sampleToLower (sampleToLower s) = sampleToLower s := by
  simp [sampleToLower, Function.comp_def, char_toLower_idem]

theorem QHash.nodup_insert {V : Type} (hash : QHash V) (key : String) (v : V)
    (hn : (hash.map Prod.fst).Nodup) : ((hash.insert key v).map Prod.fst).Nodup := by
  unfold QHash.insert
  by_cases hc : hash.contains key = true
  · rw [if_pos hc, QHash.map_fst_assign]
    exact hn
  · rw [if_neg hc]
    simp only [List.map_cons, List.nodup_cons]
    exact ⟨fun hm => hc ((QHash.contains_iff_mem hash key).2 hm), hn⟩

theorem QHash.value_of_mem {V : Type} (hash : QHash V) (hn : (hash.map Prod.fst).Nodup)
    (e : String × V) (he : e ∈ hash) : hash.value e.1 = some e.2 := by
  induction hash with
  | nil => cases he
  | cons x rest ih =>
    obtain ⟨k, w⟩ := x
    simp only [List.map_cons, List.nodup_cons] at hn
    rcases List.mem_cons.1 he with rfl | he
    · simp [QHash.value]
    · have hne : k ≠ e.1 := by
        intro hk
        apply hn.1
        rw [hk]
        exact List.mem_map_of_mem Prod.fst he
      simp only [QHash.value, if_neg hne]
      exact ih hn.2 he

theorem keysNodup_of_reachable (q : Externals) {h : NifXmlHandler} {m : NifModel}
    (hr : Reachable q h m) : KeysNodup m := by
  induction hr with
  | init m0 => exact ⟨List.nodup_nil, List.nodup_nil, List.nodup_nil⟩
  | @step h m e hr hacc ih =>
    obtain ⟨n1, n2, n3⟩ := ih
    rcases deliver_cases q (inv_of_reachable q hr) e hacc with ⟨l, a, rfl, hd, ht, hb, hdel⟩ |
      ⟨l, a, rfl, hd, ht, hb, hk, hdel⟩ | ⟨l, a, x, hx, rfl, hd, ht, hb, hdel⟩ |
      ⟨l, a, b, rfl, hd, ht, hb, hn, hty, hdel⟩ | ⟨l, a, b, rfl, hd, ht, hb, hs, hn, hdel⟩ |
      ⟨l, rfl, hd, ht, hb, hdel⟩ | ⟨l, t, rfl, hd, ht, hb, hid, hdel⟩ |
      ⟨l, b, rfl, hd, ht, hb, hid, hs, hdel⟩ | ⟨l, b, rfl, hd, ht, hb, hid, hs, hdel⟩ |
      ⟨l, b, rfl, hd, ht, hb, hid, hs, hdel⟩ | ⟨l, n, b, rfl, hd, ht, hb, hdel⟩ <;> rw [hdel]
    · exact ⟨n1, n2, n3⟩
    · exact ⟨n1, n2, n3⟩
    · exact ⟨n1, n2, n3⟩
    · exact ⟨n1, n2, n3⟩
    · exact ⟨n1, n2, n3⟩
    · exact ⟨n1, n2, n3⟩
    · exact ⟨n1, n2, n3⟩
    · exact ⟨QHash.nodup_insert _ _ _ n1, n2, n3⟩
    · exact ⟨n1, QHash.nodup_insert _ _ _ n2, n3⟩
    · exact ⟨n1, n2, QHash.nodup_insert _ _ _ n3⟩
    · exact ⟨n1, n2, n3⟩

theorem endDocument_success (q : Externals) (h : NifXmlHandler) (m : NifModel)
    (hs : (endDocument q h m).1 = true) : CompoundsOk m ∧ AncestorsOk m ∧ BlocksOk m := by
  rcases endDocument_spec q h m with
    ⟨k, c, d, m', hc, hd, ⟨_, e⟩ | ⟨_, e⟩⟩ |
    ⟨_, k, b, m', hb, ⟨n, hn, _, e⟩ | ⟨_, e⟩ | ⟨d, hd, _, e⟩⟩ |
    ⟨_, _, k, b, m', hb, ⟨n, hn, _, e⟩ | ⟨d, hd, _, e⟩⟩ |
    ⟨hC, hA, hB, _⟩
  all_goals first
    | exact ⟨hC, hA, hB⟩
    | (rw [e] at hs; cases hs)

/-- After a successful `endDocument` from a reachable state, the type of every
field of every entry of the block hashes resolves. -/
theorem resolves_after_endDocument (q : Externals) {h : NifXmlHandler} {m : NifModel}
    (hr : Reachable q h m) (hs : (endDocument q h m).1 = true) :
    ∀ e, (e ∈ (endDocument q h m).2.2.compounds ∨ e ∈ (endDocument q h m).2.2.ancestors ∨
        e ∈ (endDocument q h m).2.2.blocks) →
      ∀ d ∈ e.2.types, Resolves (endDocument q h m).2.2 d.type := by
  obtain ⟨hC, hA, hB⟩ := endDocument_success q h m hs
  obtain ⟨n1, n2, n3⟩ := keysNodup_of_reachable q hr
  obtain ⟨_, f2, f3, f4, f5, _⟩ := endDocument_frame q h m
  have hres : ∀ t, Resolves m t → Resolves (endDocument q h m).2.2 t := by
    intro t ht
    unfold Resolves at ht ⊢
    rw [f2, QHash.contains_iff_mem, swept_keys _ _ _ f3, ← QHash.contains_iff_mem]
    exact ht
  have hfield : ∀ (e' e0 : String × NifBlock), Swept m.types e' e0 →
      (∀ d0 ∈ e0.2.types, Resolves m d0.type) → ∀ d ∈ e'.2.types, Resolves m d.type := by
    intro e' e0 hsw hall d hd
    rcases hsw.2 with h2 | h2
    · rw [h2] at hd
      exact hall d hd
    · rw [h2] at hd
      simp only [NifBlock.withDefaults, List.mem_map] at hd
      obtain ⟨d0, hd0, rfl⟩ := hd
      rw [setDefault_type]
      exact hall d0 hd0
  intro e he d hd
  apply hres
  rcases he with he | he | he
  · obtain ⟨e0, hm, hsw⟩ := swept_mem _ _ _ f3 e he
    exact hfield e e0 hsw
      (fun d0 hd0 => (hC e0.1 e0.2 (QHash.value_of_mem _ n1 e0 hm) d0 hd0).1) d hd
  · obtain ⟨e0, hm, hsw⟩ := swept_mem _ _ _ f4 e he
    exact hfield e e0 hsw
      (fun d0 hd0 => (hA e0.1 e0.2 (QHash.value_of_mem _ n2 e0 hm)).2 d0 hd0) d hd
  · obtain ⟨e0, hm, hsw⟩ := swept_mem _ _ _ f5 e he
    exact hfield e e0 hsw
      (fun d0 hd0 => (hB e0.1 e0.2 (QHash.value_of_mem _ n3 e0 hm)).2 d0 hd0) d hd

/-! ## The reader and documents that are not well-formed -/

theorem xmlReaderEvents_cons_true (q : Externals) (h : NifXmlHandler) (m : NifModel)
    (s : ReaderState) (e : SaxEvent) (es : List SaxEvent)
    (hacc : (xmlReaderEvents q h m s (e :: es)).1 = true) :
    ∃ s', tagStep s e = some s' ∧ (deliver q h m e).1 = true ∧
      xmlReaderEvents q h m s (e :: es) =
        xmlReaderEvents q (deliver q h m e).2.1 (deliver q h m e).2.2 s' es := by
  rw [xmlReaderEvents] at hacc ⊢
  cases ht : tagStep s e with
  | none => rw [ht] at hacc; simp at hacc
  | some s' =>
    rw [ht] at hacc
    simp only at hacc ⊢
    rcases hd : deliver q h m e with ⟨ok, h1, m1⟩
    rw [hd] at hacc
    cases ok with
    | true => exact ⟨s', rfl, rfl, rfl⟩
    | false => simp at hacc

/-- When the reader gets through the tags, the handler has accepted each of
them, and the tags pass the reader's check. -/
theorem xmlReaderEvents_true (q : Externals) (es : List SaxEvent) :
    ∀ (h : NifXmlHandler) (m : NifModel) (s : ReaderState),
      (xmlReaderEvents q h m s es).1 = true →
      parseEvents q h m es =
        (true, (xmlReaderEvents q h m s es).2.1, (xmlReaderEvents q h m s es).2.2.1) ∧
      tagRun s es = some (xmlReaderEvents q h m s es).2.2.2 := by
  induction es with
  | nil => intro h m s _; exact ⟨rfl, rfl⟩
  | cons e es ih =>
    intro h m s hacc
    obtain ⟨s', ht, hd, heq⟩ := xmlReaderEvents_cons_true q h m s e es hacc
    rw [heq] at hacc ⊢
    obtain ⟨i1, i2⟩ := ih _ _ _ hacc
    refine ⟨?_, ?_⟩
    · rw [← i1, parseEvents]
      rcases hd' : deliver q h m e with ⟨ok, h1, m1⟩
      rw [hd'] at hd
      simp only at hd
      subst hd
      rfl
    · rw [tagRun, ht]
      exact i2

theorem xmlReaderEvents_append (q : Externals) (a b : List SaxEvent) :
    ∀ (h : NifXmlHandler) (m : NifModel) (s : ReaderState),
      (xmlReaderEvents q h m s a).1 = true →
      xmlReaderEvents q h m s (a ++ b) =
        xmlReaderEvents q (xmlReaderEvents q h m s a).2.1 (xmlReaderEvents q h m s a).2.2.1
          (xmlReaderEvents q h m s a).2.2.2 b := by
  induction a with
  | nil => intro h m s _; rfl
  | cons e es ih =>
    intro h m s hacc
    obtain ⟨s', ht, hd, heq⟩ := xmlReaderEvents_cons_true q h m s e es hacc
    rw [heq] at hacc ⊢
    rw [← ih _ _ _ hacc, List.cons_append]
    rw [xmlReaderEvents, ht]
    rcases hd' : deliver q h m e with ⟨ok, h1, m1⟩
    rw [hd'] at hd
    simp only at hd
    subst hd
    rfl

/-- On a well-formed document the reader raises no error of its own:
`xmlReaderParse` is `readerParse`. -/
theorem xmlReaderParse_wellFormed (q : Externals) (h : NifXmlHandler) (m : NifModel)
    (source : XmlSource) (hw : wellFormed source.events = true) :
    xmlReaderParse q h m source = readerParse q h m source := by
  have key : ∀ (es : List SaxEvent) (h : NifXmlHandler) (m : NifModel) (s s' : ReaderState),
      tagRun s es = some s' →
      ((parseEvents q h m es).1 = true →
        xmlReaderEvents q h m s es = (true, (parseEvents q h m es).2.1,
          (parseEvents q h m es).2.2, s')) ∧
      ((parseEvents q h m es).1 = false →
        (xmlReaderEvents q h m s es).1 = false ∧
        (xmlReaderEvents q h m s es).2.1 = (parseEvents q h m es).2.1 ∧
        (xmlReaderEvents q h m s es).2.2.1 = (parseEvents q h m es).2.2) := by
    intro es
    induction es with
    | nil =>
      intro h m s s' hrun
      simp only [tagRun, Option.some.injEq] at hrun
      subst hrun
      exact ⟨fun _ => rfl, fun hf => by simp [parseEvents] at hf⟩
    | cons e es ih =>
      intro h m s s' hrun
      rw [tagRun] at hrun
      cases ht : tagStep s e with
      | none => rw [ht] at hrun; simp at hrun
      | some s1 =>
        rw [ht] at hrun
        simp only at hrun
        rw [xmlReaderEvents, parseEvents, ht]
        simp only
        rcases hd : deliver q h m e with ⟨ok, h1, m1⟩
        cases ok with
        | true => exact ih h1 m1 s1 s' hrun
        | false => exact ⟨fun hf => by simp at hf, fun _ => ⟨rfl, rfl, rfl⟩⟩
  unfold wellFormed at hw
  cases hrun : tagRun { opened := [], closed := false } source.events with
  | none => rw [hrun] at hw; simp at hw
  | some s' =>
    rw [hrun] at hw
    simp only at hw
    obtain ⟨k1, k2⟩ := key source.events h m _ s' hrun
    unfold xmlReaderParse readerParse
    rcases hp : parseEvents q h m source.events with ⟨ok, h1, m1⟩
    rw [hp] at k1 k2
    cases ok with
    | true =>
      rw [k1 rfl]
      simp only [hw, if_true]
    | false =>
      obtain ⟨a1, a2, a3⟩ := k2 rfl
      rcases hx : xmlReaderEvents q h m { opened := [], closed := false } source.events with
        ⟨ok2, h2, m2, s2⟩
      rw [hx] at a1 a2 a3
      simp only at a1 a2 a3
      subst a1 a2 a3
      rfl

theorem startElement_root_iff (q : Externals) {h : NifXmlHandler} {m : NifModel} (hI : Inv h m)
    (list : QXmlAttributes) :
    (startElement q m h "niflotoxml" list).1 = true ↔ h.depth = 0 := by
  rw [startElement_accept_iff q hI]
  rcases innermost_of_inv hI with ⟨hd, hi⟩ | ⟨hd, hi⟩ | ⟨hd, _, hi⟩ | ⟨hd, _, hi⟩ |
    ⟨hd, _, hi⟩ | ⟨hd, _, hi⟩ | ⟨hd, _, hi⟩ | ⟨hd, _, hi⟩ <;>
    simp [hi, hd, AllowedPair, RequiredAttributes]

/-- An accepted callback leaves the error string as it is, moves the depth up
by one for a start tag and down by one for an end tag. -/
theorem deliver_depth (q : Externals) {h : NifXmlHandler} {m : NifModel} (hI : Inv h m)
    (e : SaxEvent) (hacc : (deliver q h m e).1 = true) :
    (deliver q h m e).2.1.errorStr = h.errorStr ∧
    (∀ l n a, e = .startElement l n a → (deliver q h m e).2.1.depth = h.depth + 1) ∧
    (∀ l n, e = .endElement l n → (deliver q h m e).2.1.depth = h.depth - 1) := by
  rcases deliver_cases q hI e hacc with ⟨l, a, rfl, hd, ht, hb, hdel⟩ |
    ⟨l, a, rfl, hd, ht, hb, hk, hdel⟩ | ⟨l, a, x, hx, rfl, hd, ht, hb, hdel⟩ |
    ⟨l, a, b, rfl, hd, ht, hb, hn, hty, hdel⟩ | ⟨l, a, b, rfl, hd, ht, hb, hs, hn, hdel⟩ |
    ⟨l, rfl, hd, ht, hb, hdel⟩ | ⟨l, t, rfl, hd, ht, hb, hid, hdel⟩ |
    ⟨l, b, rfl, hd, ht, hb, hid, hs, hdel⟩ | ⟨l, b, rfl, hd, ht, hb, hid, hs, hdel⟩ |
    ⟨l, b, rfl, hd, ht, hb, hid, hs, hdel⟩ | ⟨l, n, b, rfl, hd, ht, hb, hdel⟩ <;> rw [hdel]
  · exact ⟨rfl, fun _ _ _ _ => rfl, fun _ _ he => by cases he⟩
  · exact ⟨rfl, fun _ _ _ _ => rfl, fun _ _ he => by cases he⟩
  · exact ⟨rfl, fun _ _ _ _ => rfl, fun _ _ he => by cases he⟩
  · exact ⟨rfl, fun _ _ _ _ => rfl, fun _ _ he => by cases he⟩
  · exact ⟨rfl, fun _ _ _ _ => rfl, fun _ _ he => by cases he⟩
  · exact ⟨rfl, fun _ _ _ he => (by cases he), fun _ _ _ => by simp [hd]⟩
  · exact ⟨rfl, fun _ _ _ he => (by cases he), fun _ _ _ => by simp [hd]⟩
  · exact ⟨rfl, fun _ _ _ he => (by cases he), fun _ _ _ => by simp [hd]⟩
  · exact ⟨rfl, fun _ _ _ he => (by cases he), fun _ _ _ => by simp [hd]⟩
  · exact ⟨rfl, fun _ _ _ he => (by cases he), fun _ _ _ => by simp [hd]⟩
  · exact ⟨rfl, fun _ _ _ he => (by cases he), fun _ _ _ => by simp [hd]⟩

theorem errorStr_of_reachable (q : Externals) {h : NifXmlHandler} {m : NifModel}
    (hr : Reachable q h m) : h.errorStr = "" := by
  induction hr with
  | init m0 => rfl
  | step e hr hacc ih => rw [(deliver_depth q (inv_of_reachable q hr) e hacc).1, ih]

/-- While the reader gets through the tags after the root has been opened, the
depth of the handler is the number of open elements, the root counts as closed
only when no element is open, and no further `niflotoxml` is opened. -/
theorem reader_run (q : Externals) (es : List SaxEvent) :
    ∀ (h : NifXmlHandler) (m : NifModel) (s : ReaderState), Reachable q h m →
      h.depth = s.opened.length → (s.closed = true ↔ s.opened = []) →
      (xmlReaderEvents q h m s es).1 = true →
      Reachable q (xmlReaderEvents q h m s es).2.1 (xmlReaderEvents q h m s es).2.2.1 ∧
      (xmlReaderEvents q h m s es).2.1.depth = (xmlReaderEvents q h m s es).2.2.2.opened.length ∧
      ((xmlReaderEvents q h m s es).2.2.2.closed = true ↔
        (xmlReaderEvents q h m s es).2.2.2.opened = []) ∧
      ∀ l a, SaxEvent.startElement l "niflotoxml" a ∉ es := by
  induction es with
  | nil =>
    intro h m s hr hd hc _
    exact ⟨hr, hd, hc, fun l a hm => by cases hm⟩
  | cons e es ih =>
    intro h m s hr hd hc hacc
    obtain ⟨s', ht, hdel, heq⟩ := xmlReaderEvents_cons_true q h m s e es hacc
    rw [heq] at hacc ⊢
    have hI := inv_of_reachable q hr
    obtain ⟨_, dup, ddown⟩ := deliver_depth q hI e hdel
    have hstep : (deliver q h m e).2.1.depth = s'.opened.length ∧
        (s'.closed = true ↔ s'.opened = []) ∧ ∀ l a, e ≠ SaxEvent.startElement l "niflotoxml" a := by
      cases e with
      | startElement l n a =>
        simp only [tagStep] at ht
        by_cases hcl : s.closed = true
        · rw [if_pos hcl] at ht; cases ht
        · rw [if_neg hcl] at ht
          simp only [Option.some.injEq] at ht
          subst ht
          have hne : s.opened ≠ [] := fun h0 => hcl (hc.2 h0)
          refine ⟨by rw [dup l n a rfl, hd]; simp, ?_, ?_⟩
          · simp only [List.cons_ne_nil, iff_false]
            exact hcl
          · intro l' a' he
            simp only [SaxEvent.startElement.injEq] at he
            obtain ⟨_, rfl, _⟩ := he
            have h0 : h.depth = 0 := (startElement_root_iff q hI a).1 hdel
            rw [hd] at h0
            apply hne
            exact List.length_eq_zero.1 (by exact_mod_cast h0)
      | endElement l n =>
        simp only [tagStep] at ht
        cases hop : s.opened with
        | nil => rw [hop] at ht; cases ht
        | cons top rest =>
          rw [hop] at ht
          simp only at ht
          by_cases hn : top = n
          · rw [if_pos hn] at ht
            simp only [Option.some.injEq] at ht
            subst ht
            refine ⟨by rw [ddown l n rfl, hd, hop]; simp, ?_, fun l' a' he => by cases he⟩
            simp [List.isEmpty_iff]
          · rw [if_neg hn] at ht; cases ht
    obtain ⟨i1, i2, i3, i4⟩ := ih _ _ s' (Reachable.step e hr hdel) hstep.1 hstep.2.1 hacc
    refine ⟨i1, i2, i3, ?_⟩
    intro l a hm
    rcases List.mem_cons.1 hm with he | hm
    · exact hstep.2.2 l a he.symm
    · exact i4 l a hm

/-- The sample documents of this file are well-formed, so that on each of them
the reader raises no error of its own and `readerParse` is what the reader
does. -/
theorem sample_documents_wellFormed :
    wellFormed sharedIdDocument.events = true ∧ wellFormed badDefaultDocument.events = true ∧
    wellFormed exampleDocument.events = true ∧
    wellFormed exampleDocumentWithFloat.events = true ∧
    wellFormed firstRunDocument.events = true ∧ wellFormed notSchemaDocument.events = true ∧
    wellFormed selfCompoundDocument.events = true ∧
    wellFormed upperSelfDocument.events = true ∧
    wellFormed upperSelfOnlyDocument.events = true ∧
    wellFormed selfAncestorDocument.events = true ∧
    wellFormed replacedAncestorDocument.events = true ∧
    wellFormed twoCycleDocument.events = true ∧ wellFormed plainBlocksDocument.events = true ∧
    wellFormed twiceDeclaredDocument.events = true ∧
    wellFormed mixedCaseDocument.events = true := by
  decide

/-! ## Fields and keys of the registry -/

/-- C11: in a state the parser reaches, opening an `add` element inside a
`compound`, `ancestor` or `niblock` with an empty (or missing) `name` or `type`
attribute returns false and changes nothing but the error string, so the field
sequence of the block being built stays as it was. Hence every field of the
block being built, of every block committed to the three block hashes, and of
every block that `endDocument` leaves there, has a non-empty name and a
non-empty type. -/
theorem C11_add_needs_name_and_type (q : Externals) (h : NifXmlHandler) (m : NifModel)
    (hr : Reachable q h m) :
    (∀ list : QXmlAttributes,
      (h.innermost = some "compound" ∨ h.innermost = some "ancestor" ∨
        h.innermost = some "niblock") →
      (list.value "name" = "" ∨ list.value "type" = "") →
      startElement q m h "add" list =
          (false, { h with errorStr := "add needs at least name and type attributes" }) ∧
        (startElement q m h "add" list).2.blk = h.blk) ∧
    (∀ b, h.blk = some b → ∀ d ∈ b.types, d.name ≠ "" ∧ d.type ≠ "") ∧
    (∀ e, (e ∈ m.compounds ∨ e ∈ m.ancestors ∨ e ∈ m.blocks) →
      ∀ d ∈ e.2.types, d.name ≠ "" ∧ d.type ≠ "") ∧
    (∀ e, (e ∈ (endDocument q h m).2.2.compounds ∨ e ∈ (endDocument q h m).2.2.ancestors ∨
        e ∈ (endDocument q h m).2.2.blocks) →
      ∀ d ∈ e.2.types, d.name ≠ "" ∧ d.type ≠ "") := by
  have hI := inv_of_reachable q hr
  obtain ⟨rt, rc, ra, rb, rbl⟩ := regInv_of_reachable q hr
  refine ⟨?_, ?_, ?_, ?_⟩
  · intro list hin hempty
    rw [startElement_add_rejected q hI hin list hempty]
    exact ⟨rfl, rfl⟩
  · intro b hb d hd
    exact captured_named q d (rbl b hb d hd)
  · intro e he d hd
    rcases he with he | he | he
    · exact captured_named q d ((rc e he).2.2 d hd)
    · exact captured_named q d ((ra e he).2.2 d hd)
    · exact captured_named q d ((rb e he).2.2 d hd)
  · intro e he d hd
    obtain ⟨d0, hc, hn, ht⟩ := ((registry_after_endDocument q hr).2 e he).2.2 d hd
    rw [hn, ht]
    exact captured_named q d0 hc

/-- C11 inside an open field group: an `add` without a `type` is rejected. -/
theorem C11_add_needs_name_and_type_witness :
    startElement sampleQt (parseEvents sampleQt NifXmlHandler.new (clearRegistry {})
        openCompoundEvents).2.2
      (parseEvents sampleQt NifXmlHandler.new (clearRegistry {}) openCompoundEvents).2.1
      "add" [("name", "x")] =
    (false, { (parseEvents sampleQt NifXmlHandler.new (clearRegistry {})
        openCompoundEvents).2.1 with
      errorStr := "add needs at least name and type attributes" }) :=
  ((C11_add_needs_name_and_type sampleQt _ _
    (reachable_parseEvents sampleQt openCompoundEvents _ _ (Reachable.init {})
      (by decide))).1 [("name", "x")] (Or.inl (by decide)) (Or.inr (by decide))).1

/-- C12: in every state the parser reaches, and in the registry that
`endDocument` leaves from it, every key of the primitive-type, field-group,
ancestor and record-type hashes is non-empty and is the id of the entry stored
under it. Closing a `type` whose id is empty, or a `compound`, `ancestor` or
`niblock` whose id is empty, returns false and leaves the registry as it
was. -/
theorem C12_keys_are_ids (q : Externals) (h : NifXmlHandler) (m : NifModel)
    (hr : Reachable q h m) :
    ((∀ e ∈ m.types, e.1 ≠ "" ∧ e.2.id = e.1) ∧ (∀ e ∈ m.compounds, e.1 ≠ "" ∧ e.2.id = e.1) ∧
      (∀ e ∈ m.ancestors, e.1 ≠ "" ∧ e.2.id = e.1) ∧
      (∀ e ∈ m.blocks, e.1 ≠ "" ∧ e.2.id = e.1)) ∧
    ((∀ e ∈ (endDocument q h m).2.2.types, e.1 ≠ "" ∧ e.2.id = e.1) ∧
      (∀ e ∈ (endDocument q h m).2.2.compounds, e.1 ≠ "" ∧ e.2.id = e.1) ∧
      (∀ e ∈ (endDocument q h m).2.2.ancestors, e.1 ≠ "" ∧ e.2.id = e.1) ∧
      (∀ e ∈ (endDocument q h m).2.2.blocks, e.1 ≠ "" ∧ e.2.id = e.1)) ∧
    (∀ t, h.typ = some t → t.id = "" →
      (endElement m h "type").1 = false ∧ (endElement m h "type").2.2 = m) ∧
    (∀ b name, h.blk = some b → b.id = "" →
      (name = "compound" ∨ name = "ancestor" ∨ name = "niblock") →
      (endElement m h name).1 = false ∧ (endElement m h name).2.2 = m) := by
  have hI := inv_of_reachable q hr
  obtain ⟨rt, rc, ra, rb, rbl⟩ := regInv_of_reachable q hr
  obtain ⟨et, eb⟩ := registry_after_endDocument q hr
  have hfalse : ∀ name, (endElement m h name).1 = false →
      (endElement m h name).1 = false ∧ (endElement m h name).2.2 = m := fun name hf =>
    ⟨hf, deliver_false_model q h m (.endElement 0 name) hf⟩
  refine ⟨⟨rt, fun e he => ⟨(rc e he).1, (rc e he).2.1⟩, fun e he => ⟨(ra e he).1, (ra e he).2.1⟩,
    fun e he => ⟨(rb e he).1, (rb e he).2.1⟩⟩,
    ⟨et, fun e he => ⟨(eb e (Or.inl he)).1, (eb e (Or.inl he)).2.1⟩,
      fun e he => ⟨(eb e (Or.inr (Or.inl he))).1, (eb e (Or.inr (Or.inl he))).2.1⟩,
      fun e he => ⟨(eb e (Or.inr (Or.inr he))).1, (eb e (Or.inr (Or.inr he))).2.1⟩⟩, ?_, ?_⟩
  · intro t ht hid
    apply hfalse
    cases hacc : (endElement m h "type").1 with
    | false => rfl
    | true =>
      exfalso
      rcases (endElement_accept_iff hI "type").1 hacc with ⟨_, hn⟩ | ⟨_, _, _, t', ht', hid'⟩ |
        ⟨_, (⟨_, hn⟩ | ⟨_, hn⟩ | ⟨_, hn⟩), _⟩ | ⟨_, (⟨_, hn⟩ | ⟨_, hn⟩)⟩
      · simp at hn
      · rw [ht] at ht'
        cases ht'
        exact hid' hid
      · simp at hn
      · simp at hn
      · simp at hn
      · simp at hn
      · simp at hn
  · intro b name hb hid hname
    apply hfalse
    cases hacc : (endElement m h name).1 with
    | false => rfl
    | true =>
      exfalso
      rcases (endElement_accept_iff hI name).1 hacc with ⟨_, hn⟩ | ⟨_, _, hn, _⟩ |
        ⟨_, _, b', hb', hid'⟩ | ⟨_, (⟨_, hn⟩ | ⟨_, hn⟩)⟩
      · subst hn; simp at hname
      · subst hn; simp at hname
      · rw [hb] at hb'
        cases hb'
        exact hid' hid
      · subst hn; simp at hname
      · subst hn; simp at hname

/-- C12 inside an open field group without a name: closing it fails. -/
theorem C12_keys_are_ids_witness :
    (endElement (parseEvents sampleQt NifXmlHandler.new (clearRegistry {})
        namelessCompoundEvents).2.2
      (parseEvents sampleQt NifXmlHandler.new (clearRegistry {}) namelessCompoundEvents).2.1
      "compound").1 = false :=
  ((C12_keys_are_ids sampleQt _ _
    (reachable_parseEvents sampleQt namelessCompoundEvents _ _ (Reachable.init {})
      (by decide))).2.2.2 {} "compound" (by decide) (by decide) (Or.inl rfl)).1

/-- C17: take an accepted sequence of events with two `type` elements whose
`name` attributes agree once lower-cased, the second one being the last `type`
element of that id. Then the primitive-type hash holds both declarations, the
later one in front; `value` under that id returns the later one; the default
that `endDocument` gives a field of that type without a value of its own is
the later one's; and `endDocument` leaves the primitive-type hash as it is. -/
theorem C17_last_declared_type_wins (q : Externals) (m0 : NifModel)
    (pre mid post : List SaxEvent) (l1 k1 l2 k2 : Int) (a1 a2 : QXmlAttributes)
    (h : NifXmlHandler) (m : NifModel)
    (hsame : q.toLower (a1.value "name") = q.toLower (a2.value "name"))
    (hlast : ∀ l a, SaxEvent.startElement l "type" a ∈ post →
      q.toLower (a.value "name") ≠ q.toLower (a2.value "name"))
    (hparse : parseEvents q NifXmlHandler.new (clearRegistry m0)
      (pre ++ .startElement l1 "type" a1 :: .endElement k1 "type" ::
        (mid ++ .startElement l2 "type" a2 :: .endElement k2 "type" :: post)) = (true, h, m)) :
    List.Sublist [(q.toLower (a2.value "name"), declaredType q a2),
      (q.toLower (a1.value "name"), declaredType q a1)] m.types ∧
    m.types.value (q.toLower (a1.value "name")) = some (declaredType q a2) ∧
    (∀ it : NifData, it.type = q.toLower (a1.value "name") → it.value.isValid = false →
      setDefault m.types it = { it with value := (declaredType q a2).value }) ∧
    ∀ h', (endDocument q h' m).2.2.types = m.types := by
  have hacc : (parseEvents q NifXmlHandler.new (clearRegistry m0)
      (pre ++ .startElement l1 "type" a1 :: .endElement k1 "type" ::
        (mid ++ .startElement l2 "type" a2 :: .endElement k2 "type" :: post))).1 = true := by
    rw [hparse]
  obtain ⟨p1, p2⟩ := parseEvents_append_true q pre _ _ _ hacc
  have hrp := reachable_parseEvents q pre _ _ (Reachable.init m0) p1
  rw [p2] at hacc
  obtain ⟨h2, m2, hr2, e2, t2, _⟩ := type_element q hrp l1 k1 a1 _ hacc
  rw [e2] at hacc
  obtain ⟨p3, p4⟩ := parseEvents_append_true q mid _ _ _ hacc
  have hr3 := reachable_parseEvents q mid _ _ hr2 p3
  have s3 := types_suffix_run q mid _ _ hr2 p3
  rw [p4] at hacc
  obtain ⟨h4, m4, hr4, e4, t4, n4⟩ := type_element q hr3 l2 k2 a2 _ hacc
  rw [e4] at hacc
  have s5 := types_suffix_run q post _ _ hr4 hacc
  have v5 := types_value_run q (q.toLower (a2.value "name")) post _ _ hr4 hacc
    (by intro t ht; rw [n4] at ht; cases ht) hlast
  have hfin : parseEvents q h4 m4 post = (true, h, m) := by
    rw [← e4, ← p4, ← e2, ← p2, hparse]
  rw [hfin] at s5 v5
  simp only at s5 v5
  have hval : m.types.value (q.toLower (a1.value "name")) = some (declaredType q a2) := by
    rw [hsame, v5, t4]
    simp [QHash.value]
  refine ⟨?_, hval, ?_, fun h' => (endDocument_frame q h' m).2.1⟩
  · refine List.Sublist.trans ?_ s5.sublist
    rw [t4]
    refine List.Sublist.cons₂ _ ?_
    refine List.Sublist.trans ?_ s3.sublist
    rw [t2]
    exact List.Sublist.cons₂ _ (List.nil_sublist _)
  · intro it hit hinv
    have hc : m.types.contains (q.toLower (a1.value "name")) = true :=
      (QHash.contains_iff_value _ _).2 ⟨_, hval⟩
    unfold setDefault
    simp [hc, hinv, hit, hval]

/-- C17 on a document that declares `int` twice: the lookup gives the second
declaration. -/
theorem C17_last_declared_type_wins_witness :
    (parseEvents sampleQt NifXmlHandler.new (clearRegistry {})
      twiceDeclaredDocument.events).2.2.types.value "int" =
    some (declaredType sampleQt [("name", "int"), ("type", "int32"), ("value", "2")]) :=
  (C17_last_declared_type_wins sampleQt {} [.startElement 1 "niflotoxml" []] []
    [ .startElement 4 "compound" [("name", "pair")],
      .startElement 5 "add" [("name", "x"), ("type", "int")],
      .endElement 5 "add",
      .endElement 6 "compound",
      .endElement 7 "niflotoxml" ]
    2 2 3 3 [("name", "Int"), ("type", "int32"), ("value", "1")]
    [("name", "int"), ("type", "int32"), ("value", "2")]
    (parseEvents sampleQt NifXmlHandler.new (clearRegistry {}) twiceDeclaredDocument.events).2.1
    (parseEvents sampleQt NifXmlHandler.new (clearRegistry {}) twiceDeclaredDocument.events).2.2
    (by decide) (by intro l a hm; simp at hm) (by decide)).2.1

/-! ## Failure -/

set_option maxRecDepth 100000 in
/-- C14 fails on the code: the document declares two primitive types, a field
group and a record type that inherits an undeclared ancestor. The niblock
sweep fails, yet the registry holds every entry of the document, the
unconditional set has been reassigned and the fields of `Vector3` carry the
default of `float`. -/
theorem C14_counterexample :
    parseXmlDescription sampleQt {} "nif.xml" (some exampleDocumentWithFloat) =
      ("XML parse error (line 11):<br>niblock NiNode inherits unknown ancestor AController",
        { internalTypes := internalTypeTags
          types :=
            [("float", { id := "float", internalType := 6, value := .double "0.0" }),
              ("flag", { id := "flag", internalType := 1, value := .int 0 })]
          compounds :=
            [("Vector3",
              { id := "Vector3"
                types :=
                  [{ name := "x", type := "float", value := .double "0.0" },
                    { name := "x", type := "float", value := .double "0.0" },
                    { name := "x", type := "float", value := .double "0.0" }] })]
          ancestors := []
          blocks := [("NiNode", { id := "NiNode", ancestors := ["AController"] })]
          uncondTypes := ["float", "flag", "Vector3"] }) := by
  decide

/-- C14, amended: when the reader fails, the error string is not empty and the
registry is not rolled back. Either a callback fails: then the registry is the
one the callbacks accepted before it have built, the unconditional set is the
one from before the call and no field has a default. Or `endDocument` fails:
then the primitive types are those of the document, every entry of the three
block hashes is there under its key, as parsed or with its defaults
propagated, and the unconditional set has been reassigned, starting with the
ids of the primitive types. -/
theorem C14_failure_is_not_rolled_back (q : Externals) (m0 : NifModel) (filename : String)
    (source : XmlSource)
    (hfail : (readerParse q NifXmlHandler.new (clearRegistry m0) source).1 = false) :
    (parseXmlDescription q m0 filename (some source)).1 ≠ "" ∧
    ((∃ pre e post, source.events = pre ++ e :: post ∧
        (parseEvents q NifXmlHandler.new (clearRegistry m0) pre).1 = true ∧
        (deliver q (parseEvents q NifXmlHandler.new (clearRegistry m0) pre).2.1
          (parseEvents q NifXmlHandler.new (clearRegistry m0) pre).2.2 e).1 = false ∧
        (parseXmlDescription q m0 filename (some source)).2 =
          (parseEvents q NifXmlHandler.new (clearRegistry m0) pre).2.2 ∧
        (parseXmlDescription q m0 filename (some source)).2.uncondTypes = m0.uncondTypes ∧
        ∀ e, (e ∈ (parseXmlDescription q m0 filename (some source)).2.compounds ∨
            e ∈ (parseXmlDescription q m0 filename (some source)).2.ancestors ∨
            e ∈ (parseXmlDescription q m0 filename (some source)).2.blocks) →
          ∀ d ∈ e.2.types, d.value = QVariant.invalid) ∨
      ((parseEvents q NifXmlHandler.new (clearRegistry m0) source.events).1 = true ∧
        (parseXmlDescription q m0 filename (some source)).2.types =
          (parseEvents q NifXmlHandler.new (clearRegistry m0) source.events).2.2.types ∧
        List.Forall₂
          (Swept (parseEvents q NifXmlHandler.new (clearRegistry m0) source.events).2.2.types)
          (parseXmlDescription q m0 filename (some source)).2.compounds
          (parseEvents q NifXmlHandler.new (clearRegistry m0) source.events).2.2.compounds ∧
        List.Forall₂
          (Swept (parseEvents q NifXmlHandler.new (clearRegistry m0) source.events).2.2.types)
          (parseXmlDescription q m0 filename (some source)).2.ancestors
          (parseEvents q NifXmlHandler.new (clearRegistry m0) source.events).2.2.ancestors ∧
        List.Forall₂
          (Swept (parseEvents q NifXmlHandler.new (clearRegistry m0) source.events).2.2.types)
          (parseXmlDescription q m0 filename (some source)).2.blocks
          (parseEvents q NifXmlHandler.new (clearRegistry m0) source.events).2.2.blocks ∧
        (parseEvents q NifXmlHandler.new (clearRegistry m0) source.events).2.2.types.keys q <+:
          (parseXmlDescription q m0 filename (some source)).2.uncondTypes)) := by
  have hx : parseXmlDescription q m0 filename (some source) =
      ((readerParse q NifXmlHandler.new (clearRegistry m0) source).2.1.errorStr,
        (readerParse q NifXmlHandler.new (clearRegistry m0) source).2.2) := rfl
  rw [hx]
  simp only
  rcases readerParse_false q _ _ source hfail with ⟨hpf, hrp⟩ | ⟨hpt, hef, hrp⟩
  · obtain ⟨pre, e, post, hes, hp, hdel, hm, hh⟩ := parseEvents_false q _ _ _ hpf
    rw [hrp]
    refine ⟨by rw [hh]; exact fatalError_ne_empty _ _, Or.inl ⟨pre, e, post, hes, hp, hdel, hm, ?_, ?_⟩⟩
    · rw [parseEvents_keeps_uncondTypes]
      rfl
    · rw [hm]
      have hr := reachable_parseEvents q pre _ _ (Reachable.init m0) hp
      obtain ⟨_, rc, ra, rb, _⟩ := regInv_of_reachable q hr
      intro e he d hd
      rcases he with he | he | he
      · exact captured_value q d ((rc e he).2.2 d hd)
      · exact captured_value q d ((ra e he).2.2 d hd)
      · exact captured_value q d ((rb e he).2.2 d hd)
  · rw [hrp]
    obtain ⟨_, f2, f3, f4, f5, f6⟩ := endDocument_frame q
      (parseEvents q NifXmlHandler.new (clearRegistry m0) source.events).2.1
      (parseEvents q NifXmlHandler.new (clearRegistry m0) source.events).2.2
    exact ⟨fatalError_ne_empty _ _, Or.inr ⟨hpt, f2, f3, f4, f5, f6⟩⟩

/-- C14, amended, on the document of the counterexample. -/
theorem C14_failure_is_not_rolled_back_witness :
    (parseXmlDescription sampleQt {} "nif.xml" (some exampleDocumentWithFloat)).1 ≠ "" :=
  (C14_failure_is_not_rolled_back sampleQt {} "nif.xml" exampleDocumentWithFloat
    (by decide)).1

/-! ## Case of type names -/

set_option maxRecDepth 100000 in
/-- C20 fails on the code: the document compiles, the field `v` of `user`
names the field group `Vec` in its `type` attribute, there is no primitive
type `vec`, and the field is not rejected: its type `vec` is the id of another
field group. -/
theorem C20_counterexample :
    (parseXmlDescription sampleQt {} "nif.xml" (some mixedCaseDocument)).1 = "" ∧
    (parseXmlDescription sampleQt {} "nif.xml" (some mixedCaseDocument)).2.compounds.contains
      "Vec" = true ∧
    sampleQt.toLower "Vec" = "vec" ∧
    ((parseXmlDescription sampleQt {} "nif.xml" (some mixedCaseDocument)).2.compounds.value
      "user").map (fun c => c.types.map NifData.type) = some ["vec"] ∧
    (parseXmlDescription sampleQt {} "nif.xml" (some mixedCaseDocument)).2.types.contains
      "vec" = false ∧
    (parseXmlDescription sampleQt {} "nif.xml" (some mixedCaseDocument)).2.compounds.contains
      "vec" = true := by
  decide

/-- C20, amended: let lower-casing a lower-cased string change nothing. After a
successful `endDocument` from a state the parser reaches, the type of every
field of every entry of the three block hashes is a lower-cased string, so it
is none of the keys of the field-group hash that lower-casing changes; and it
resolves: it is a key of the field-group hash or of the primitive-type hash,
whichever has the lower-cased name. -/
theorem C20_field_types_are_lower_case (q : Externals)
    (hidem : ∀ s, q.toLower (q.toLower s) = q.toLower s)
    (h : NifXmlHandler) (m : NifModel) (hr : Reachable q h m)
    (hs : (endDocument q h m).1 = true) :
    ∀ e, (e ∈ (endDocument q h m).2.2.compounds ∨ e ∈ (endDocument q h m).2.2.ancestors ∨
        e ∈ (endDocument q h m).2.2.blocks) →
      ∀ d ∈ e.2.types,
        (∃ list : QXmlAttributes, d.type = q.toLower (list.value "type")) ∧
        q.toLower d.type = d.type ∧
        (∀ g ∈ (endDocument q h m).2.2.compounds, q.toLower g.1 ≠ g.1 →
          d.type ≠ g.1 ∧ d.type ≠ g.2.id) ∧
        ((endDocument q h m).2.2.compounds.contains d.type = true ∨
          (endDocument q h m).2.2.types.contains d.type = true) := by
  intro e he d hd
  obtain ⟨d0, ⟨list, _, _, hd0⟩, _, ht⟩ := ((registry_after_endDocument q hr).2 e he).2.2 d hd
  have hty : d.type = q.toLower (list.value "type") := by rw [ht, hd0]; rfl
  have hfix : q.toLower d.type = d.type := by rw [hty, hidem]
  refine ⟨⟨list, hty⟩, hfix, ?_, resolves_after_endDocument q hr hs e he d hd⟩
  intro g hg hup
  have hgid := ((registry_after_endDocument q hr).2 g (Or.inl hg)).2.1
  have hne : d.type ≠ g.1 := by
    intro heq
    apply hup
    rw [← heq, hfix]
  exact ⟨hne, by rw [hgid]; exact hne⟩

/-- C20, amended, on the document of the counterexample: the type of the field
of `user` is the lower-case `vec`, and it resolves. -/
theorem C20_field_types_are_lower_case_witness :
    sampleQt.toLower "vec" = "vec" ∧
    ((endDocument sampleQt
        (parseEvents sampleQt NifXmlHandler.new (clearRegistry {}) mixedCaseDocument.events).2.1
        (parseEvents sampleQt NifXmlHandler.new (clearRegistry {})
          mixedCaseDocument.events).2.2).2.2.compounds.contains "vec" = true ∨
      (endDocument sampleQt
        (parseEvents sampleQt NifXmlHandler.new (clearRegistry {}) mixedCaseDocument.events).2.1
        (parseEvents sampleQt NifXmlHandler.new (clearRegistry {})
          mixedCaseDocument.events).2.2).2.2.types.contains "vec" = true) :=
  (C20_field_types_are_lower_case sampleQt sampleToLower_idem _ _
    (reachable_parseEvents sampleQt mixedCaseDocument.events _ _ (Reachable.init {})
      (by decide)) (by decide)
    ("user", { id := "user", types := [{ name := "v", type := "vec" }] }) (Or.inl (by decide))
    { name := "v", type := "vec" } (by decide)).2.imp_right And.right

/-! ## The root element -/

/-- C15: let the reader have got through the tags `es` of a document, each
accepted by the handler, and let `h`, `m` and `s` be the handler, the registry
and the reader's state then. The root element is opened only at depth 0 and at
most once: if there is a tag at all, the first one opens `niflotoxml` and no
later one does. The depth of the handler is the number of open elements, and
the handler accepts `niflotoxml` exactly at depth 0. So a document that goes
on to open `niflotoxml` while another element is open fails. And a document
that goes on to open an element, `niflotoxml` or another, after the root has
been closed fails: the reader reports its own error without calling
`startElement`, and the error string is the `Syntax error` of `fatalError`. -/
theorem C15_single_root (q : Externals) (m0 : NifModel) (es : List SaxEvent)
    (h : NifXmlHandler) (m : NifModel) (s : ReaderState)
    (hrun : xmlReaderEvents q NifXmlHandler.new (clearRegistry m0)
      { opened := [], closed := false } es = (true, h, m, s)) :
    (es = [] ∨ ∃ l a rest, es = .startElement l "niflotoxml" a :: rest ∧
      ∀ l' a', SaxEvent.startElement l' "niflotoxml" a' ∉ rest) ∧
    h.depth = s.opened.length ∧
    (∀ list, (startElement q m h "niflotoxml" list).1 = true ↔ h.depth = 0) ∧
    (s.opened ≠ [] → ∀ l a post endLine,
      (xmlReaderParse q NifXmlHandler.new (clearRegistry m0)
        { events := es ++ .startElement l "niflotoxml" a :: post, endLine := endLine }).1 =
        false) ∧
    (s.closed = true → ∀ l n a post endLine,
      xmlReaderParse q NifXmlHandler.new (clearRegistry m0)
          { events := es ++ .startElement l n a :: post, endLine := endLine } =
        (false, h.fatalError l, m) ∧
      (h.fatalError l).errorString =
        "XML parse error (line " ++ toString l ++ "):<br>" ++ "Syntax error") := by
  have hacc : (xmlReaderEvents q NifXmlHandler.new (clearRegistry m0)
      { opened := [], closed := false } es).1 = true := by rw [hrun]
  have hp := (xmlReaderEvents_true q es _ _ _ hacc).1
  rw [hrun] at hp
  simp only at hp
  have hr : Reachable q h m := by
    have := reachable_parseEvents q es _ _ (Reachable.init m0) (by rw [hp])
    rw [hp] at this
    exact this
  have hI := inv_of_reachable q hr
  have hfacts : (es = [] ∨ ∃ l a rest, es = .startElement l "niflotoxml" a :: rest ∧
      ∀ l' a', SaxEvent.startElement l' "niflotoxml" a' ∉ rest) ∧
      h.depth = s.opened.length ∧ (s.closed = true → s.opened = []) := by
    cases es with
    | nil =>
      simp only [xmlReaderEvents, Prod.mk.injEq] at hrun
      obtain ⟨_, rfl, _, rfl⟩ := hrun
      exact ⟨Or.inl rfl, rfl, fun hc => by cases hc⟩
    | cons e rest =>
      obtain ⟨s1, ht, hdel, heq⟩ := xmlReaderEvents_cons_true q _ _ _ e rest hacc
      rw [heq] at hacc hrun
      have hI0 := inv_of_reachable q (Reachable.init (q := q) m0)
      cases e with
      | endElement l n => simp [tagStep] at ht
      | startElement l n a =>
        simp only [tagStep] at ht
        simp only [Bool.false_eq_true, if_false, Option.some.injEq] at ht
        subst ht
        have hn : n = "niflotoxml" := by
          have h1 := (startElement_accept_iff q hI0 n a).1 hdel
          have hin : NifXmlHandler.new.innermost = none := by decide
          rw [hin] at h1
          exact h1.1
        subst hn
        obtain ⟨_, dup, _⟩ := deliver_depth q hI0 _ hdel
        obtain ⟨_, i2, i3, i4⟩ := reader_run q rest _ _ _
          (Reachable.step _ (Reachable.init m0) hdel)
          (by rw [dup l _ a rfl]; rfl) (by simp) hacc
        rw [hrun] at i2 i3
        exact ⟨Or.inr ⟨l, a, rest, rfl, i4⟩, i2, i3.1⟩
  obtain ⟨f1, f2, f3⟩ := hfacts
  have happ : ∀ tail, xmlReaderEvents q NifXmlHandler.new (clearRegistry m0)
      { opened := [], closed := false } (es ++ tail) = xmlReaderEvents q h m s tail := by
    intro tail
    have := xmlReaderEvents_append q es tail _ _ _ hacc
    rw [hrun] at this
    exact this
  refine ⟨f1, f2, startElement_root_iff q hI, ?_, ?_⟩
  · intro hopen l a post endLine
    have hcl : s.closed = false := by
      cases hc : s.closed with
      | false => rfl
      | true => exact absurd (f3 hc) hopen
    have hrej : (startElement q m h "niflotoxml" a).1 = false := by
      cases hs : (startElement q m h "niflotoxml" a).1 with
      | false => rfl
      | true =>
        exfalso
        have h0 := (startElement_root_iff q hI a).1 hs
        rw [f2] at h0
        exact hopen (List.length_eq_zero.1 (by exact_mod_cast h0))
    unfold xmlReaderParse
    simp only
    rw [happ, xmlReaderEvents]
    simp only [tagStep, hcl, Bool.false_eq_true, if_false, deliver, hrej]
  · intro hcl l n a post endLine
    refine ⟨?_, ?_⟩
    · unfold xmlReaderParse
      simp only
      rw [happ, xmlReaderEvents]
      simp only [tagStep, hcl, if_true, SaxEvent.line]
    · simp [fatalError, errorString, isEmpty, errorStr_of_reachable q hr]

/-- C15 on a document with two roots: the reader fails at the second one. -/
theorem C15_single_root_witness :
    xmlReaderParse sampleQt NifXmlHandler.new (clearRegistry {}) twoRootsDocument =
      (false, NifXmlHandler.new.fatalError 3, clearRegistry {}) ∧
    (NifXmlHandler.new.fatalError 3).errorString =
      "XML parse error (line " ++ toString (3 : Int) ++ "):<br>" ++ "Syntax error" :=
  (C15_single_root sampleQt {} [.startElement 1 "niflotoxml" [], .endElement 2 "niflotoxml"]
    NifXmlHandler.new (clearRegistry {}) { opened := [], closed := true } (by decide)).2.2.2.2
    rfl 3 "niflotoxml" [] [.endElement 4 "niflotoxml"] 5

end NifXml
